import Mathlib

/-!
Matrix calculator (`mnyikaproject1g.cpp`): embedding and verification.

The C++ `double` is embedded as `ℚ`: arithmetic is taken exactly, infinities and NaN
are outside the embedding, and a division by zero yields `0` as everywhere in `ℚ`.  The
range of `double` enters where the program observes it, in the range report of
`std::stod`; the rounding of `double` arithmetic has a section of its own.  A
`std::vector<std::vector<double>>` is a `List (List ℚ)`, a `std::string` a `List Char`,
and a C++ exception the error side of `Except Exn`.  Unchecked `v[i][j]` accesses are embedded with a default value; the
theorems about them assume the shape invariant under which every access of the source
is in bounds.  A `for` loop is a fold over the list of its indices.
-/

/-- Square rational matrices of Mathlib: the mathematical reference for products,
inverses and the (Leibniz) determinant. -/
abbrev SqMat (n : Nat) : Type := Matrix (Fin n) (Fin n) ℚ

namespace MatrixCalc

/-! ## Exceptions and raw two-dimensional vectors -/

/-- The three standard exception classes thrown by the program, with `what()`. -/
inductive Exn where
  | invalid_argument (what : String)
  | runtime_error (what : String)
  | out_of_range (what : String)
  deriving DecidableEq, Repr

instance instDecidableEqExcept {ε α : Type} [DecidableEq ε] [DecidableEq α] :
    DecidableEq (Except ε α)
  | .ok a, .ok b => if h : a = b then isTrue (by rw [h]) else isFalse (by simpa using h)
  | .error a, .error b => if h : a = b then isTrue (by rw [h]) else isFalse (by simpa using h)
  | .ok _, .error _ => isFalse (by simp)
  | .error _, .ok _ => isFalse (by simp)

/-- Unchecked read `a[i][j]` of a `vector<vector<double>>`. -/
def rd (a : List (List ℚ)) (i j : Nat) : ℚ := (a.getD i []).getD j 0

/-- Unchecked write `a[i][j] = v` of a `vector<vector<double>>`. -/
def wr (a : List (List ℚ)) (i j : Nat) (v : ℚ) : List (List ℚ) :=
  a.set i ((a.getD i []).set j v)

/-- The call `std::swap(a[p], a[q])` on two rows. -/
def swapRows (a : List (List ℚ)) (p q : Nat) : List (List ℚ) :=
  (a.set p (a.getD q [])).set q (a.getD p [])

/-- The literal `1e-10` used as singularity threshold. -/
def eps : ℚ := 1 / 10 ^ 10

/-- A raw vector of vectors has `r` rows, each of `c` entries. -/
def Shape (a : List (List ℚ)) (r c : Nat) : Prop :=
  a.length = r ∧ ∀ row ∈ a, row.length = c

/-! ## The class `Matrix` -/

/-- The data members of `class Matrix`; the `int` members `rows`, `cols` only ever
hold vector sizes, so they are natural numbers. -/
structure Matrix where
  data : List (List ℚ)
  rows : Nat
  cols : Nat
  deriving DecidableEq, Repr

namespace Matrix

/-- The class invariant: `data` has `rows` rows of `cols` entries each. -/
def WF (m : Matrix) : Prop := Shape m.data m.rows m.cols

/-- Constructor `Matrix(int r, int c)`: zero-filled. -/
def zeros (r c : Nat) : Matrix :=
  { data := List.replicate r (List.replicate c 0), rows := r, cols := c }

/-- Constructor `Matrix(const vector<vector<double>>& input)`; `input[0]` is read
unchecked. -/
def ofData (input : List (List ℚ)) : Matrix :=
  { data := input, rows := input.length, cols := (input.getD 0 []).length }

/-- Reading through `operator()(int r, int c)`: bounds-checked element access. -/
def elem (m : Matrix) (r c : Int) : Except Exn ℚ :=
  if r < 0 ∨ r ≥ (m.rows : Int) ∨ c < 0 ∨ c ≥ (m.cols : Int) then
    .error (.out_of_range "Matrix index out of range")
  else .ok (rd m.data r.toNat c.toNat)

/-- Writing through the reference returned by `operator()(int r, int c)`. -/
def elemAssign (m : Matrix) (r c : Int) (v : ℚ) : Except Exn Matrix :=
  if r < 0 ∨ r ≥ (m.rows : Int) ∨ c < 0 ∨ c ≥ (m.cols : Int) then
    .error (.out_of_range "Matrix index out of range")
  else .ok { m with data := wr m.data r.toNat c.toNat v }

/-- The method `operator+`. -/
def add (m other : Matrix) : Except Exn Matrix :=
  if m.rows ≠ other.rows ∨ m.cols ≠ other.cols then
    .error (.invalid_argument "Matrix dimensions must match for addition")
  else
    (List.range m.rows).foldlM (fun result (i : Nat) =>
      (List.range m.cols).foldlM (fun result (j : Nat) =>
        result.elemAssign (i : Int) (j : Int) (rd m.data i j + rd other.data i j)) result)
      (zeros m.rows m.cols)

/-- The method `operator-`. -/
def sub (m other : Matrix) : Except Exn Matrix :=
  if m.rows ≠ other.rows ∨ m.cols ≠ other.cols then
    .error (.invalid_argument "Matrix dimensions must match for subtraction")
  else
    (List.range m.rows).foldlM (fun result (i : Nat) =>
      (List.range m.cols).foldlM (fun result (j : Nat) =>
        result.elemAssign (i : Int) (j : Int) (rd m.data i j - rd other.data i j)) result)
      (zeros m.rows m.cols)

/-- The method `operator*`; `result(i, j) += x` reads and writes through
`operator()`. -/
def mul (m other : Matrix) : Except Exn Matrix :=
  if m.cols ≠ other.rows then
    .error (.invalid_argument "Incompatible matrix dimensions for multiplication")
  else
    (List.range m.rows).foldlM (fun result (i : Nat) =>
      (List.range other.cols).foldlM (fun result (j : Nat) =>
        (List.range m.cols).foldlM (fun result (k : Nat) => do
          let cur ← result.elem (i : Int) (j : Int)
          result.elemAssign (i : Int) (j : Int) (cur + rd m.data i k * rd other.data k j))
          result) result)
      (zeros m.rows other.cols)

end Matrix

/-! ## Gaussian elimination with partial pivoting -/

/-- The pivot search of `gaussianElimination`: `max_row` after the loop over
`k = i+1 .. n-1`. -/
def pivotRow (aug : List (List ℚ)) (n i : Nat) : Nat :=
  (List.range' (i + 1) (n - (i + 1))).foldl
    (fun max_row k => if |rd aug k i| > |rd aug max_row i| then k else max_row) i

/-- The innermost loop `for (j = i; j < 2*n; ++j) aug[k][j] -= factor * aug[i][j]`. -/
def rowSubUp (n i k : Nat) (factor : ℚ) (aug : List (List ℚ)) : List (List ℚ) :=
  (List.range' i (2 * n - i)).foldl
    (fun aug j => wr aug k j (rd aug k j - factor * rd aug i j)) aug

/-- The innermost loop `for (j = 2*n - 1; j >= i; --j) aug[k][j] -= factor * aug[i][j]`. -/
def rowSubDown (n i k : Nat) (factor : ℚ) (aug : List (List ℚ)) : List (List ℚ) :=
  (List.range' i (2 * n - i)).reverse.foldl
    (fun aug j => wr aug k j (rd aug k j - factor * rd aug i j)) aug

/-- One iteration of the first outer loop: pivot search, swap, elimination below. -/
def forwardStep (n : Nat) (aug : List (List ℚ)) (i : Nat) : List (List ℚ) :=
  let max_row := pivotRow aug n i
  let aug := swapRows aug max_row i
  (List.range' (i + 1) (n - (i + 1))).foldl
    (fun aug k =>
      let factor := rd aug k i / rd aug i i
      rowSubUp n i k factor aug) aug

/-- One iteration of the back-substitution loop: elimination above row `i`. -/
def backStep (n : Nat) (aug : List (List ℚ)) (i : Nat) : List (List ℚ) :=
  (List.range i).reverse.foldl
    (fun aug k =>
      let factor := rd aug k i / rd aug i i
      rowSubDown n i k factor aug) aug

/-- The method `gaussianElimination`, returning the updated argument. -/
def gaussianElimination (augmented : List (List ℚ)) : List (List ℚ) :=
  let n := augmented.length
  let augmented := (List.range n).foldl (forwardStep n) augmented
  (List.range n).reverse.foldl (backStep n) augmented

namespace Matrix

/-- The augmented matrix `[A | I]` built at the start of `inverse`. -/
def augment (m : Matrix) : List (List ℚ) :=
  (List.range m.rows).foldl
    (fun aug i =>
      let aug := (List.range m.rows).foldl (fun aug j => wr aug i j (rd m.data i j)) aug
      wr aug i (i + m.rows) 1)
    (List.replicate m.rows (List.replicate (2 * m.rows) 0))

/-- The normalisation loop of `inverse` over the reduced augmented matrix. -/
def normalize (rows : Nat) (augmented : List (List ℚ)) : Except Exn Matrix :=
  (List.range rows).foldlM (fun inverse_matrix (i : Nat) =>
    if |rd augmented i i| < eps then
      .error (.runtime_error "Matrix is not invertible")
    else
      (List.range rows).foldlM (fun inverse_matrix (j : Nat) =>
        inverse_matrix.elemAssign (i : Int) (j : Int)
          (rd augmented i (j + rows) / rd augmented i i))
        inverse_matrix)
    (zeros rows rows)

/-- The method `inverse`. -/
def inverse (m : Matrix) : Except Exn Matrix :=
  if m.rows ≠ m.cols then
    .error (.invalid_argument "Only square matrices can be inverted")
  else
    normalize m.rows (gaussianElimination (augment m))

/-- The elimination of one pivot column in `determinant`: the loops over `j` and `k`. -/
def luStep (rows : Nat) (lu : List (List ℚ)) (i : Nat) : List (List ℚ) :=
  (List.range' (i + 1) (rows - (i + 1))).foldl
    (fun lu j =>
      let factor := rd lu j i / rd lu i i
      (List.range' (i + 1) (rows - (i + 1))).foldl
        (fun lu k => wr lu j k (rd lu j k - factor * rd lu i k)) lu) lu

/-- The outer loop of `determinant` over the remaining pivot indices, with its early
`return 0.0`. -/
def luLoop (rows : Nat) : List Nat → List (List ℚ) → ℚ → ℚ
  | [], _, det => det
  | i :: rest, lu, det =>
    if |rd lu i i| < eps then 0
    else luLoop rows rest (luStep rows lu i) (det * rd lu i i)

/-- The method `determinant`. -/
def determinant (m : Matrix) : Except Exn ℚ :=
  if m.rows ≠ m.cols then
    .error (.invalid_argument "Determinant can only be calculated for square matrices")
  else if m.rows = 1 then .ok (rd m.data 0 0)
  else if m.rows = 2 then
    .ok (rd m.data 0 0 * rd m.data 1 1 - rd m.data 0 1 * rd m.data 1 0)
  else .ok (luLoop m.rows (List.range m.rows) m.data 1)

end Matrix

end MatrixCalc

namespace MatrixCalc

/-! ## The matrix literal parser -/

/-- The C library predicate `isspace` in the default locale. -/
def isspace (ch : Char) : Bool :=
  ch = ' ' || ch = '\t' || ch = '\n' || ch = '\x0b' || ch = '\x0c' || ch = '\r'

/-- Membership in the set `" \t"` given to `find_first_not_of` / `find_last_not_of`. -/
def isBlank (ch : Char) : Bool := ch = ' ' || ch = '\t'

/-- The call `std::getline(stream, str, delim)` on a string stream holding `s`: `none`
when the stream is exhausted (the loop condition is false), otherwise the extracted
string and the rest of the stream, the delimiter being consumed. -/
def getline (delim : Char) (s : List Char) : Option (List Char × List Char) :=
  match s with
  | [] => none
  | _ :: _ => some (s.takeWhile (fun ch => ch != delim), (s.dropWhile (fun ch => ch != delim)).drop 1)

/-- The value of a sequence of decimal digits. -/
def digitsVal (ds : List Char) : Nat :=
  ds.foldl (fun acc ch => 10 * acc + (ch.toNat - '0'.toNat)) 0

/-- The optional exponent part `e[+-]digits` recognised by `strtod`; `0` when the text
does not start with a complete exponent part. -/
def exponentVal (s : List Char) : Int :=
  match s with
  | ch :: t =>
    if ch = 'e' ∨ ch = 'E' then
      match t with
      | '-' :: u => if (u.takeWhile Char.isDigit).isEmpty then 0
                    else - (digitsVal (u.takeWhile Char.isDigit) : Int)
      | '+' :: u => (digitsVal (u.takeWhile Char.isDigit) : Int)
      | _ => (digitsVal (t.takeWhile Char.isDigit) : Int)
    else 0
  | [] => 0

/-- The decimal conversion of `strtod` after the sign: decimal digits with an optional
point and an optional exponent; the text after them is ignored.  `none` when there is
no digit to convert. -/
def stodMagnitude (s : List Char) : Option ℚ :=
  let intDigits := s.takeWhile Char.isDigit
  let s := s.dropWhile Char.isDigit
  let fracDigits := match s with
    | '.' :: t => t.takeWhile Char.isDigit
    | _ => []
  let s := match s with
    | '.' :: t => t.dropWhile Char.isDigit
    | _ => s
  if intDigits.isEmpty ∧ fracDigits.isEmpty then none
  else
    let mantissa : ℚ := (digitsVal (intDigits ++ fracDigits) : ℚ) / 10 ^ fracDigits.length
    let e := exponentVal s
    some (if e < 0 then mantissa / 10 ^ (-e).toNat else mantissa * 10 ^ e.toNat)

/-- The value of a hexadecimal digit. -/
def hexDigitVal (ch : Char) : Option Nat :=
  if ch.isDigit then some (ch.toNat - '0'.toNat)
  else if 'a'.toNat ≤ ch.toNat ∧ ch.toNat ≤ 'f'.toNat then some (ch.toNat - 'a'.toNat + 10)
  else if 'A'.toNat ≤ ch.toNat ∧ ch.toNat ≤ 'F'.toNat then some (ch.toNat - 'A'.toNat + 10)
  else none

/-- The value of a sequence of hexadecimal digits. -/
def hexVal (ds : List Char) : Nat :=
  ds.foldl (fun acc ch => 16 * acc + (hexDigitVal ch).getD 0) 0

/-- The optional binary exponent part `p[+-]digits` of a hexadecimal number; `0` when
the text does not start with a complete exponent part. -/
def binaryExponentVal (s : List Char) : Int :=
  match s with
  | ch :: t =>
    if ch = 'p' ∨ ch = 'P' then
      match t with
      | '-' :: u => if (u.takeWhile Char.isDigit).isEmpty then 0
                    else - (digitsVal (u.takeWhile Char.isDigit) : Int)
      | '+' :: u => (digitsVal (u.takeWhile Char.isDigit) : Int)
      | _ => (digitsVal (t.takeWhile Char.isDigit) : Int)
    else 0
  | [] => 0

/-- The conversion of `strtod` after `0x`: hexadecimal digits with an optional point
and an optional binary exponent; `none` when there is no hexadecimal digit. -/
def hexMagnitude (s : List Char) : Option ℚ :=
  let intDigits := s.takeWhile (fun ch => (hexDigitVal ch).isSome)
  let s := s.dropWhile (fun ch => (hexDigitVal ch).isSome)
  let fracDigits := match s with
    | '.' :: t => t.takeWhile (fun ch => (hexDigitVal ch).isSome)
    | _ => []
  let s := match s with
    | '.' :: t => t.dropWhile (fun ch => (hexDigitVal ch).isSome)
    | _ => s
  if intDigits.isEmpty ∧ fracDigits.isEmpty then none
  else
    let mantissa : ℚ := (hexVal (intDigits ++ fracDigits) : ℚ) / 16 ^ fracDigits.length
    let e := binaryExponentVal s
    some (if e < 0 then mantissa / 2 ^ (-e).toNat else mantissa * 2 ^ e.toNat)

/-- The conversion of `strtod` after the sign: a hexadecimal number when the text starts
with `0x` and a hexadecimal digit follows, a decimal number otherwise. -/
def stodUnsigned (s : List Char) : Option ℚ :=
  match s with
  | '0' :: x :: t =>
    if x = 'x' ∨ x = 'X' then
      match hexMagnitude t with
      | some value => some value
      | none => stodMagnitude s
    else stodMagnitude s
  | _ => stodMagnitude s

/-- Whether `strtod` reports the conversion of the number `x` as out of range: the
`double` nearest to `x` is infinite (`|x| ≥ 2^1024 - 2^970 = 2^970 * (2^54 - 1)`), or
`x` is not zero, is rounded to a `double` below the smallest normal one `2^-1022`
(`|x| < 2^-1022 - 2^-1076`), and is not a `double` itself (not a multiple of
`2^-1074`), as the GNU C library has it. -/
def stodRangeError (x : ℚ) : Bool :=
  if ((2 ^ 970 * (2 ^ 54 - 1) : Nat) : ℚ) ≤ |x| then true
  else if x = 0 then false
  else if |x| * ((2 ^ 1076 : Nat) : ℚ) < ((2 ^ 54 - 1 : Nat) : ℚ) then
    !(x * ((2 ^ 1074 : Nat) : ℚ)).isInt
  else false

/-- The library call `strtod` on the text `str`, without its range report: leading
white space is skipped, then an optional sign and a decimal or hexadecimal number are
converted, as much of the text as forms one; `none` when no digit can be converted.
The value is the exact rational denoted, its rounding to the nearest `double` being
outside the embedding.  The spellings of infinity and NaN, whose values are no numbers
of `ℚ`, are outside the embedding as well. -/
def strtod (str : List Char) : Option ℚ :=
  match str.dropWhile isspace with
  | '-' :: t => (stodUnsigned t).map (fun magnitude => -magnitude)
  | '+' :: t => stodUnsigned t
  | s => stodUnsigned s

/-- The library call `std::stod(str)`, with `double` read as `ℚ`.  `none` stands for an
exception: `std::invalid_argument` when `strtod` converts nothing, `std::out_of_range`
when it reports the conversion as out of range; `parseMatrixString` catches both
alike.  On a text that spells infinity or NaN after white space and sign, where the
library returns a value that is no number, the embedding has no value to return and
gives `none` too: it follows the library on all other texts. -/
def stod (str : List Char) : Option ℚ :=
  match strtod str with
  | some value => if stodRangeError value then none else some value
  | none => none

namespace Matrix

/-- The inner loop of `parseMatrixString` over the values of one row: `row_ss` is what
is left of the row's stream, `row_values` the values pushed so far.  The first
argument bounds the number of iterations and is always larger than the length of
`row_ss`. -/
def parseValues : Nat → List Char → List ℚ → Except Exn (List ℚ)
  | 0, _, row_values => .ok row_values
  | fuel + 1, row_ss, row_values =>
    match getline ',' row_ss with
    | none => .ok row_values
    | some (value_str, rest) =>
      let value_str := value_str.dropWhile isBlank
      let value_str := (value_str.reverse.dropWhile isBlank).reverse
      if value_str.isEmpty then .error (.invalid_argument "Empty value in matrix")
      else
        match stod value_str with
        | none =>
          .error (.invalid_argument ("Invalid number format: " ++ String.mk value_str))
        | some value => parseValues fuel rest (row_values ++ [value])

/-- The outer loop of `parseMatrixString` over the rows: `rows_ss` is what is left of
the stream, `expected_cols` and `result` the loop variables.  The first argument
bounds the number of iterations and is always larger than the length of `rows_ss`. -/
def parseRows : Nat → List Char → Nat → List (List ℚ) → Except Exn (List (List ℚ))
  | 0, _, _, result => .ok result
  | fuel + 1, rows_ss, expected_cols, result =>
    match getline ';' rows_ss with
    | none => .ok result
    | some (row_str, rest) =>
      match parseValues (row_str.length + 1) row_str [] with
      | .error e => .error e
      | .ok row_values =>
        if row_values.isEmpty then .error (.invalid_argument "Empty row in matrix")
        else if expected_cols = 0 then
          parseRows fuel rest row_values.length (result ++ [row_values])
        else if row_values.length ≠ expected_cols then
          .error (.invalid_argument "Inconsistent number of columns")
        else parseRows fuel rest expected_cols (result ++ [row_values])

/-- The static method `parseMatrixString`.  `trimmedStart` and `trimmedEnd` are the
offsets of the two iterators; `cleaned` is cut from `input` itself, and is reached
only when `input` has at least two characters. -/
def parseMatrixString (input : List Char) : Except Exn (List (List ℚ)) :=
  let trimmedStart := (input.takeWhile isspace).length
  let trimmedEnd := input.length - (input.reverse.takeWhile isspace).length
  if trimmedStart ≥ trimmedEnd ∨ input.getD trimmedStart ' ' ≠ '[' ∨
      input.getD (trimmedEnd - 1) ' ' ≠ ']' then
    .error (.invalid_argument "Invalid matrix format: must be enclosed in []")
  else
    let cleaned := (input.drop 1).take (input.length - 2)
    match parseRows (cleaned.length + 1) cleaned 0 [] with
    | .error e => .error e
    | .ok result =>
      if result.isEmpty then .error (.invalid_argument "Empty matrix")
      else .ok result

/-- The static method `fromString`. -/
def fromString (input : List Char) : Except Exn Matrix :=
  match parseMatrixString input with
  | .error e => .error e
  | .ok parsed => .ok (ofData parsed)

end Matrix

end MatrixCalc

namespace MatrixCalc

/-! ## The command interpreter -/

/-- The member `what()` of an exception. -/
def Exn.what : Exn → String
  | .invalid_argument w => w
  | .runtime_error w => w
  | .out_of_range w => w

/-- The extraction `ss >> str` into a fresh, empty `std::string`: white space is
skipped, then the characters up to the next white space are taken.  The result is the
string read (empty when the stream has no further token) and the rest of the stream. -/
def readToken (ss : List Char) : List Char × List Char :=
  let s := ss.dropWhile isspace
  (s.takeWhile (fun ch => !isspace ch), s.dropWhile (fun ch => !isspace ch))

/-- The call `command.find(ch)`: the first position of `ch`, `none` for `npos`. -/
def findFirst (ch : Char) (command : List Char) : Option Nat :=
  if command.contains ch then some (command.takeWhile (fun x => x != ch)).length else none

/-- The call `command.find_last_of(ch)`: the last position of `ch`, `none` for `npos`. -/
def findLast (ch : Char) (command : List Char) : Option Nat :=
  if command.contains ch then
    some (command.length - 1 - (command.reverse.takeWhile (fun x => x != ch)).length)
  else none

/-- The function `extractMatrixString`. -/
def extractMatrixString (command : List Char) : Except Exn (List Char) :=
  match findFirst '[' command, findLast ']' command with
  | some start, some stop =>
    if start ≥ stop then
      .error (.invalid_argument
        "Invalid command: Matrix part not found or incorrectly formatted")
    else .ok ((command.drop start).take (stop - start + 1))
  | _, _ =>
    .error (.invalid_argument
      "Invalid command: Matrix part not found or incorrectly formatted")

/-- The member `stored_matrices`, a `std::map<std::string, Matrix>`: the entries in
increasing order of their keys. -/
abbrev Registry : Type := List (List Char × Matrix)

/-- The comparison `operator<` of `std::string`, the order of the map's keys. -/
def keyLt : List Char → List Char → Bool
  | [], [] => false
  | [], _ :: _ => true
  | _ :: _, [] => false
  | a :: s, b :: t => decide (a.toNat < b.toNat) || (a == b && keyLt s t)

namespace Registry

/-- The call `stored_matrices.count(k)`. -/
def count (reg : Registry) (k : List Char) : Nat :=
  if reg.any (fun e => e.1 == k) then 1 else 0

/-- The entry bound to `k`, if any. -/
def find (reg : Registry) (k : List Char) : Option Matrix :=
  (reg.find? (fun e => e.1 == k)).map (fun e => e.2)

/-- Binding `k` to `v`: an entry with key `k` is replaced, otherwise a new entry is put
at its place in the order of the keys. -/
def insert (k : List Char) (v : Matrix) : Registry → Registry
  | [] => [(k, v)]
  | (k', v') :: rest =>
    if k = k' then (k, v) :: rest
    else if keyLt k k' then (k, v) :: (k', v') :: rest
    else (k', v') :: insert k v rest

/-- The map after evaluating `stored_matrices[k]`: an absent key is bound to the
default-constructed `Matrix()`. -/
def index (reg : Registry) (k : List Char) : Registry :=
  if reg.count k = 0 then reg.insert k { data := [], rows := 0, cols := 0 } else reg

/-- The matrix that `stored_matrices[k]` refers to. -/
def get (reg : Registry) (k : List Char) : Matrix :=
  ((reg.index k).find k).getD { data := [], rows := 0, cols := 0 }

/-- The assignment `stored_matrices[k] = v`, its right operand `v` already evaluated. -/
def assign (reg : Registry) (k : List Char) (v : Matrix) : Registry :=
  (reg.index k).insert k v

/-- The map after `stored_matrices.erase(k)`. -/
def erase (reg : Registry) (k : List Char) : Registry :=
  reg.filter (fun e => !(e.1 == k))

/-- The keys of the map. -/
def keys (reg : Registry) : List (List Char) := reg.map (fun e => e.1)

end Registry

/-- What one iteration of `run` writes to `std::cout`, statement by statement; the
rendering of numbers by `print` and `operator<<` is not part of the embedding. -/
inductive Output where
  | prompt
  | help
  | goodbye
  | clearScreen
  | noMatrices
  | listing (entries : List (List Char × Nat × Nat))
  | created (name : List Char)
  | print (name : List Char) (m : Matrix)
  | notFound (name : List Char)
  | deleted (name : List Char)
  | determinant (name : List Char) (det : ℚ)
  | resultStored (name : List Char)
  | inverseStored (name : List Char)
  | unknownCommand
  | error (what : String)
  deriving DecidableEq, Repr

/-- The state after the `try` block of one iteration of `run` was left: the map, what
was written, and how the block was left (`ok true` at its end, `ok false` by `break`,
`error e` by the exception `e`). -/
structure BlockResult where
  registry : Registry
  output : List Output
  exit : Except Exn Bool
  deriving DecidableEq, Repr

/-- The method `listMatrices`. -/
def listMatrices (reg : Registry) : List Output :=
  if reg.isEmpty then [.noMatrices]
  else [.listing (reg.map (fun e => (e.1, e.2.rows, e.2.cols)))]

/-- The branch `create` of `run`, the name being read.  The right operand of the
assignment `stored_matrices[name] = Matrix::fromString(matrixString)` is evaluated
before `stored_matrices[name]`, as the language prescribes since C++17. -/
def runCreate (reg : Registry) (command name : List Char) : BlockResult :=
  match extractMatrixString command with
  | .error e => ⟨reg, [], .error e⟩
  | .ok matrixString =>
    match Matrix.fromString matrixString with
    | .error e => ⟨reg, [], .error e⟩
    | .ok m =>
      let reg := reg.assign name m
      ⟨reg.index name, [.created name, .print [] (reg.get name)], .ok true⟩

/-- The branch `show` of `run`, the name being read. -/
def runShow (reg : Registry) (name : List Char) : BlockResult :=
  if reg.count name ≠ 0 then ⟨reg.index name, [.print name (reg.get name)], .ok true⟩
  else ⟨reg, [.notFound name], .ok true⟩

/-- The branch `del` of `run`, the name being read. -/
def runDel (reg : Registry) (name : List Char) : BlockResult :=
  if reg.count name ≠ 0 then ⟨reg.erase name, [.deleted name], .ok true⟩
  else ⟨reg.erase name, [.notFound name], .ok true⟩

/-- The branch `det` of `run`, the name being read. -/
def runDet (reg : Registry) (a : List Char) : BlockResult :=
  if reg.count a = 0 then ⟨reg, [], .error (.runtime_error "Matrix not found")⟩
  else
    match (reg.get a).determinant with
    | .error e => ⟨reg.index a, [], .error e⟩
    | .ok det => ⟨reg.index a, [.determinant a det], .ok true⟩

/-- The branch `add`, `sub`, `mul` of `run`, the three names being read.  The right
operand of the assignment to `stored_matrices[C]` is evaluated before
`stored_matrices[C]`, as the language prescribes since C++17. -/
def runBinary (reg : Registry) (cmd a b c : List Char) : BlockResult :=
  if reg.count a = 0 ∨ reg.count b = 0 then
    ⟨reg, [], .error (.runtime_error "One or both input matrices not found")⟩
  else
    let reg := (reg.index a).index b
    let value :=
      if cmd = "add".toList then (reg.get a).add (reg.get b)
      else if cmd = "sub".toList then (reg.get a).sub (reg.get b)
      else (reg.get a).mul (reg.get b)
    match value with
    | .error e => ⟨reg, [], .error e⟩
    | .ok m =>
      let reg := reg.assign c m
      ⟨reg.index c, [.resultStored c, .print [] (reg.get c)], .ok true⟩

/-- The branch `inv` of `run`, the two names being read.  The right operand of the
assignment to `stored_matrices[B]` is evaluated before `stored_matrices[B]`, as the
language prescribes since C++17. -/
def runInv (reg : Registry) (a b : List Char) : BlockResult :=
  if reg.count a = 0 then ⟨reg, [], .error (.runtime_error "Matrix not found")⟩
  else
    let reg := reg.index a
    match (reg.get a).inverse with
    | .error e => ⟨reg, [], .error e⟩
    | .ok m =>
      let reg := reg.assign b m
      ⟨reg.index b, [.inverseStored b, .print [] (reg.get b)], .ok true⟩

/-- The `try` block of `run` on the line `command`: the keyword is read, then the
operands of the branch taken. -/
def tryBlock (reg : Registry) (command : List Char) : BlockResult :=
  let cmd := (readToken command).1
  let ss := (readToken command).2
  if cmd = "exit".toList then ⟨reg, [.goodbye], .ok false⟩
  else if cmd = "help".toList then ⟨reg, [.help], .ok true⟩
  else if cmd = "clear".toList then ⟨reg, [.clearScreen], .ok true⟩
  else if cmd = "ls".toList then ⟨reg, listMatrices reg, .ok true⟩
  else if cmd = "create".toList then runCreate reg command (readToken ss).1
  else if cmd = "show".toList then runShow reg (readToken ss).1
  else if cmd = "del".toList then runDel reg (readToken ss).1
  else if cmd = "det".toList then runDet reg (readToken ss).1
  else if cmd = "add".toList ∨ cmd = "sub".toList ∨ cmd = "mul".toList then
    runBinary reg cmd (readToken ss).1 (readToken (readToken ss).2).1
      (readToken (readToken (readToken ss).2).2).1
  else if cmd = "inv".toList then
    runInv reg (readToken ss).1 (readToken (readToken ss).2).1
  else ⟨reg, [.unknownCommand], .ok true⟩

/-- The state after one iteration of the loop of `run`: the map, what was written,
and whether the loop goes on to await the next command. -/
structure StepResult where
  registry : Registry
  output : List Output
  running : Bool
  deriving DecidableEq, Repr

/-- One iteration of the `while (true)` loop of `run` once `command` has been read:
the prompt, the `try` block and the `catch` clause. -/
def step (reg : Registry) (command : List Char) : StepResult :=
  match tryBlock reg command with
  | ⟨reg', out, .ok running⟩ => ⟨reg', .prompt :: out, running⟩
  | ⟨reg', out, .error e⟩ => ⟨reg', .prompt :: (out ++ [.error e.what]), true⟩

/-- The loop of `run` fed with the lines `commands`, one per iteration, from the map
`reg`: the map it holds once the loop was left by `break` or the lines are used up. -/
def runLines : Registry → List (List Char) → Registry
  | reg, [] => reg
  | reg, command :: rest =>
    if (step reg command).running then runLines (step reg command).registry rest
    else (step reg command).registry

end MatrixCalc

namespace MatrixCalc

/-! ## The loop of `run` on the standard input -/

/-- The stream `std::cin`: the characters not yet read and the value of `good()`. -/
structure Cin where
  rest : List Char
  good : Bool
  deriving DecidableEq, Repr

/-- The call `std::getline(std::cin, command)`, returning the stream and `command`.  On
a stream that is not good it reads nothing and `command` keeps its value.  Otherwise
`command` is erased and filled with the characters up to the next line feed, which is
consumed; when the end of the input is met first, the stream is no longer good. -/
def cinGetline (cin : Cin) (command : List Char) : Cin × List Char :=
  if cin.good then
    if cin.rest.contains '\n' then
      (⟨(cin.rest.dropWhile (fun ch => ch != '\n')).drop 1, true⟩,
        cin.rest.takeWhile (fun ch => ch != '\n'))
    else (⟨[], false⟩, cin.rest)
  else (cin, command)

/-- The state of `run` after some iterations of its loop: the map, everything written,
and whether the loop has been left by `break`. -/
structure RunState where
  registry : Registry
  output : List Output
  left : Bool
  deriving DecidableEq, Repr

/-- The `while (true)` loop of `run`: the state it is in once the loop is left or, if
earlier, after as many iterations as the first argument says.  `command` is the local
variable, which the read of an iteration may leave unchanged. -/
def runLoop : Nat → Cin → List Char → Registry → List Output → RunState
  | 0, _, _, reg, out => ⟨reg, out, false⟩
  | fuel + 1, cin, command, reg, out =>
    if (step reg (cinGetline cin command).2).running then
      runLoop fuel (cinGetline cin command).1 (cinGetline cin command).2
        (step reg (cinGetline cin command).2).registry
        (out ++ (step reg (cinGetline cin command).2).output)
    else
      ⟨(step reg (cinGetline cin command).2).registry,
        out ++ (step reg (cinGetline cin command).2).output, true⟩

/-- The method `run` on a standard input holding `input`, observed for at most `fuel`
iterations of its loop. -/
def run (fuel : Nat) (input : List Char) : RunState :=
  runLoop fuel ⟨input, true⟩ [] [] [.help]

end MatrixCalc

namespace MatrixCalc

/-! ## The display routine and the format state of `std::cout` -/

/-- What one insertion into `std::cout` writes: a text with the field width in effect,
or a number with the format in effect (the `std::fixed` flag, the precision and the
field width).  How the library renders a number in a given format is not part of the
embedding. -/
inductive Piece where
  | text (width : Nat) (s : List Char)
  | number (fixed : Bool) (precision : Nat) (width : Nat) (value : ℚ)
  deriving DecidableEq, Repr

/-- The stream `std::cout`: the format state that insertions read, and what has been
written.  The flag and the precision stay as set; the width is reset by every
insertion. -/
structure Cout where
  fixed : Bool
  precision : Nat
  width : Nat
  written : List Piece
  deriving DecidableEq, Repr

namespace Cout

/-- The stream at program start: default notation, precision `6`, width `0`. -/
def initial : Cout := ⟨false, 6, 0, []⟩

/-- The insertion `std::cout << s` of a text. -/
def putText (out : Cout) (s : List Char) : Cout :=
  { out with width := 0, written := out.written ++ [.text out.width s] }

/-- The insertion `std::cout << v` of a `double`. -/
def putNumber (out : Cout) (v : ℚ) : Cout :=
  { out with width := 0,
             written := out.written ++ [.number out.fixed out.precision out.width v] }

/-- The manipulator `std::fixed`. -/
def setFixed (out : Cout) : Cout := { out with fixed := true }

/-- The manipulator `std::setprecision(p)`. -/
def setprecision (out : Cout) (p : Nat) : Cout := { out with precision := p }

/-- The manipulator `std::setw(w)`. -/
def setw (out : Cout) (w : Nat) : Cout := { out with width := w }

end Cout

namespace Matrix

/-- The body of the loop over `j` in `print`: the manipulators for `j != 0`, the
entry, a blank. -/
def printEntry (m : Matrix) (i : Nat) (out : Cout) (j : Nat) : Cout :=
  ((if j ≠ 0 then ((out.setFixed).setprecision 2).setw 10 else out).putNumber
    (rd m.data i j)).putText " ".toList

/-- The body of the loop over `i` in `print`: one row between its two marks. -/
def printRow (m : Matrix) (out : Cout) (i : Nat) : Cout :=
  ((List.range m.cols).foldl (printEntry m i)
    (out.putText "\x1b[1;33m|\x1b[0m ".toList)).putText "\x1b[1;33m|\x1b[0m\n".toList

/-- The method `print` writing to `std::cout`. -/
def print (m : Matrix) (name : List Char) (out : Cout) : Cout :=
  (List.range m.rows).foldl (printRow m)
    (if name.isEmpty then out
      else ((out.putText "\x1b[1;34m".toList).putText name).putText " = \x1b[0m\n".toList)

end Matrix

end MatrixCalc

namespace MatrixCalc

/-! ## The divisions of `inverse`

The same loops once more, with a second component that records the divisor of every
division in the order in which the divisions are performed. -/

/-- One iteration of the first outer loop of `gaussianElimination`, recording the
divisor `augmented[i][i]` of each `factor`. -/
def forwardStepDiv (n : Nat) (st : List (List ℚ) × List ℚ) (i : Nat) :
    List (List ℚ) × List ℚ :=
  (List.range' (i + 1) (n - (i + 1))).foldl
    (fun st k => (rowSubUp n i k (rd st.1 k i / rd st.1 i i) st.1, st.2 ++ [rd st.1 i i]))
    (swapRows st.1 (pivotRow st.1 n i) i, st.2)

/-- One iteration of the back-substitution loop, recording the divisor
`augmented[i][i]` of each `factor`. -/
def backStepDiv (n : Nat) (st : List (List ℚ) × List ℚ) (i : Nat) :
    List (List ℚ) × List ℚ :=
  (List.range i).reverse.foldl
    (fun st k => (rowSubDown n i k (rd st.1 k i / rd st.1 i i) st.1, st.2 ++ [rd st.1 i i]))
    st

/-- The method `gaussianElimination`, returning the updated argument and the divisors
of its divisions. -/
def gaussianEliminationDiv (augmented : List (List ℚ)) : List (List ℚ) × List ℚ :=
  (List.range augmented.length).reverse.foldl (backStepDiv augmented.length)
    ((List.range augmented.length).foldl (forwardStepDiv augmented.length) (augmented, []))

namespace Matrix

/-- The divisors of the divisions performed by the normalisation loop of `inverse` over
the rows `is`, up to the row at which it throws: `rows` divisions by `augmented[i][i]`
for each row that passes the test. -/
def normalizeDivisors (rows : Nat) (augmented : List (List ℚ)) : List Nat → List ℚ
  | [] => []
  | i :: rest =>
    if |rd augmented i i| < eps then []
    else List.replicate rows (rd augmented i i) ++ normalizeDivisors rows augmented rest

/-- The divisors of all divisions performed by a call of `inverse`, in order. -/
def inverseDivisors (m : Matrix) : List ℚ :=
  if m.rows ≠ m.cols then []
  else
    (gaussianEliminationDiv m.augment).2 ++
      normalizeDivisors m.rows (gaussianEliminationDiv m.augment).1 (List.range m.rows)

end Matrix

end MatrixCalc

namespace MatrixCalc

/-! ## Rounding in `double` arithmetic

Everywhere else the arithmetic of the program is taken exactly.  The definitions below
add the rounding of IEEE 754 binary64 arithmetic (round to nearest, ties to even), to
state what the rounded operations of `operator*` compute. -/

/-- The power `2^e` for an integer exponent. -/
def pow2 (e : Int) : ℚ :=
  if 0 ≤ e then ((2 ^ e.toNat : Nat) : ℚ) else 1 / ((2 ^ (-e).toNat : Nat) : ℚ)

/-- The position of the leading bit of `n`: the largest `e` with `2^e ≤ n`, and `0` for
`n = 0`.  The first argument bounds the number of halvings. -/
def bitLength : Nat → Nat → Nat
  | 0, _ => 0
  | fuel + 1, n => if n < 2 then 0 else bitLength fuel (n / 2) + 1

/-- The binary exponent of a positive number `x`: the largest `e` with `2^e ≤ x`. -/
def floorLog2 (x : ℚ) : Int :=
  if pow2 ((bitLength x.num.natAbs x.num.natAbs : Int) - (bitLength x.den x.den : Int)) ≤ x then
    (bitLength x.num.natAbs x.num.natAbs : Int) - (bitLength x.den x.den : Int)
  else (bitLength x.num.natAbs x.num.natAbs : Int) - (bitLength x.den x.den : Int) - 1

/-- The integer nearest to `m`, the even one when two are nearest. -/
def roundHalfEven (m : ℚ) : Int :=
  if m - (m.floor : ℚ) < 1 / 2 then m.floor
  else if 1 / 2 < m - (m.floor : ℚ) then m.floor + 1
  else if m.floor % 2 = 0 then m.floor
  else m.floor + 1

/-- The `double` nearest to `x`, the one with the even significand when two are
nearest: 53 significant bits, and multiples of `2^-1074` below `2^-1022`.  Infinity is
not represented; the definition is the rounding of the program for
`|x| < 2^1024 - 2^970`. -/
def roundDouble (x : ℚ) : ℚ :=
  if x = 0 then 0
  else
    (roundHalfEven (x / pow2 (max (floorLog2 |x|) (-1022) - 52)) : ℚ) *
      pow2 (max (floorLog2 |x|) (-1022) - 52)

namespace Matrix

/-- The method `operator*` with the result of every multiplication and of every
addition rounded by `rnd`; with `rnd` the identity this is `mul`. -/
def mulRounded (rnd : ℚ → ℚ) (m other : Matrix) : Except Exn Matrix :=
  if m.cols ≠ other.rows then
    .error (.invalid_argument "Incompatible matrix dimensions for multiplication")
  else
    (List.range m.rows).foldlM (fun result (i : Nat) =>
      (List.range other.cols).foldlM (fun result (j : Nat) =>
        (List.range m.cols).foldlM (fun result (k : Nat) => do
          let cur ← result.elem (i : Int) (j : Int)
          result.elemAssign (i : Int) (j : Int)
            (rnd (cur + rnd (rd m.data i k * rd other.data k j))))
          result) result)
      (zeros m.rows other.cols)

end Matrix

end MatrixCalc

namespace MatrixCalc

/-! ## Specification vocabulary -/

/-- The effect of `row k -= f * row i` on the columns `lo ≤ y < hi`. -/
def RowSubbed (a a' : List (List ℚ)) (k i : Nat) (f : ℚ) (lo hi : Nat) : Prop :=
  ∀ x y, rd a' x y = if x = k ∧ lo ≤ y ∧ y < hi then rd a k y - f * rd a i y else rd a x y

/-- The augmented matrix `s = [L | R]` satisfies `R · A = L` for the matrix `A` with
entries `a`. -/
def Lin (a : Nat → Nat → ℚ) (n : Nat) (s : List (List ℚ)) : Prop :=
  ∀ r, r < n → ∀ c, c < n → ∑ t in Finset.range n, rd s r (t + n) * a t c = rd s r c

/-- Below the diagonal, the first `i` columns of `s` are zero. -/
def LowZ (n i : Nat) (s : List (List ℚ)) : Prop :=
  ∀ r c, c < i → c < r → r < n → rd s r c = 0

/-- The diagonal entry of column `i` has the largest absolute value from row `i` down. -/
def PivMax (n i : Nat) (s : List (List ℚ)) : Prop :=
  ∀ r, i < r → r < n → |rd s r i| ≤ |rd s i i|

/-- Above the diagonal, every column `c ≥ i` of `s` with a nonzero diagonal entry is
zero. -/
def UpZ (n i : Nat) (s : List (List ℚ)) : Prop :=
  ∀ c, i ≤ c → c < n → rd s c c ≠ 0 → ∀ r, r < c → rd s r c = 0

/-- The mathematical `n × n` matrix held in the top left corner of a raw vector of
vectors. -/
def toSq (n : Nat) (a : List (List ℚ)) : SqMat n := fun i j => rd a i.val j.val

/-- The mathematical matrix of a partially reduced `lu`: the entries below the
diagonal in the first `i` columns, which the reduction no longer reads, count as `0`. -/
def upperView (n i : Nat) (s : List (List ℚ)) : SqMat n :=
  fun r c => if c.val < i ∧ c.val < r.val then 0 else rd s r.val c.val

namespace Matrix

/-- The `n × n` identity matrix as a `Matrix` value. -/
def identity (n : Nat) : Matrix :=
  { data := (List.range n).map (fun i => (List.range n).map (fun j => if i = j then 1 else 0)),
    rows := n, cols := n }

/-- The working copy `lu` of `determinant` once the first `i` pivot columns have been
eliminated. -/
def luAfter (m : Matrix) (i : Nat) : List (List ℚ) :=
  (List.range i).foldl (luStep m.rows) m.data

/-- The matrix `m` has shape `r × c`, is well formed, and its entries are given by `F`. -/
def Agree (m : Matrix) (r c : Nat) (F : Nat → Nat → ℚ) : Prop :=
  m.rows = r ∧ m.cols = c ∧ Shape m.data r c ∧ ∀ i, i < r → ∀ j, j < c → rd m.data i j = F i j

end Matrix

/-! ## Literals of the grammar `'[' row (';' row)* ']'` -/

/-- A value of the literal grammar: a decimal numeral (optional sign, digits, optional
`.` and digits) together with the blanks written before and after it.  `sign` is
`none`, `some false` for `+` or `some true` for `-`. -/
structure Numeral where
  pre : List Char
  sign : Option Bool
  intDigits : List Char
  fracDigits : Option (List Char)
  post : List Char

namespace Numeral

/-- The blanks are spaces or tabs, the digit sequences are non-empty and decimal. -/
def Valid (x : Numeral) : Prop :=
  (∀ ch ∈ x.pre, isBlank ch = true) ∧ (∀ ch ∈ x.post, isBlank ch = true) ∧
    x.intDigits ≠ [] ∧ (∀ ch ∈ x.intDigits, ch.isDigit = true) ∧
    ∀ f, x.fracDigits = some f → f ≠ [] ∧ ∀ ch ∈ f, ch.isDigit = true

/-- The characters of the sign. -/
def signText (x : Numeral) : List Char :=
  match x.sign with
  | none => []
  | some false => ['+']
  | some true => ['-']

/-- The characters of the optional fraction. -/
def fracText (x : Numeral) : List Char :=
  match x.fracDigits with
  | none => []
  | some f => '.' :: f

/-- The numeral proper, without the surrounding blanks. -/
def core (x : Numeral) : List Char := x.signText ++ (x.intDigits ++ x.fracText)

/-- The numeral as written in a literal. -/
def text (x : Numeral) : List Char := x.pre ++ (x.core ++ x.post)

/-- The number denoted by the digits of a numeral, without its sign. -/
def magnitude (x : Numeral) : ℚ :=
  (digitsVal x.intDigits : ℚ) +
    (match x.fracDigits with
      | none => 0
      | some f => (digitsVal f : ℚ) / 10 ^ f.length)

/-- The number a numeral denotes. -/
def value (x : Numeral) : ℚ :=
  if x.sign = some true then -x.magnitude else x.magnitude

/-- The number denoted is in the range of `double` as `std::stod` sees it: its
magnitude is below `2^1024 - 2^970`, from where on the nearest `double` is infinite,
and it is zero, or of a magnitude of at least `2^-1022 - 2^-1076`, which is rounded to
a normal `double`, or a multiple of `2^-1074` and so a `double` itself. -/
def InRange (x : Numeral) : Prop :=
  |x.value| < 2 ^ 1024 - 2 ^ 970 ∧
    (x.value = 0 ∨ 1 / 2 ^ 1022 - 1 / 2 ^ 1076 ≤ |x.value| ∨
      ∃ k : ℤ, x.value = (k : ℚ) / 2 ^ 1074)

end Numeral

/-- A row of a literal: its values separated by `,`. -/
def rowText (row : List Numeral) : List Char :=
  [','].intercalate (row.map Numeral.text)

/-- The numerals of the literal `[ 1,-2.50\t;+3,4]`, which has blanks, signs and a
fraction. -/
def sampleRows : List (List Numeral) :=
  [[{ pre := [' '], sign := none, intDigits := ['1'], fracDigits := none, post := [] },
    { pre := [], sign := some true, intDigits := ['2'], fracDigits := some ['5', '0'],
      post := ['\t'] }],
   [{ pre := [], sign := some false, intDigits := ['3'], fracDigits := none, post := [] },
    { pre := [], sign := none, intDigits := ['4'], fracDigits := none, post := [] }]]

/-- The numeral of `1` followed by 400 zeros, which denotes `10^400`. -/
def hugeNumeral : Numeral :=
  { pre := [], sign := none, intDigits := '1' :: List.replicate 400 '0', fracDigits := none,
    post := [] }

/-- The numeral `0.0…01` with 400 zeros after the point, which denotes `10^-401`. -/
def tinyNumeral : Numeral :=
  { pre := [], sign := none, intDigits := ['0'],
    fracDigits := some (List.replicate 400 '0' ++ ['1']), post := [] }

/-- The literal `'[' row (';' row)* ']'` built from an array of numerals. -/
def literalText (rows : List (List Numeral)) : List Char :=
  '[' :: ([';'].intercalate (rows.map rowText) ++ [']'])

/-- The loop variables of `parseRows`: no row yet and no column count, or at least one
row, all of the recorded non-zero length. -/
def RowsInv (expected : Nat) (result : List (List ℚ)) : Prop :=
  (result = [] ∧ expected = 0) ∨
    (1 ≤ expected ∧ result ≠ [] ∧ ∀ row ∈ result, row.length = expected)

/-! ## Vocabulary for the interpreter -/

/-- The input with the white space at both ends removed. -/
def trimmed (input : List Char) : List Char :=
  ((input.dropWhile isspace).reverse.dropWhile isspace).reverse

/-- No character of `s` is white space. -/
def SpaceFree (s : List Char) : Prop := ∀ ch ∈ s, isspace ch = false

/-- A text token: a non-empty string without white space. -/
def IsToken (s : List Char) : Prop := s ≠ [] ∧ SpaceFree s

/-- A command line: its words separated by single spaces. -/
def commandLine (words : List (List Char)) : List Char :=
  [' '].intercalate words

/-- The line names the operand under which its result is stored: the third operand of
an `add`, `sub` or `mul` line and the second operand of an `inv` line are present. -/
def HasTarget (command : List Char) : Prop :=
  let cmd := (readToken command).1
  let ss1 := (readToken (readToken command).2).2
  ((cmd = "add".toList ∨ cmd = "sub".toList ∨ cmd = "mul".toList) →
      (readToken (readToken ss1).2).1 ≠ []) ∧
    (cmd = "inv".toList → (readToken ss1).1 ≠ [])

/-- What the branches of the `try` block have in common: an exception leaves the map
as it was and nothing written; otherwise no error is written, the branch does not
leave the loop, and a not-found message comes with an unchanged map. -/
def Atomic (reg : Registry) (r : BlockResult) : Prop :=
  (∀ e, r.exit = .error e → r.registry = reg ∧ r.output = []) ∧
    (∀ what, Output.error what ∉ r.output) ∧
    (∀ name, Output.notFound name ∈ r.output → r.registry = reg ∧ r.exit = .ok true) ∧
    r.exit ≠ .ok false

/-- A map holding the `2 × 2` matrix `[1,2;3,4]` under `A` and the `1 × 3` matrix
`[1,2,3]` under `B`. -/
def sampleRegistry : Registry :=
  [("A".toList, Matrix.ofData [[1, 2], [3, 4]]), ("B".toList, Matrix.ofData [[1, 2, 3]])]

end MatrixCalc

namespace MatrixCalc

/-- The lines of an input: the pieces between its line feeds, the last one being what
follows the last line feed. -/
def inputLines : List Char → List (List Char)
  | [] => [[]]
  | ch :: rest =>
    if ch = '\n' then [] :: inputLines rest
    else
      match inputLines rest with
      | [] => [[ch]]
      | line :: lines => (ch :: line) :: lines

/-- The line is an `exit` command: its first token is `exit`. -/
def IsExit (line : List Char) : Prop := (readToken line).1 = "exit".toList

/-- Neither a line still to be read nor the line last read makes the loop of `run`
stop. -/
def NoExitAhead (cin : Cin) (command : List Char) : Prop :=
  (cin.good = true ∧ ∀ line ∈ inputLines cin.rest, ¬ IsExit line) ∨
    (cin.good = false ∧ ¬ IsExit command)

end MatrixCalc

namespace MatrixCalc

namespace Matrix

/-- The `n × n` diagonal matrix with the diagonal entries `d 0, …, d (n-1)`. -/
def diagonal (n : Nat) (d : Nat → ℚ) : Matrix :=
  { data := (List.range n).map (fun i => (List.range n).map (fun j => if i = j then d i else 0)),
    rows := n, cols := n }

end Matrix

/-- The augmented matrix `s` is `[D | I]` for the diagonal matrix `D` with the diagonal
entries `d`. -/
def DiagAug (n : Nat) (d : Nat → ℚ) (s : List (List ℚ)) : Prop :=
  Shape s n (2 * n) ∧ ∀ x, x < n → ∀ y, y < 2 * n →
    rd s x y = if y < n then (if x = y then d x else 0) else if y = x + n then 1 else 0

end MatrixCalc

namespace MatrixCalc

/-- The keywords that `run` compares the first token of a line with. -/
def keywords : List (List Char) :=
  ["exit".toList, "help".toList, "clear".toList, "ls".toList, "create".toList,
    "show".toList, "del".toList, "det".toList, "add".toList, "sub".toList, "mul".toList,
    "inv".toList]

end MatrixCalc

namespace MatrixCalc

/-- The number written by a piece, if it is a number. -/
def Piece.value : Piece → Option ℚ
  | .text _ _ => none
  | .number _ _ _ v => some v

/-- The characters written, given the library's rendering `num` of a number in a format
(fixed flag, precision, width); a text is padded on the left to its field width. -/
def renderPieces (num : Bool → Nat → Nat → ℚ → List Char) : List Piece → List Char
  | [] => []
  | .text w s :: rest => List.replicate (w - s.length) ' ' ++ (s ++ renderPieces num rest)
  | .number f p w v :: rest => num f p w v ++ renderPieces num rest

end MatrixCalc

namespace MatrixCalc

theorem getD_set_rows (a : List (List ℚ)) (i i' : Nat) (row : List ℚ) (hi : i < a.length) :
    (a.set i row).getD i' [] = if i' = i then row else a.getD i' [] := by
  simp only [List.getD_eq_getElem?_getD, List.getElem?_set]
  by_cases h : i = i'
  · subst h; simp [hi]
  · have h' : ¬ i' = i := fun e => h e.symm
    simp [h, h']

theorem getD_set_entry (row : List ℚ) (j j' : Nat) (v : ℚ) (hj : j < row.length) :
    (row.set j v).getD j' 0 = if j' = j then v else row.getD j' 0 := by
  simp only [List.getD_eq_getElem?_getD, List.getElem?_set]
  by_cases h : j = j'
  · subst h; simp [hj]
  · have h' : ¬ j' = j := fun e => h e.symm
    simp [h, h']

theorem Shape.getD_length {a : List (List ℚ)} {r c : Nat} (h : Shape a r c) {i : Nat}
    (hi : i < r) : (a.getD i []).length = c := by
  have hi' : i < a.length := by rw [h.1]; exact hi
  rw [List.getD_eq_getElem?_getD, List.getElem?_eq_getElem hi']
  exact h.2 _ (List.getElem_mem _)

theorem Shape.set {a : List (List ℚ)} {r c : Nat} (h : Shape a r c) (i : Nat)
    (row : List ℚ) (hrow : row.length = c) : Shape (a.set i row) r c := by
  refine ⟨by rw [List.length_set]; exact h.1, ?_⟩
  intro x hx
  rcases List.mem_or_eq_of_mem_set hx with hx | hx
  · exact h.2 x hx
  · rw [hx]; exact hrow

theorem Shape.wr {a : List (List ℚ)} {r c : Nat} (h : Shape a r c) (i j : Nat) (v : ℚ) :
    Shape (wr a i j v) r c := by
  unfold MatrixCalc.wr
  by_cases hi : i < r
  · exact h.set i _ (by rw [List.length_set]; exact h.getD_length hi)
  · have : a.length ≤ i := by rw [h.1]; omega
    rw [List.set_eq_of_length_le this]; exact h

theorem rd_wr {a : List (List ℚ)} {r c : Nat} (h : Shape a r c) {i j : Nat} (hi : i < r)
    (hj : j < c) (v : ℚ) (i' j' : Nat) :
    rd (wr a i j v) i' j' = if i' = i ∧ j' = j then v else rd a i' j' := by
  unfold rd MatrixCalc.wr
  rw [getD_set_rows a i i' _ (by rw [h.1]; exact hi)]
  by_cases e : i' = i
  · subst e
    simp only [if_true, true_and]
    rw [getD_set_entry _ j j' v (by rw [h.getD_length hi]; exact hj)]
  · simp [e]

theorem Shape.swap {a : List (List ℚ)} {r c : Nat} (h : Shape a r c) {p q : Nat}
    (hp : p < r) (hq : q < r) : Shape (swapRows a p q) r c := by
  unfold MatrixCalc.swapRows
  exact (h.set p _ (h.getD_length hq)).set q _ (h.getD_length hp)

theorem rd_swapRows {a : List (List ℚ)} {r c : Nat} (h : Shape a r c) {p q : Nat}
    (hp : p < r) (hq : q < r) (i j : Nat) :
    rd (swapRows a p q) i j = rd a (if i = q then p else if i = p then q else i) j := by
  unfold rd MatrixCalc.swapRows
  rw [getD_set_rows _ q i _ (by rw [List.length_set, h.1]; exact hq)]
  by_cases e : i = q
  · simp [e]
  · rw [if_neg e, if_neg e, getD_set_rows _ p i _ (by rw [h.1]; exact hp)]
    by_cases e' : i = p
    · simp [e']
    · simp [e']

theorem Shape.ext {a b : List (List ℚ)} {r c : Nat} (ha : Shape a r c) (hb : Shape b r c)
    (h : ∀ i, i < r → ∀ j, j < c → rd a i j = rd b i j) : a = b := by
  apply List.ext_getElem (by rw [ha.1, hb.1])
  intro i h1 h2
  have hi : i < r := by rw [← ha.1]; exact h1
  have la : (a[i]).length = c := ha.2 _ (List.getElem_mem _)
  have lb : (b[i]).length = c := hb.2 _ (List.getElem_mem _)
  apply List.ext_getElem (by rw [la, lb])
  intro j h3 h4
  have hj : j < c := by rw [← la]; exact h3
  have := h i hi j hj
  unfold rd at this
  simpa [List.getD_eq_getElem?_getD, List.getElem?_eq_getElem, h1, h2, h3, h4] using this

theorem Shape.replicate (r c : Nat) (v : ℚ) :
    Shape (List.replicate r (List.replicate c v)) r c := by
  refine ⟨by simp, ?_⟩
  intro row hrow
  rw [List.eq_of_mem_replicate hrow]; simp

theorem rd_replicate {r c : Nat} (v : ℚ) {i j : Nat} (hi : i < r) (hj : j < c) :
    rd (List.replicate r (List.replicate c v)) i j = v := by
  unfold rd
  simp [List.getD_eq_getElem?_getD, List.getElem?_replicate, hi, hj]

end MatrixCalc

namespace MatrixCalc

/-! ## Loop rules -/

theorem foldl_range'_inv {σ : Type} (f : σ → Nat → σ) (P : Nat → σ → Prop) (lo : Nat) :
    ∀ (cnt : Nat) (s : σ), P lo s →
      (∀ i s, lo ≤ i → i < lo + cnt → P i s → P (i + 1) (f s i)) →
      P (lo + cnt) ((List.range' lo cnt).foldl f s) := by
  intro cnt
  induction cnt with
  | zero => intro s h _; simpa using h
  | succ m ih =>
    intro s h step
    rw [List.range'_1_concat, List.foldl_append]
    simp only [List.foldl_cons, List.foldl_nil]
    have := ih s h (fun i s h1 h2 hp => step i s h1 (by omega) hp)
    have := step (lo + m) _ (by omega) (by omega) this
    simpa [Nat.add_assoc] using this

theorem foldl_range_inv {σ : Type} (f : σ → Nat → σ) (P : Nat → σ → Prop) (n : Nat) (s : σ)
    (h0 : P 0 s) (step : ∀ i s, i < n → P i s → P (i + 1) (f s i)) :
    P n ((List.range n).foldl f s) := by
  have := foldl_range'_inv f P 0 n s h0 (fun i s _ h2 hp => step i s (by omega) hp)
  simpa [List.range_eq_range'] using this

theorem foldl_range'_rev_inv {σ : Type} (f : σ → Nat → σ) (P : Nat → σ → Prop) (lo : Nat) :
    ∀ (cnt : Nat) (s : σ), P (lo + cnt) s →
      (∀ i s, lo ≤ i → i < lo + cnt → P (i + 1) s → P i (f s i)) →
      P lo ((List.range' lo cnt).reverse.foldl f s) := by
  intro cnt
  induction cnt with
  | zero => intro s h _; simpa using h
  | succ m ih =>
    intro s h step
    rw [List.range'_1_concat, List.reverse_append, List.foldl_append]
    simp only [List.reverse_cons, List.reverse_nil, List.nil_append, List.foldl_cons,
      List.foldl_nil]
    apply ih
    · exact step (lo + m) s (by omega) (by omega) (by simpa [Nat.add_assoc] using h)
    · intro i s h1 h2 hp; exact step i s h1 (by omega) hp

theorem foldl_range_rev_inv {σ : Type} (f : σ → Nat → σ) (P : Nat → σ → Prop) (n : Nat)
    (s : σ) (h0 : P n s) (step : ∀ i s, i < n → P (i + 1) s → P i (f s i)) :
    P 0 ((List.range n).reverse.foldl f s) := by
  have := foldl_range'_rev_inv f P 0 n s (by simpa using h0)
    (fun i s _ h2 hp => step i s (by omega) hp)
  simpa [List.range_eq_range'] using this

theorem foldlM_range_inv {σ ε : Type} (f : σ → Nat → Except ε σ) (P : Nat → σ → Prop) :
    ∀ (n : Nat) (s : σ), P 0 s →
      (∀ i s, i < n → P i s → ∃ s', f s i = .ok s' ∧ P (i + 1) s') →
      ∃ s', (List.range n).foldlM f s = .ok s' ∧ P n s' := by
  intro n
  induction n with
  | zero => intro s h _; exact ⟨s, rfl, h⟩
  | succ m ih =>
    intro s h step
    obtain ⟨s1, e1, p1⟩ := ih s h (fun i s hi hp => step i s (by omega) hp)
    obtain ⟨s2, e2, p2⟩ := step m s1 (by omega) p1
    refine ⟨s2, ?_, p2⟩
    rw [List.range_succ, List.foldlM_append, e1]
    simp only [List.foldlM_cons, List.foldlM_nil]
    show (f s1 m >>= fun s' => pure s') = _
    rw [e2]; rfl

/-! ## Checked element access on well-formed matrices -/

namespace Matrix

theorem Agree.congr {m : Matrix} {r c : Nat} {F G : Nat → Nat → ℚ} (h : Agree m r c F)
    (e : ∀ i, i < r → ∀ j, j < c → F i j = G i j) : Agree m r c G :=
  ⟨h.1, h.2.1, h.2.2.1, fun i hi j hj => (h.2.2.2 i hi j hj).trans (e i hi j hj)⟩

theorem Agree.wf {m : Matrix} {r c : Nat} {F : Nat → Nat → ℚ} (h : Agree m r c F) : m.WF := by
  unfold WF; rw [h.1, h.2.1]; exact h.2.2.1

theorem Agree.unique {m m' : Matrix} {r c : Nat} {F : Nat → Nat → ℚ} (h : Agree m r c F)
    (h' : Agree m' r c F) : m = m' := by
  cases m; cases m'
  obtain ⟨h1, h2, h3, h4⟩ := h
  obtain ⟨h1', h2', h3', h4'⟩ := h'
  simp only at h1 h2 h3 h4 h1' h2' h3' h4'
  subst h1 h2 h1' h2'
  have := Shape.ext h3 h3' (fun i hi j hj => (h4 i hi j hj).trans (h4' i hi j hj).symm)
  subst this; rfl

theorem Agree.zeros (r c : Nat) : Agree (zeros r c) r c (fun _ _ => 0) :=
  ⟨rfl, rfl, Shape.replicate r c 0, fun _ hi _ hj => rd_replicate 0 hi hj⟩

theorem Agree.elem {m : Matrix} {r c : Nat} {F : Nat → Nat → ℚ} (h : Agree m r c F)
    {i j : Nat} (hi : i < r) (hj : j < c) : m.elem (i : Int) (j : Int) = .ok (F i j) := by
  unfold Matrix.elem
  rw [h.1, h.2.1, if_neg (by omega)]
  simp only [Int.toNat_ofNat]
  rw [h.2.2.2 i hi j hj]

theorem Agree.elemAssign {m : Matrix} {r c : Nat} {F : Nat → Nat → ℚ} (h : Agree m r c F)
    {i j : Nat} (hi : i < r) (hj : j < c) (v : ℚ) :
    ∃ m', m.elemAssign (i : Int) (j : Int) v = .ok m' ∧
      Agree m' r c (fun i' j' => if i' = i ∧ j' = j then v else F i' j') := by
  unfold Matrix.elemAssign
  have hc : ¬ ((i : Int) < 0 ∨ (i : Int) ≥ (m.rows : Int) ∨ (j : Int) < 0 ∨
      (j : Int) ≥ (m.cols : Int)) := by rw [h.1, h.2.1]; omega
  rw [if_neg hc]
  refine ⟨_, rfl, h.1, h.2.1, h.2.2.1.wr _ _ _, ?_⟩
  intro i' hi' j' hj'
  simp only [Int.toNat_ofNat]
  rw [rd_wr h.2.2.1 hi hj]
  by_cases e : i' = i ∧ j' = j
  · simp [e]
  · simp only [e, if_false]; exact h.2.2.2 i' hi' j' hj'

/-- A doubly nested loop whose body brings entry `(i, j)` from `0` to `F i j` and
leaves the other entries alone succeeds and yields the matrix tabulating `F`. -/
theorem tabulate_gen (r c : Nat) (F : Nat → Nat → ℚ)
    (body : Nat → Nat → Matrix → Except Exn Matrix)
    (hbody : ∀ i j m G, i < r → j < c → Agree m r c G → G i j = 0 →
      ∃ m', body i j m = .ok m' ∧
        Agree m' r c (fun i' j' => if i' = i ∧ j' = j then F i j else G i' j')) :
    ∃ m', (List.range r).foldlM (fun result (i : Nat) =>
        (List.range c).foldlM (fun result (j : Nat) => body i j result) result)
        (zeros r c) = .ok m' ∧ Agree m' r c F := by
  have key := foldlM_range_inv (ε := Exn)
    (fun result (i : Nat) => (List.range c).foldlM (fun result (j : Nat) =>
          body i j result) result)
    (fun i m => Agree m r c (fun i' j' => if i' < i then F i' j' else 0)) r (zeros r c)
    ((Agree.zeros r c).congr (by intros; simp))
    (by
      intro i s hi hP
      have inner := foldlM_range_inv (ε := Exn)
        (fun result (j : Nat) => body i j result)
        (fun j m => Agree m r c
          (fun i' j' => if i' < i ∨ (i' = i ∧ j' < j) then F i' j' else 0)) c s
        (hP.congr (by intros; simp))
        (by
          intro j s hj hQ
          obtain ⟨m', e, a⟩ := hbody i j s _ hi hj hQ (by simp)
          refine ⟨m', e, a.congr ?_⟩
          intro i' _ j' _
          by_cases e1 : i' = i ∧ j' = j
          · obtain ⟨rfl, rfl⟩ := e1; simp
          · simp only [e1, if_false]
            have : (i' < i ∨ i' = i ∧ j' < j + 1) ↔ (i' < i ∨ i' = i ∧ j' < j) := by
              constructor
              · rintro (h | ⟨h1, h2⟩)
                · exact Or.inl h
                · exact Or.inr ⟨h1, by
                    rcases Nat.lt_succ_iff_lt_or_eq.mp h2 with h3 | h3
                    · exact h3
                    · exact absurd ⟨h1, h3⟩ e1⟩
              · rintro (h | ⟨h1, h2⟩)
                · exact Or.inl h
                · exact Or.inr ⟨h1, by omega⟩
            simp only [this])
      obtain ⟨m', e, a⟩ := inner
      refine ⟨m', e, a.congr ?_⟩
      intro i' _ j' hj'
      have : (i' < i ∨ i' = i ∧ j' < c) ↔ i' < i + 1 := by
        constructor
        · rintro (h | ⟨h1, _⟩) <;> omega
        · intro h
          rcases Nat.lt_succ_iff_lt_or_eq.mp h with h3 | h3
          · exact Or.inl h3
          · exact Or.inr ⟨h3, hj'⟩
      simp only [this])
  obtain ⟨m', e, a⟩ := key
  exact ⟨m', e, a.congr (by intro i hi j _; simp [hi])⟩

/-- A doubly nested loop that assigns `F i j` to every entry through `operator()`
succeeds and yields the matrix tabulating `F`. -/
theorem tabulate_ok (r c : Nat) (F : Nat → Nat → ℚ) :
    ∃ m', (List.range r).foldlM (fun result (i : Nat) =>
        (List.range c).foldlM (fun result (j : Nat) =>
          result.elemAssign (i : Int) (j : Int) (F i j)) result) (zeros r c) = .ok m' ∧
      Agree m' r c F :=
  tabulate_gen r c F (fun i j m => m.elemAssign (i : Int) (j : Int) (F i j))
    (fun _ _ _ _ hi hj ha _ => ha.elemAssign hi hj _)

theorem add_ok (a b : Matrix) (hr : a.rows = b.rows) (hc : a.cols = b.cols) :
    ∃ s, a.add b = .ok s ∧
      Agree s a.rows a.cols (fun i j => rd a.data i j + rd b.data i j) := by
  unfold add
  rw [if_neg (by simp [hr, hc])]
  exact tabulate_ok _ _ _

theorem sub_ok (a b : Matrix) (hr : a.rows = b.rows) (hc : a.cols = b.cols) :
    ∃ s, a.sub b = .ok s ∧
      Agree s a.rows a.cols (fun i j => rd a.data i j - rd b.data i j) := by
  unfold sub
  rw [if_neg (by simp [hr, hc])]
  exact tabulate_ok _ _ _

/-- The dot product accumulated by the innermost loop of `operator*`. -/
theorem mul_inner (a b : Matrix) (r c : Nat) (i j : Nat) (hi : i < r) (hj : j < c)
    (m : Matrix) (G : Nat → Nat → ℚ) (hm : Agree m r c G) (h0 : G i j = 0) (K : Nat) :
    ∃ m', (List.range K).foldlM (fun result (k : Nat) => do
          let cur ← result.elem (i : Int) (j : Int)
          result.elemAssign (i : Int) (j : Int) (cur + rd a.data i k * rd b.data k j)) m
        = .ok m' ∧
      Agree m' r c (fun i' j' => if i' = i ∧ j' = j then
        ∑ k in Finset.range K, rd a.data i k * rd b.data k j else G i' j') := by
  apply foldlM_range_inv (ε := Exn) _
    (fun k m => Agree m r c (fun i' j' => if i' = i ∧ j' = j then
        ∑ k in Finset.range k, rd a.data i k * rd b.data k j else G i' j'))
  · refine hm.congr ?_
    intro i' _ j' _
    by_cases e : i' = i ∧ j' = j
    · obtain ⟨rfl, rfl⟩ := e; simp [h0]
    · simp [e]
  · intro k s _ hP
    obtain ⟨m', e, ag⟩ := hP.elemAssign hi hj
      ((∑ k in Finset.range k, rd a.data i k * rd b.data k j) + rd a.data i k * rd b.data k j)
    refine ⟨m', ?_, ag.congr ?_⟩
    · have e0 := hP.elem hi hj
      simp only [true_and, if_true, and_self] at e0
      show (s.elem (i : Int) (j : Int) >>= fun cur => _) = _
      rw [e0]
      exact e
    · intro i' _ j' _
      by_cases e : i' = i ∧ j' = j
      · simp [e, Finset.sum_range_succ]
      · simp [e]

theorem mul_ok (a b : Matrix) (h : a.cols = b.rows) :
    ∃ p, a.mul b = .ok p ∧
      Agree p a.rows b.cols
        (fun i j => ∑ k in Finset.range a.cols, rd a.data i k * rd b.data k j) := by
  unfold mul
  rw [if_neg (by simp [h])]
  exact tabulate_gen a.rows b.cols _
    (fun i j m => (List.range a.cols).foldlM (fun result (k : Nat) => do
          let cur ← result.elem (i : Int) (j : Int)
          result.elemAssign (i : Int) (j : Int) (cur + rd a.data i k * rd b.data k j)) m)
    (fun i j m G hi hj hm h0 => mul_inner a b _ _ i j hi hj m G hm h0 a.cols)

end Matrix

end MatrixCalc

namespace MatrixCalc

/-! ## Row operations -/

theorem rowSub_up {a : List (List ℚ)} {r w : Nat} (h : Shape a r w) {k i : Nat}
    (hk : k < r) (hki : k ≠ i) (f : ℚ) (lo cnt : Nat) (hcnt : lo + cnt ≤ w) :
    Shape ((List.range' lo cnt).foldl (fun s j => wr s k j (rd s k j - f * rd s i j)) a) r w ∧
      RowSubbed a ((List.range' lo cnt).foldl
        (fun s j => wr s k j (rd s k j - f * rd s i j)) a) k i f lo (lo + cnt) := by
  apply foldl_range'_inv (fun s j => wr s k j (rd s k j - f * rd s i j))
    (fun j s => Shape s r w ∧ RowSubbed a s k i f lo j) lo cnt a
  · exact ⟨h, fun x y => by rw [if_neg (by omega)]⟩
  · rintro j s h1 h2 ⟨hs, hr⟩
    refine ⟨hs.wr _ _ _, ?_⟩
    intro x y
    rw [rd_wr hs hk (by omega)]
    by_cases e : x = k ∧ y = j
    · obtain ⟨rfl, rfl⟩ := e
      rw [if_pos ⟨rfl, rfl⟩, if_pos ⟨rfl, h1, by omega⟩, hr x y, hr i y,
        if_neg (by omega), if_neg (by intro c; exact hki c.1.symm)]
    · rw [if_neg e, hr x y]
      by_cases e2 : x = k
      · have : y ≠ j := fun c => e ⟨e2, c⟩
        by_cases e3 : lo ≤ y ∧ y < j
        · rw [if_pos ⟨e2, e3⟩, if_pos ⟨e2, e3.1, by omega⟩]
        · rw [if_neg (fun c => e3 c.2), if_neg (fun c => e3 ⟨c.2.1, by omega⟩)]
      · rw [if_neg (fun c => e2 c.1), if_neg (fun c => e2 c.1)]

theorem rowSub_down {a : List (List ℚ)} {r w : Nat} (h : Shape a r w) {k i : Nat}
    (hk : k < r) (hki : k ≠ i) (f : ℚ) (lo cnt : Nat) (hcnt : lo + cnt ≤ w) :
    Shape ((List.range' lo cnt).reverse.foldl
        (fun s j => wr s k j (rd s k j - f * rd s i j)) a) r w ∧
      RowSubbed a ((List.range' lo cnt).reverse.foldl
        (fun s j => wr s k j (rd s k j - f * rd s i j)) a) k i f lo (lo + cnt) := by
  have key := foldl_range'_rev_inv (fun s j => wr s k j (rd s k j - f * rd s i j))
    (fun j s => Shape s r w ∧ RowSubbed a s k i f j (lo + cnt)) lo cnt a
    ⟨h, fun x y => by rw [if_neg (by omega)]⟩
    (by
      rintro j s h1 h2 ⟨hs, hr⟩
      refine ⟨hs.wr _ _ _, ?_⟩
      intro x y
      rw [rd_wr hs hk (by omega)]
      by_cases e : x = k ∧ y = j
      · obtain ⟨rfl, rfl⟩ := e
        rw [if_pos ⟨rfl, rfl⟩, if_pos ⟨rfl, le_refl _, h2⟩, hr x y, hr i y,
          if_neg (by omega), if_neg (by intro c; exact hki c.1.symm)]
      · rw [if_neg e, hr x y]
        by_cases e2 : x = k
        · have : y ≠ j := fun c => e ⟨e2, c⟩
          by_cases e3 : j + 1 ≤ y ∧ y < lo + cnt
          · rw [if_pos ⟨e2, e3⟩, if_pos ⟨e2, by omega, e3.2⟩]
          · rw [if_neg (fun c => e3 c.2), if_neg (fun c => e3 ⟨by omega, c.2.2⟩)]
        · rw [if_neg (fun c => e2 c.1), if_neg (fun c => e2 c.1)])
  exact key

theorem rowSubUp_spec {a : List (List ℚ)} {n : Nat} (h : Shape a n (2 * n)) {k i : Nat}
    (hk : k < n) (hi : i < n) (hki : k ≠ i) (f : ℚ) :
    Shape (rowSubUp n i k f a) n (2 * n) ∧
      RowSubbed a (rowSubUp n i k f a) k i f i (2 * n) := by
  have := rowSub_up h hk hki f i (2 * n - i) (by omega)
  rw [show i + (2 * n - i) = 2 * n by omega] at this
  exact this

theorem rowSubDown_spec {a : List (List ℚ)} {n : Nat} (h : Shape a n (2 * n)) {k i : Nat}
    (hk : k < n) (hi : i < n) (hki : k ≠ i) (f : ℚ) :
    Shape (rowSubDown n i k f a) n (2 * n) ∧
      RowSubbed a (rowSubDown n i k f a) k i f i (2 * n) := by
  have := rowSub_down h hk hki f i (2 * n - i) (by omega)
  rw [show i + (2 * n - i) = 2 * n by omega] at this
  exact this

end MatrixCalc

namespace MatrixCalc

/-! ## Forward elimination -/

theorem pivotRow_spec (aug : List (List ℚ)) (n i : Nat) (hi : i < n) :
    i ≤ pivotRow aug n i ∧ pivotRow aug n i < n ∧
      (∀ t, i ≤ t → t < n → |rd aug t i| ≤ |rd aug (pivotRow aug n i) i|) ∧
      (∀ t, i ≤ t → t < pivotRow aug n i → |rd aug t i| < |rd aug (pivotRow aug n i) i|) := by
  have key := foldl_range'_inv
    (fun max_row k => if |rd aug k i| > |rd aug max_row i| then k else max_row)
    (fun k m => i ≤ m ∧ m < k ∧ (∀ t, i ≤ t → t < k → |rd aug t i| ≤ |rd aug m i|) ∧
      (∀ t, i ≤ t → t < m → |rd aug t i| < |rd aug m i|))
    (i + 1) (n - (i + 1)) i
    ⟨le_refl _, by omega, fun t h1 h2 => by
      have : t = i := by omega
      rw [this], fun t h1 h2 => by omega⟩
    (by
      rintro k m h1 h2 ⟨p1, p2, p3, p4⟩
      by_cases c : |rd aug k i| > |rd aug m i|
      · simp only [c, if_true]
        refine ⟨by omega, by omega, ?_, ?_⟩
        · intro t t1 t2
          rcases Nat.lt_succ_iff_lt_or_eq.mp t2 with t3 | t3
          · exact le_trans (p3 t t1 t3) (le_of_lt c)
          · rw [t3]
        · intro t t1 t2
          exact lt_of_le_of_lt (p3 t t1 t2) c
      · simp only [c, if_false]
        refine ⟨p1, by omega, ?_, p4⟩
        intro t t1 t2
        rcases Nat.lt_succ_iff_lt_or_eq.mp t2 with t3 | t3
        · exact p3 t t1 t3
        · rw [t3]; exact not_lt.mp c)
  rw [show i + 1 + (n - (i + 1)) = n by omega] at key
  exact key

theorem Lin.rowSubbed {a : Nat → Nat → ℚ} {n : Nat} {s s' : List (List ℚ)} (h : Lin a n s)
    {k i lo : Nat} {f : ℚ} (hs : RowSubbed s s' k i f lo (2 * n)) (hlo : lo ≤ n)
    (hk : k < n) (hi : i < n) (hz : ∀ c, c < lo → rd s i c = 0) : Lin a n s' := by
  intro r hr c hc
  by_cases e : r = k
  · subst e
    have e1 : rd s' r c = rd s r c - f * rd s i c := by
      rw [hs r c]
      by_cases e2 : lo ≤ c
      · rw [if_pos ⟨rfl, e2, by omega⟩]
      · rw [if_neg (fun x => e2 x.2.1), hz c (by omega)]; ring
    have e2 : ∀ t ∈ Finset.range n, rd s' r (t + n) * a t c =
        rd s r (t + n) * a t c - f * (rd s i (t + n) * a t c) := by
      intro t ht
      have := Finset.mem_range.mp ht
      rw [hs r (t + n), if_pos ⟨rfl, by omega, by omega⟩]; ring
    rw [Finset.sum_congr rfl e2, Finset.sum_sub_distrib, ← Finset.mul_sum, h r hr c hc,
      h i hi c hc, e1]
  · have e2 : ∀ t ∈ Finset.range n, rd s' r (t + n) * a t c = rd s r (t + n) * a t c := by
      intro t _
      rw [hs r (t + n), if_neg (fun x => e x.1)]
    rw [Finset.sum_congr rfl e2, hs r c, if_neg (fun x => e x.1)]
    exact h r hr c hc

theorem Lin.swapped {a : Nat → Nat → ℚ} {n : Nat} {s : List (List ℚ)} (h : Lin a n s)
    (hs : Shape s n (2 * n)) {p q : Nat} (hp : p < n) (hq : q < n) :
    Lin a n (swapRows s p q) := by
  intro r hr c hc
  have e2 : ∀ t ∈ Finset.range n, rd (MatrixCalc.swapRows s p q) r (t + n) * a t c =
      rd s (if r = q then p else if r = p then q else r) (t + n) * a t c := by
    intro t _
    rw [rd_swapRows hs hp hq]
  rw [Finset.sum_congr rfl e2, rd_swapRows hs hp hq]
  apply h _ _ c hc
  split_ifs <;> assumption

/-- One iteration of forward elimination keeps the shape and `R · A = L`, and clears
column `i` below the diagonal. -/
theorem forwardStep_inv {a : Nat → Nat → ℚ} {n i : Nat} {s : List (List ℚ)} (hi : i < n)
    (hs : Shape s n (2 * n)) (hl : Lin a n s) (hz : LowZ n i s) :
    Shape (forwardStep n s i) n (2 * n) ∧ Lin a n (forwardStep n s i) ∧
      LowZ n (i + 1) (forwardStep n s i) := by
  obtain ⟨m1, m2, m3, _⟩ := pivotRow_spec s n i hi
  have hs1 : Shape (swapRows s (pivotRow s n i) i) n (2 * n) := hs.swap m2 hi
  have hl1 : Lin a n (swapRows s (pivotRow s n i) i) := hl.swapped hs m2 hi
  have hz1 : LowZ n i (swapRows s (pivotRow s n i) i) := by
    intro r c h1 h2 h3
    rw [rd_swapRows hs m2 hi]
    apply hz _ _ h1 _ _ <;> split_ifs <;> omega
  have hp1 : PivMax n i (swapRows s (pivotRow s n i) i) := by
    intro r h1 h2
    rw [rd_swapRows hs m2 hi, rd_swapRows hs m2 hi, if_neg (by omega), if_pos rfl]
    split_ifs
    · exact m3 i (le_refl _) hi
    · exact m3 r (by omega) h2
  have key := foldl_range'_inv
    (fun aug k => rowSubUp n i k (rd aug k i / rd aug i i) aug)
    (fun k t => Shape t n (2 * n) ∧ Lin a n t ∧ LowZ n i t ∧ PivMax n i t ∧
      ∀ r, i < r → r < k → rd t r i = 0)
    (i + 1) (n - (i + 1)) (swapRows s (pivotRow s n i) i)
    ⟨hs1, hl1, hz1, hp1, fun r h1 h2 => by omega⟩
    (by
      rintro k t h1 h2 ⟨q1, q2, q3, q4, q5⟩
      have hk : k < n := by omega
      have hki : k ≠ i := by omega
      obtain ⟨r1, r2⟩ := rowSubUp_spec q1 hk hi hki (rd t k i / rd t i i)
      have zk : rd (rowSubUp n i k (rd t k i / rd t i i) t) k i = 0 := by
        rw [r2 k i, if_pos ⟨rfl, le_refl _, by omega⟩]
        by_cases p0 : rd t i i = 0
        · have := q4 k (by omega) hk
          rw [p0, abs_zero] at this
          have : rd t k i = 0 := abs_eq_zero.mp (le_antisymm this (abs_nonneg _))
          rw [this, p0]; simp
        · field_simp
      refine ⟨r1, q2.rowSubbed r2 (by omega) hk hi (fun c hc => q3 i c hc hc hi), ?_, ?_, ?_⟩
      · intro r c c1 c2 c3
        rw [r2 r c, if_neg (by omega)]
        exact q3 r c c1 c2 c3
      · intro r c1 c2
        rw [r2 i i, if_neg (fun x => hki x.1.symm)]
        by_cases e : r = k
        · rw [e, zk, abs_zero]; exact abs_nonneg _
        · rw [r2 r i, if_neg (fun x => e x.1)]; exact q4 r c1 c2
      · intro r c1 c2
        by_cases e : r = k
        · rw [e]; exact zk
        · rw [r2 r i, if_neg (fun x => e x.1)]; exact q5 r c1 (by omega))
  rw [show i + 1 + (n - (i + 1)) = n by omega] at key
  obtain ⟨k1, k2, k3, _, k5⟩ := key
  refine ⟨k1, k2, ?_⟩
  intro r c c1 c2 c3
  rcases Nat.lt_succ_iff_lt_or_eq.mp c1 with c4 | c4
  · exact k3 r c c4 c2 c3
  · rw [c4]; exact k5 r (by omega) c3

theorem forward_inv {a : Nat → Nat → ℚ} {n : Nat} {s : List (List ℚ)}
    (hs : Shape s n (2 * n)) (hl : Lin a n s) :
    Shape ((List.range n).foldl (forwardStep n) s) n (2 * n) ∧
      Lin a n ((List.range n).foldl (forwardStep n) s) ∧
      LowZ n n ((List.range n).foldl (forwardStep n) s) :=
  foldl_range_inv (forwardStep n)
    (fun i t => Shape t n (2 * n) ∧ Lin a n t ∧ LowZ n i t) n s
    ⟨hs, hl, fun r c h => by omega⟩
    (fun _ _ hi ⟨p1, p2, p3⟩ => forwardStep_inv hi p1 p2 p3)

end MatrixCalc

namespace MatrixCalc

/-! ## Back substitution -/

/-- One iteration of back substitution keeps the shape, `R · A = L`, the zeros below
the diagonal and every diagonal entry, and clears column `i` above a nonzero pivot. -/
theorem backStep_inv {a : Nat → Nat → ℚ} {n i : Nat} {s : List (List ℚ)} (hi : i < n)
    (hs : Shape s n (2 * n)) (hl : Lin a n s) (hz : LowZ n n s) (hu : UpZ n (i + 1) s) :
    Shape (backStep n s i) n (2 * n) ∧ Lin a n (backStep n s i) ∧
      LowZ n n (backStep n s i) ∧ UpZ n i (backStep n s i) ∧
      ∀ c, c < n → rd (backStep n s i) c c = rd s c c := by
  have key := foldl_range_rev_inv
    (fun aug k => rowSubDown n i k (rd aug k i / rd aug i i) aug)
    (fun k t => Shape t n (2 * n) ∧ Lin a n t ∧ LowZ n n t ∧ UpZ n (i + 1) t ∧
      (∀ c, c < n → rd t c c = rd s c c) ∧
      (rd t i i ≠ 0 → ∀ r, k ≤ r → r < i → rd t r i = 0))
    i s ⟨hs, hl, hz, hu, fun _ _ => rfl, fun _ r h1 h2 => by omega⟩
    (by
      rintro k t h1 ⟨q1, q2, q3, q4, q5, q6⟩
      have hk : k < n := by omega
      have hki : k ≠ i := by omega
      obtain ⟨r1, r2⟩ := rowSubDown_spec q1 hk hi hki (rd t k i / rd t i i)
      have dg : ∀ c, c < n → rd (rowSubDown n i k (rd t k i / rd t i i) t) c c = rd t c c := by
        intro c _
        rw [r2 c c, if_neg (by omega)]
      refine ⟨r1, q2.rowSubbed r2 (by omega) hk hi (fun c hc => q3 i c (by omega) hc hi), ?_, ?_,
        ?_, ?_⟩
      · intro r c c1 c2 c3
        rw [r2 r c, if_neg (by omega)]
        exact q3 r c c1 c2 c3
      · intro c c1 c2 c3 r c4
        rw [dg c c2] at c3
        rw [r2 r c]
        by_cases e : r = k
        · rw [if_pos ⟨e, by omega, by omega⟩, q4 c c1 c2 c3 k (by omega),
            q4 c c1 c2 c3 i (by omega)]
          ring
        · rw [if_neg (fun x => e x.1)]; exact q4 c c1 c2 c3 r c4
      · intro c hc
        rw [dg c hc]; exact q5 c hc
      · intro p0 r c1 c2
        rw [dg i hi] at p0
        rw [r2 r i]
        by_cases e : r = k
        · rw [if_pos ⟨e, le_refl _, by omega⟩]
          field_simp
        · rw [if_neg (fun x => e x.1)]
          exact q6 p0 r (by omega) c2)
  obtain ⟨k1, k2, k3, k4, k5, k6⟩ := key
  refine ⟨k1, k2, k3, ?_, k5⟩
  intro c c1 c2 c3 r c4
  rcases Nat.eq_or_lt_of_le c1 with c5 | c5
  · subst c5; exact k6 c3 r (Nat.zero_le _) c4
  · exact k4 c (by omega) c2 c3 r c4

theorem backward_inv {a : Nat → Nat → ℚ} {n : Nat} {s : List (List ℚ)}
    (hs : Shape s n (2 * n)) (hl : Lin a n s) (hz : LowZ n n s) :
    Shape ((List.range n).reverse.foldl (backStep n) s) n (2 * n) ∧
      Lin a n ((List.range n).reverse.foldl (backStep n) s) ∧
      LowZ n n ((List.range n).reverse.foldl (backStep n) s) ∧
      UpZ n 0 ((List.range n).reverse.foldl (backStep n) s) ∧
      ∀ c, c < n → rd ((List.range n).reverse.foldl (backStep n) s) c c = rd s c c :=
  foldl_range_rev_inv (backStep n)
    (fun i t => Shape t n (2 * n) ∧ Lin a n t ∧ LowZ n n t ∧ UpZ n i t ∧
      ∀ c, c < n → rd t c c = rd s c c) n s
    ⟨hs, hl, hz, fun c h1 h2 => by omega, fun _ _ => rfl⟩
    (fun i t hi ⟨p1, p2, p3, p4, p5⟩ => by
      obtain ⟨b1, b2, b3, b4, b5⟩ := backStep_inv hi p1 p2 p3 p4
      exact ⟨b1, b2, b3, b4, fun c hc => (b5 c hc).trans (p5 c hc)⟩)

/-- Gaussian elimination on an `n × 2n` augmented matrix `[L | R]` with `R · A = L`
keeps that relation and leaves `L` zero below the diagonal and, in every column with
a nonzero diagonal entry, zero above it. -/
theorem gaussianElimination_inv {a : Nat → Nat → ℚ} {n : Nat} {s : List (List ℚ)}
    (hs : Shape s n (2 * n)) (hl : Lin a n s) :
    Shape (gaussianElimination s) n (2 * n) ∧ Lin a n (gaussianElimination s) ∧
      LowZ n n (gaussianElimination s) ∧ UpZ n 0 (gaussianElimination s) := by
  unfold gaussianElimination
  simp only [hs.1]
  obtain ⟨f1, f2, f3⟩ := forward_inv hs hl
  obtain ⟨b1, b2, b3, b4, _⟩ := backward_inv f1 f2 f3
  exact ⟨b1, b2, b3, b4⟩

/-! ## The augmented matrix -/

namespace Matrix

theorem augment_spec (m : Matrix) :
    Shape m.augment m.rows (2 * m.rows) ∧
      ∀ i, i < m.rows → ∀ j, j < 2 * m.rows →
        rd m.augment i j =
          if j < m.rows then rd m.data i j else if j = i + m.rows then 1 else 0 := by
  have key := foldl_range_inv
    (fun aug i =>
      wr ((List.range m.rows).foldl (fun aug j => wr aug i j (rd m.data i j)) aug)
        i (i + m.rows) 1)
    (fun k t => Shape t m.rows (2 * m.rows) ∧
      ∀ i, i < m.rows → ∀ j, j < 2 * m.rows →
        rd t i j = if i < k then
          (if j < m.rows then rd m.data i j else if j = i + m.rows then 1 else 0) else 0)
    m.rows (List.replicate m.rows (List.replicate (2 * m.rows) 0))
    ⟨Shape.replicate _ _ _, fun i hi j hj => by
      rw [rd_replicate 0 hi hj, if_neg (by omega)]⟩
    (by
      rintro k t hk ⟨p1, p2⟩
      have inner := foldl_range_inv (fun aug j => wr aug k j (rd m.data k j))
        (fun c u => Shape u m.rows (2 * m.rows) ∧
          ∀ i, i < m.rows → ∀ j, j < 2 * m.rows →
            rd u i j = if i = k ∧ j < c then rd m.data i j else rd t i j)
        m.rows t ⟨p1, fun i _ j _ => by rw [if_neg (by omega)]⟩
        (by
          rintro c u hc ⟨q1, q2⟩
          refine ⟨q1.wr _ _ _, ?_⟩
          intro i hi j hj
          rw [rd_wr q1 hk (by omega)]
          by_cases e : i = k ∧ j = c
          · obtain ⟨rfl, rfl⟩ := e
            rw [if_pos ⟨rfl, rfl⟩, if_pos ⟨rfl, by omega⟩]
          · rw [if_neg e, q2 i hi j hj]
            by_cases e2 : i = k ∧ j < c
            · rw [if_pos e2, if_pos ⟨e2.1, by omega⟩]
            · rw [if_neg e2, if_neg (fun x => e2 ⟨x.1, by
                rcases Nat.lt_succ_iff_lt_or_eq.mp x.2 with y | y
                · exact y
                · exact absurd ⟨x.1, y⟩ e⟩)])
      obtain ⟨i1, i2⟩ := inner
      refine ⟨i1.wr _ _ _, ?_⟩
      intro i hi j hj
      rw [rd_wr i1 hk (by omega)]
      by_cases e : i = k ∧ j = k + m.rows
      · obtain ⟨rfl, rfl⟩ := e
        rw [if_pos ⟨rfl, rfl⟩, if_pos (by omega), if_neg (by omega), if_pos rfl]
      · rw [if_neg e, i2 i hi j hj]
        by_cases e2 : i = k
        · subst e2
          have l1 : i < i + 1 := Nat.lt_succ_self i
          simp only [l1, if_true, true_and]
          by_cases e3 : j < m.rows
          · simp only [e3, if_true]
          · have e4 : ¬ j = i + m.rows := fun x => e ⟨rfl, x⟩
            have l2 : ¬ i < i := Nat.lt_irrefl i
            simp only [e3, e4, if_false, p2 i hi j hj, l2]
        · have e4 : ¬ (i = k ∧ j < m.rows) := fun x => e2 x.1
          simp only [e4, if_false, p2 i hi j hj]
          by_cases e3 : i < k
          · have l1 : i < k + 1 := by omega
            simp only [e3, l1, if_true]
          · have l1 : ¬ i < k + 1 := by omega
            simp only [e3, l1, if_false])
  obtain ⟨k1, k2⟩ := key
  refine ⟨k1, ?_⟩
  intro i hi j hj
  have := k2 i hi j hj
  rw [if_pos hi] at this
  exact this

theorem augment_lin (m : Matrix) : Lin (rd m.data) m.rows m.augment := by
  obtain ⟨_, h⟩ := augment_spec m
  intro r hr c hc
  have e : ∀ t ∈ Finset.range m.rows, rd m.augment r (t + m.rows) * rd m.data t c =
      if t = r then rd m.data r c else 0 := by
    intro t ht
    have := Finset.mem_range.mp ht
    rw [h r hr (t + m.rows) (by omega), if_neg (by omega)]
    by_cases e : t = r
    · subst e; simp
    · rw [if_neg (by omega), if_neg e]; simp
  rw [Finset.sum_congr rfl e, Finset.sum_ite_eq' (Finset.range m.rows) r,
    if_pos (Finset.mem_range.mpr hr), h r hr c (by omega), if_pos hc]

end Matrix

end MatrixCalc

namespace MatrixCalc

/-! ## Loops that may throw -/

theorem foldlM_congr_mem {σ α ε : Type} (f g : σ → α → Except ε σ) :
    ∀ (l : List α), (∀ x, x ∈ l → ∀ s, f s x = g s x) →
      ∀ s, l.foldlM f s = l.foldlM g s := by
  intro l
  induction l with
  | nil => intro _ s; rfl
  | cons x xs ih =>
    intro h s
    simp only [List.foldlM_cons]
    rw [h x (List.mem_cons_self _ _) s]
    cases g s x with
    | error e => rfl
    | ok s' => exact ih (fun y hy => h y (List.mem_cons_of_mem _ hy)) s'

theorem foldlM_error_of_mem {σ α ε : Type} (f : σ → α → Except ε σ) (Inv : σ → Prop) (e : ε)
    (x : α) (hx : ∀ s, f s x = .error e) :
    ∀ (l : List α), x ∈ l →
      (∀ y, y ∈ l → ∀ s, Inv s → (∃ s', f s y = .ok s' ∧ Inv s') ∨ f s y = .error e) →
      ∀ s, Inv s → l.foldlM f s = .error e := by
  intro l
  induction l with
  | nil => intro h; cases h
  | cons y ys ih =>
    intro hmem hstep s hs
    simp only [List.foldlM_cons]
    rcases hstep y (List.mem_cons_self _ _) s hs with ⟨s', e1, i1⟩ | e1
    · rw [e1]
      have hx' : x ∈ ys := by
        rcases List.mem_cons.mp hmem with c | c
        · subst c; rw [hx s] at e1; cases e1
        · exact c
      exact ih hx' (fun z hz => hstep z (List.mem_cons_of_mem _ hz)) s' i1
    · rw [e1]; rfl

/-! ## Normalisation and inversion -/

theorem eps_pos : 0 < eps := by unfold eps; positivity

namespace Matrix

theorem Agree.self {m : Matrix} {r c : Nat} (h1 : m.rows = r) (h2 : m.cols = c)
    (h3 : Shape m.data r c) : Agree m r c (rd m.data) :=
  ⟨h1, h2, h3, fun _ _ _ _ => rfl⟩

theorem normalize_ok (n : Nat) (aug : List (List ℚ))
    (h : ∀ i, i < n → ¬ |rd aug i i| < eps) :
    ∃ m, normalize n aug = .ok m ∧
      Agree m n n (fun i j => rd aug i (j + n) / rd aug i i) := by
  obtain ⟨m, hm, ag⟩ := tabulate_ok n n (fun i j => rd aug i (j + n) / rd aug i i)
  refine ⟨m, ?_, ag⟩
  rw [← hm]
  unfold normalize
  apply foldlM_congr_mem
  intro i hi s
  have := h i (List.mem_range.mp hi)
  simp only [this, if_false]

theorem normalize_error (n : Nat) (aug : List (List ℚ)) (i : Nat) (hi : i < n)
    (h : |rd aug i i| < eps) :
    normalize n aug = .error (.runtime_error "Matrix is not invertible") := by
  unfold normalize
  apply foldlM_error_of_mem _
    (fun m => m.rows = n ∧ m.cols = n ∧ Shape m.data n n) _ i
  · intro s; simp only [h, if_true]
  · exact List.mem_range.mpr hi
  · intro y hy s hs
    by_cases c : |rd aug y y| < eps
    · right; simp only [c, if_true]
    · left
      simp only [c, if_false]
      obtain ⟨s', e1, p1, p2, p3⟩ := foldlM_range_inv (ε := Exn)
        (fun inverse_matrix (j : Nat) => inverse_matrix.elemAssign (y : Int) (j : Int)
          (rd aug y (j + n) / rd aug y y))
        (fun _ m => m.rows = n ∧ m.cols = n ∧ Shape m.data n n) n s hs
        (by
          rintro j t hj ⟨q1, q2, q3⟩
          obtain ⟨m', e2, a2⟩ := (Agree.self q1 q2 q3).elemAssign (List.mem_range.mp hy) hj
            (rd aug y (j + n) / rd aug y y)
          exact ⟨m', e2, a2.1, a2.2.1, a2.2.2.1⟩)
      exact ⟨s', e1, p1, p2, p3⟩
  · exact ⟨rfl, rfl, Shape.replicate n n 0⟩

/-- The normalisation loop either returns or throws the singular-matrix error. -/
theorem normalize_cases (n : Nat) (aug : List (List ℚ)) :
    ((∀ i, i < n → ¬ |rd aug i i| < eps) ∧
      ∃ m, normalize n aug = .ok m ∧
        Agree m n n (fun i j => rd aug i (j + n) / rd aug i i)) ∨
    ((∃ i, i < n ∧ |rd aug i i| < eps) ∧
      normalize n aug = .error (.runtime_error "Matrix is not invertible")) := by
  by_cases h : ∃ i, i < n ∧ |rd aug i i| < eps
  · obtain ⟨i, hi, hs⟩ := h
    exact Or.inr ⟨⟨i, hi, hs⟩, normalize_error n aug i hi hs⟩
  · have h' : ∀ i, i < n → ¬ |rd aug i i| < eps := fun i hi c => h ⟨i, hi, c⟩
    exact Or.inl ⟨h', normalize_ok n aug h'⟩

theorem identity_agree (n : Nat) :
    Agree (identity n) n n (fun i j => if i = j then 1 else 0) := by
  refine ⟨rfl, rfl, ⟨by simp [identity], ?_⟩, ?_⟩
  · intro row hrow
    simp only [identity, List.mem_map] at hrow
    obtain ⟨i, _, rfl⟩ := hrow
    simp
  · intro i hi j hj
    simp [identity, rd, List.getD_eq_getElem?_getD, hi, hj]

/-- Whenever `inverse` returns, the result is a well-formed `n × n` matrix `M` with
`M · A = I`, entry by entry. -/
theorem inverse_left (A M : Matrix) (h : A.inverse = .ok M) :
    A.rows = A.cols ∧ (∀ i, i < A.rows → ¬ |rd (gaussianElimination A.augment) i i| < eps) ∧
      Agree M A.rows A.rows (rd M.data) ∧
      ∀ r, r < A.rows → ∀ c, c < A.rows →
        ∑ t in Finset.range A.rows, rd M.data r t * rd A.data t c = if r = c then 1 else 0 := by
  unfold inverse at h
  by_cases sq : A.rows ≠ A.cols
  · rw [if_pos sq] at h; cases h
  rw [if_neg sq] at h
  refine ⟨not_not.mp sq, ?_⟩
  rcases normalize_cases A.rows (gaussianElimination A.augment) with ⟨hp, m, hm, ag⟩ | ⟨_, he⟩
  swap
  · rw [he] at h; cases h
  rw [hm] at h
  cases h
  refine ⟨hp, Agree.self ag.1 ag.2.1 ag.2.2.1, ?_⟩
  obtain ⟨_, g2, g3, g4⟩ := gaussianElimination_inv (augment_spec A).1 (augment_lin A)
  have nz : ∀ i, i < A.rows → rd (gaussianElimination A.augment) i i ≠ 0 := by
    intro i hi c
    apply hp i hi
    rw [c, abs_zero]; exact eps_pos
  intro r hr c hc
  have e : ∀ t ∈ Finset.range A.rows, rd M.data r t * rd A.data t c =
      (rd (gaussianElimination A.augment) r (t + A.rows) * rd A.data t c) /
        rd (gaussianElimination A.augment) r r := by
    intro t ht
    rw [ag.2.2.2 r hr t (Finset.mem_range.mp ht)]; ring
  rw [Finset.sum_congr rfl e, ← Finset.sum_div, g2 r hr c hc]
  by_cases e1 : r = c
  · subst e1
    rw [if_pos rfl]
    exact div_self (nz r hr)
  · rw [if_neg e1]
    have : rd (gaussianElimination A.augment) r c = 0 := by
      rcases Nat.lt_or_gt_of_ne e1 with l | l
      · exact g4 c (Nat.zero_le _) hc (nz c hc) r l
      · exact g3 r c hc l hr
    rw [this, zero_div]

end Matrix

theorem toSq_mul_apply (n : Nat) (a b : List (List ℚ)) (i j : Fin n) :
    (toSq n a * toSq n b) i j = ∑ k in Finset.range n, rd a i.val k * rd b k j.val := by
  rw [Matrix.mul_apply, Finset.sum_range]
  rfl

namespace Matrix

/-- Whenever `inverse` returns `M`, the mathematical matrices satisfy `M · A = 1` and
`A · M = 1`. -/
theorem inverse_toSq (A M : Matrix) (h : A.inverse = .ok M) :
    toSq A.rows M.data * toSq A.rows A.data = 1 ∧
      toSq A.rows A.data * toSq A.rows M.data = 1 := by
  obtain ⟨_, _, _, h4⟩ := inverse_left A M h
  have l : toSq A.rows M.data * toSq A.rows A.data = 1 := by
    ext i j
    rw [toSq_mul_apply, h4 i.val i.isLt j.val j.isLt, Matrix.one_apply]
    by_cases e : i = j
    · rw [if_pos e, if_pos (congrArg Fin.val e)]
    · rw [if_neg e, if_neg (fun c => e (Fin.ext c))]
  exact ⟨l, Matrix.mul_eq_one_comm.mp l⟩

theorem mul_eq_identity (A M : Matrix) (n : Nat) (hA : Agree A n n (rd A.data))
    (hM : Agree M n n (rd M.data)) (h : toSq n A.data * toSq n M.data = 1) :
    A.mul M = .ok (identity n) := by
  obtain ⟨p, hp, ag⟩ := mul_ok A M (by rw [hA.2.1, hM.1])
  rw [hA.1, hA.2.1, hM.2.1] at ag
  have : p = identity n := by
    refine Agree.unique (ag.congr ?_) (identity_agree n)
    intro i hi j hj
    have := congrFun (congrFun h ⟨i, hi⟩) ⟨j, hj⟩
    rw [toSq_mul_apply, Matrix.one_apply] at this
    rw [this]
    by_cases e : i = j
    · subst e; simp
    · rw [if_neg e, if_neg (fun c => e (by simpa using congrArg Fin.val c))]
  rw [hp, this]

end Matrix

end MatrixCalc

namespace MatrixCalc

/-! ## Determinant by unpivoted elimination -/

namespace Matrix

theorem luStep_spec {s : List (List ℚ)} {n i : Nat} (hs : Shape s n n) (hi : i < n) :
    Shape (luStep n s i) n n ∧
      ∀ r c, rd (luStep n s i) r c =
        if i < r ∧ r < n ∧ i < c ∧ c < n then rd s r c - rd s r i / rd s i i * rd s i c
        else rd s r c := by
  have key := foldl_range'_inv
    (fun lu j => (List.range' (i + 1) (n - (i + 1))).foldl
        (fun lu' k => wr lu' j k (rd lu' j k - rd lu j i / rd lu i i * rd lu' i k)) lu)
    (fun j t => Shape t n n ∧ ∀ r c, rd t r c =
        if i < r ∧ r < j ∧ i < c ∧ c < n then rd s r c - rd s r i / rd s i i * rd s i c
        else rd s r c)
    (i + 1) (n - (i + 1)) s
    ⟨hs, fun r c => by rw [if_neg (by omega)]⟩
    (by
      rintro j t h1 h2 ⟨q1, q2⟩
      have hj : j < n := by omega
      have hji : j ≠ i := by omega
      obtain ⟨r1, r2⟩ := rowSub_up q1 hj hji (rd t j i / rd t i i) (i + 1) (n - (i + 1))
        (by omega)
      rw [show i + 1 + (n - (i + 1)) = n by omega] at r2
      refine ⟨r1, ?_⟩
      intro r c
      rw [r2 r c]
      by_cases e : r = j
      · subst e
        by_cases e2 : i + 1 ≤ c ∧ c < n
        · rw [if_pos ⟨rfl, e2⟩, if_pos ⟨by omega, by omega, by omega, e2.2⟩, q2 r c, q2 r i,
            q2 i i, q2 i c, if_neg (by omega), if_neg (by omega), if_neg (by omega),
            if_neg (by omega)]
        · rw [if_neg (fun x => e2 x.2), if_neg (fun x => e2 ⟨by omega, x.2.2.2⟩), q2 r c,
            if_neg (by omega)]
      · rw [if_neg (fun x => e x.1), q2 r c]
        by_cases e2 : i < r ∧ r < j ∧ i < c ∧ c < n
        · rw [if_pos e2, if_pos ⟨e2.1, by omega, e2.2.2⟩]
        · rw [if_neg e2, if_neg (fun x => e2 ⟨x.1, by omega, x.2.2⟩)])
  rw [show i + 1 + (n - (i + 1)) = n by omega] at key
  obtain ⟨k1, k2⟩ := key
  exact ⟨k1, k2⟩

theorem luAfter_succ (m : Matrix) (i : Nat) :
    m.luAfter (i + 1) = luStep m.rows (m.luAfter i) i := by
  unfold luAfter
  rw [List.range_succ, List.foldl_append]
  rfl

theorem luAfter_shape (m : Matrix) (hs : Shape m.data m.rows m.rows) :
    ∀ i, i ≤ m.rows → Shape (m.luAfter i) m.rows m.rows := by
  intro i
  induction i with
  | zero => intro _; exact hs
  | succ k ih =>
    intro hk
    rw [luAfter_succ]
    exact (luStep_spec (ih (by omega)) (by omega)).1

/-- Row `i` of `lu`, hence the pivot `lu[i][i]`, is final once column `i` is reached. -/
theorem luAfter_row (m : Matrix) (hs : Shape m.data m.rows m.rows) (i : Nat) :
    ∀ d, i + d ≤ m.rows → ∀ c, rd (m.luAfter (i + d)) i c = rd (m.luAfter i) i c := by
  intro d
  induction d with
  | zero => intro _ _; rfl
  | succ k ih =>
    intro hk c
    rw [← Nat.add_assoc, luAfter_succ,
      (luStep_spec (luAfter_shape m hs (i + k) (by omega)) (by omega)).2 i c,
      if_neg (by omega)]
    exact ih (by omega) c

theorem luLoop_eq (n : Nat) :
    ∀ (cnt i : Nat) (lu : List (List ℚ)) (det : ℚ),
      (∀ t, t < cnt →
        ¬ |rd ((List.range' i t).foldl (luStep n) lu) (i + t) (i + t)| < eps) →
      luLoop n (List.range' i cnt) lu det =
        det * ∏ t in Finset.range cnt,
          rd ((List.range' i t).foldl (luStep n) lu) (i + t) (i + t) := by
  intro cnt
  induction cnt with
  | zero => intro i lu det _; simp [luLoop]
  | succ k ih =>
    intro i lu det h
    rw [List.range'_succ]
    unfold luLoop
    have h0 := h 0 (Nat.succ_pos _)
    simp only [List.range'_zero, List.foldl_nil, Nat.add_zero] at h0
    rw [if_neg h0, ih (i + 1) (luStep n lu i) (det * rd lu i i)
      (fun t ht => by
        have := h (t + 1) (by omega)
        rw [List.range'_succ, List.foldl_cons] at this
        rw [show i + 1 + t = i + (t + 1) by omega]
        exact this),
      Finset.prod_range_succ']
    simp only [List.range'_zero, List.foldl_nil, Nat.add_zero]
    rw [mul_assoc, mul_comm (rd lu i i)]
    congr 1
    congr 1
    apply Finset.prod_congr rfl
    intro t _
    rw [List.range'_succ, List.foldl_cons, show i + 1 + t = i + (t + 1) by omega]

end Matrix

theorem upperView_zero (n : Nat) (s : List (List ℚ)) : upperView n 0 s = toSq n s := by
  funext r c
  simp [upperView, toSq]

theorem upperView_det_step {s : List (List ℚ)} {n i : Nat} (hs : Shape s n n) (hi : i < n)
    (hp : rd s i i ≠ 0) :
    (upperView n (i + 1) (Matrix.luStep n s i)).det = (upperView n i s).det := by
  apply Matrix.det_eq_of_forall_row_eq_smul_add_const
    (fun r : Fin n => if i < r.val then -(rd s r.val i / rd s i i) else 0) ⟨i, hi⟩
  · simp
  · intro r c
    have hr := r.isLt
    have hc := c.isLt
    simp only [upperView]
    rw [(Matrix.luStep_spec hs hi).2 r.val c.val]
    have hii : ¬ i < i := Nat.lt_irrefl i
    by_cases e1 : i < r.val
    · rcases Nat.lt_trichotomy c.val i with e2 | e2 | e2
      · have h3 : c.val < r.val := by omega
        have h4 : c.val < i + 1 := by omega
        simp [e1, e2, h3, h4]
      · have h3 : c.val < r.val := by omega
        have h4 : c.val < i + 1 := by omega
        simp only [e1, h3, h4, e2, hii, if_true, if_false, and_self, and_true, false_and]
        field_simp
      · have h4 : ¬ c.val < i + 1 := by omega
        have h5 : ¬ c.val < i := by omega
        simp only [e1, e2, h4, h5, hr, hc, if_true, if_false, and_self, false_and]
        ring
    · have h6 : ¬ (i < r.val ∧ r.val < n ∧ i < c.val ∧ c.val < n) := fun x => e1 x.1
      have h7 : (c.val < i + 1 ∧ c.val < r.val) ↔ (c.val < i ∧ c.val < r.val) := by
        constructor
        · rintro ⟨_, y⟩; exact ⟨by omega, y⟩
        · rintro ⟨x, y⟩; exact ⟨by omega, y⟩
      simp only [e1, h7, if_false, zero_mul, add_zero, false_and]

theorem upperView_det_full (n : Nat) (s : List (List ℚ)) :
    (upperView n n s).det = ∏ i in Finset.range n, rd s i i := by
  rw [Matrix.det_of_upperTriangular, Finset.prod_range]
  · apply Finset.prod_congr rfl
    intro i _
    simp [upperView]
  · intro r c h
    have h' : c.val < r.val := h
    simp [upperView, h', c.isLt]

namespace Matrix

theorem luAfter_det (m : Matrix) (hs : Shape m.data m.rows m.rows)
    (hp : ∀ i, i < m.rows → rd (m.luAfter i) i i ≠ 0) :
    ∀ i, i ≤ m.rows → (upperView m.rows i (m.luAfter i)).det = (toSq m.rows m.data).det := by
  intro i
  induction i with
  | zero => intro _; rw [upperView_zero]; rfl
  | succ k ih =>
    intro hk
    rw [luAfter_succ, upperView_det_step (luAfter_shape m hs k (by omega)) (by omega)
      (hp k (by omega))]
    exact ih (by omega)

/-- When no pivot met by the reduction is below the threshold, the loop of
`determinant` returns the product of the diagonal of the reduced matrix, which is the
determinant of the input. -/
theorem luLoop_det (m : Matrix) (hs : Shape m.data m.rows m.rows)
    (hp : ∀ i, i < m.rows → ¬ |rd (m.luAfter i) i i| < eps) :
    luLoop m.rows (List.range m.rows) m.data 1 =
        ∏ i in Finset.range m.rows, rd (m.luAfter m.rows) i i ∧
      ∏ i in Finset.range m.rows, rd (m.luAfter m.rows) i i = (toSq m.rows m.data).det := by
  have nz : ∀ i, i < m.rows → rd (m.luAfter i) i i ≠ 0 := by
    intro i hi c
    apply hp i hi
    rw [c, abs_zero]; exact eps_pos
  constructor
  · rw [List.range_eq_range', luLoop_eq m.rows m.rows 0 m.data 1
      (fun t ht => by
        have := hp t ht
        simp only [luAfter, List.range_eq_range'] at this
        simpa using this), one_mul]
    apply Finset.prod_congr rfl
    intro t ht
    have ht' := Finset.mem_range.mp ht
    have := luAfter_row m hs t (m.rows - t) (by omega) t
    rw [show t + (m.rows - t) = m.rows by omega] at this
    rw [this]
    simp [luAfter, List.range_eq_range']
  · rw [← upperView_det_full, luAfter_det m hs nz m.rows (le_refl _)]

end Matrix

end MatrixCalc

namespace MatrixCalc

/-! ## Parsing well-formed literals -/

theorem takeWhile_stop {α : Type} (p : α → Bool) (l₁ : List α) (a : α) (l₂ : List α)
    (h1 : ∀ x ∈ l₁, p x = true) (ha : p a = false) : (l₁ ++ a :: l₂).takeWhile p = l₁ := by
  rw [List.takeWhile_append_of_pos h1, List.takeWhile_cons_of_neg (by simp [ha]),
    List.append_nil]

theorem dropWhile_stop {α : Type} (p : α → Bool) (l₁ : List α) (a : α) (l₂ : List α)
    (h1 : ∀ x ∈ l₁, p x = true) (ha : p a = false) :
    (l₁ ++ a :: l₂).dropWhile p = a :: l₂ := by
  rw [List.dropWhile_append_of_pos h1, List.dropWhile_cons_of_neg (by simp [ha])]

theorem getline_sep (d : Char) (s rest : List Char) (hs : ∀ ch ∈ s, ch ≠ d) :
    getline d (s ++ d :: rest) = some (s, rest) := by
  have h1 : ∀ x ∈ s, (fun ch => ch != d) x = true := fun x hx => by simpa using hs x hx
  have h2 : (fun ch => ch != d) d = false := by simp
  have e1 := takeWhile_stop (fun ch => ch != d) s d rest h1 h2
  have e2 := dropWhile_stop (fun ch => ch != d) s d rest h1 h2
  cases s with
  | nil => simp only [List.nil_append] at e1 e2 ⊢; simp only [getline, e1, e2, List.drop]
  | cons c t => simp only [List.cons_append] at e1 e2 ⊢; simp only [getline, e1, e2, List.drop]

theorem getline_last (d : Char) (s : List Char) (hne : s ≠ []) (hs : ∀ ch ∈ s, ch ≠ d) :
    getline d s = some (s, []) := by
  have h1 : ∀ x ∈ s, (fun ch => ch != d) x = true := fun x hx => by simpa using hs x hx
  cases s with
  | nil => exact absurd rfl hne
  | cons c t =>
    simp only [getline, List.takeWhile_eq_self_iff.mpr h1, List.dropWhile_eq_nil_iff.mpr h1,
      List.drop]

theorem isBlank_cases {ch : Char} (h : isBlank ch = true) : ch = ' ' ∨ ch = '\t' := by
  simpa [isBlank] using h

theorem digit_facts {ch : Char} (h : ch.isDigit = true) :
    ch ≠ ',' ∧ ch ≠ ';' ∧ isBlank ch = false ∧ isspace ch = false := by
  refine ⟨?_, ?_, ?_, ?_⟩
  · rintro rfl; exact absurd h (by decide)
  · rintro rfl; exact absurd h (by decide)
  · by_contra c
    rcases isBlank_cases (by simpa using c) with rfl | rfl <;> exact absurd h (by decide)
  · by_contra c
    have c' : isspace ch = true := by simpa using c
    simp only [isspace, Bool.or_eq_true, decide_eq_true_eq] at c'
    rcases c' with ((((rfl | rfl) | rfl) | rfl) | rfl) | rfl <;> exact absurd h (by decide)

namespace Numeral

theorem sign_facts (x : Numeral) :
    ∀ ch ∈ x.signText, ch ≠ ',' ∧ ch ≠ ';' ∧ isBlank ch = false ∧ isspace ch = false := by
  intro ch h
  unfold signText at h
  rcases hs : x.sign with _ | b
  · rw [hs] at h; cases h
  · cases b <;> rw [hs] at h <;> simp only [List.mem_singleton] at h <;> subst h <;> decide

theorem frac_facts (x : Numeral) (hv : x.Valid) :
    ∀ ch ∈ x.fracText, ch ≠ ',' ∧ ch ≠ ';' ∧ isBlank ch = false ∧ isspace ch = false := by
  intro ch h
  unfold fracText at h
  rcases hf : x.fracDigits with _ | f
  · rw [hf] at h; cases h
  · rw [hf] at h
    rcases List.mem_cons.mp h with rfl | h'
    · decide
    · exact digit_facts ((hv.2.2.2.2 f hf).2 ch h')

theorem core_facts (x : Numeral) (hv : x.Valid) :
    ∀ ch ∈ x.core, ch ≠ ',' ∧ ch ≠ ';' ∧ isBlank ch = false ∧ isspace ch = false := by
  intro ch h
  unfold core at h
  rcases List.mem_append.mp h with h | h
  · exact sign_facts x ch h
  · rcases List.mem_append.mp h with h | h
    · exact digit_facts (hv.2.2.2.1 ch h)
    · exact frac_facts x hv ch h

theorem text_clean (x : Numeral) (hv : x.Valid) :
    ∀ ch ∈ x.text, ch ≠ ',' ∧ ch ≠ ';' := by
  intro ch h
  unfold text at h
  have blank : isBlank ch = true → ch ≠ ',' ∧ ch ≠ ';' := by
    intro hb
    rcases isBlank_cases hb with rfl | rfl <;> decide
  rcases List.mem_append.mp h with h | h
  · exact blank (hv.1 ch h)
  · rcases List.mem_append.mp h with h | h
    · exact ⟨(core_facts x hv ch h).1, (core_facts x hv ch h).2.1⟩
    · exact blank (hv.2.1 ch h)

theorem core_ne_nil (x : Numeral) (hv : x.Valid) : x.core ≠ [] := by
  unfold core
  intro h
  have := (List.append_eq_nil.mp h).2
  exact hv.2.2.1 (List.append_eq_nil.mp this).1

theorem text_ne_nil (x : Numeral) (hv : x.Valid) : x.text ≠ [] := by
  unfold text
  intro h
  exact core_ne_nil x hv (List.append_eq_nil.mp (List.append_eq_nil.mp h).2).1

/-- The two `erase` calls of the parser strip exactly the blanks around a numeral. -/
theorem trim_text (x : Numeral) (hv : x.Valid) :
    ((x.text.dropWhile isBlank).reverse.dropWhile isBlank).reverse = x.core := by
  have hc := core_facts x hv
  obtain ⟨a, t, e1⟩ := List.exists_cons_of_ne_nil (core_ne_nil x hv)
  have ha : isBlank a = false := (hc a (by rw [e1]; exact List.mem_cons_self _ _)).2.2.1
  have hr : x.core.reverse ≠ [] := by simpa using core_ne_nil x hv
  obtain ⟨b, u, e2⟩ := List.exists_cons_of_ne_nil hr
  have hb : isBlank b = false :=
    (hc b (by
      have : b ∈ x.core.reverse := by rw [e2]; exact List.mem_cons_self _ _
      exact List.mem_reverse.mp this)).2.2.1
  unfold text
  rw [e1, List.cons_append, dropWhile_stop isBlank x.pre a (t ++ x.post) hv.1 ha,
    ← List.cons_append, ← e1, List.reverse_append, e2,
    dropWhile_stop isBlank x.post.reverse b u
      (fun c h => hv.2.1 c (List.mem_reverse.mp h)) hb, ← e2, List.reverse_reverse]

end Numeral

theorem digitsVal_append (a b : List Char) :
    digitsVal (a ++ b) = digitsVal a * 10 ^ b.length + digitsVal b := by
  have gen : ∀ (l : List Char) (acc : Nat),
      l.foldl (fun acc ch => 10 * acc + (ch.toNat - '0'.toNat)) acc =
        acc * 10 ^ l.length +
          l.foldl (fun acc ch => 10 * acc + (ch.toNat - '0'.toNat)) 0 := by
    intro l
    induction l with
    | nil => intro acc; simp
    | cons c t ih =>
      intro acc
      simp only [List.foldl_cons, List.length_cons]
      rw [ih (10 * acc + (c.toNat - '0'.toNat)), ih (10 * 0 + (c.toNat - '0'.toNat))]
      ring
  unfold digitsVal
  rw [List.foldl_append, gen b]

namespace Numeral

/-- The magnitude of a numeral. -/
theorem stodMagnitude_body (x : Numeral) (hv : x.Valid) :
    stodMagnitude (x.intDigits ++ x.fracText) = some x.magnitude := by
  obtain ⟨_, _, hne, hd, hf⟩ := hv
  have dig : ∀ ch ∈ x.intDigits, Char.isDigit ch = true := hd
  unfold stodMagnitude magnitude
  rcases hfr : x.fracDigits with _ | f
  · have e1 : x.fracText = [] := by unfold fracText; rw [hfr]
    simp only [e1, List.append_nil, List.takeWhile_eq_self_iff.mpr dig,
      List.dropWhile_eq_nil_iff.mpr dig]
    simp [hne, exponentVal]
  · have e1 : x.fracText = '.' :: f := by unfold fracText; rw [hfr]
    have fd : ∀ ch ∈ f, Char.isDigit ch = true := (hf f hfr).2
    have t1 := takeWhile_stop Char.isDigit x.intDigits '.' f dig (by decide)
    have t2 := dropWhile_stop Char.isDigit x.intDigits '.' f dig (by decide)
    simp only [e1, t1, t2, List.takeWhile_eq_self_iff.mpr fd,
      List.dropWhile_eq_nil_iff.mpr fd]
    have p10 : (10 : ℚ) ^ f.length ≠ 0 := by positivity
    simp only [hne, List.isEmpty_eq_true, false_and, if_false, exponentVal,
      digitsVal_append, Int.toNat_zero, pow_zero, mul_one, lt_self_iff_false]
    congr 1
    push_cast
    field_simp

/-- After the sign a numeral has decimal digits and at most a point. -/
theorem body_facts (x : Numeral) (hv : x.Valid) :
    ∀ ch ∈ x.intDigits ++ x.fracText, ch ≠ 'x' ∧ ch ≠ 'X' := by
  intro ch h
  have key : ch.isDigit = true ∨ ch = '.' := by
    rcases List.mem_append.mp h with h | h
    · exact Or.inl (hv.2.2.2.1 ch h)
    · unfold fracText at h
      rcases hf : x.fracDigits with _ | f
      · rw [hf] at h; simp at h
      · rw [hf] at h
        rcases List.mem_cons.mp h with h | h
        · exact Or.inr h
        · exact Or.inl ((hv.2.2.2.2 f hf).2 ch h)
  rcases key with k | k
  · constructor <;> (rintro rfl; exact absurd k (by decide))
  · subst k; constructor <;> decide

theorem stodUnsigned_body (x : Numeral) (hv : x.Valid) :
    stodUnsigned (x.intDigits ++ x.fracText) = some x.magnitude := by
  have hm := stodMagnitude_body x hv
  have hb := body_facts x hv
  unfold stodUnsigned
  split
  · rename_i c t heq
    have hc : c ∈ x.intDigits ++ x.fracText := by rw [heq]; simp
    rw [if_neg (by
      rintro (e | e)
      · exact (hb c hc).1 e
      · exact (hb c hc).2 e)]
    exact hm
  · exact hm

/-- The conversion `strtod` takes the whole of a numeral and yields the number it
denotes. -/
theorem strtod_core (x : Numeral) (hv : x.Valid) : strtod x.core = some x.value := by
  have hm := stodUnsigned_body x hv
  obtain ⟨_, _, hne, hd, _⟩ := hv
  obtain ⟨d0, dt, ed⟩ := List.exists_cons_of_ne_nil hne
  have hd0 : d0.isDigit = true := hd d0 (by rw [ed]; exact List.mem_cons_self _ _)
  unfold strtod value core
  rcases hs : x.sign with _ | b
  · have e0 : x.signText = [] := by unfold signText; rw [hs]
    have h1 : (x.intDigits ++ x.fracText).dropWhile isspace = x.intDigits ++ x.fracText := by
      rw [ed, List.cons_append, List.dropWhile_cons_of_neg (by simp [(digit_facts hd0).2.2.2])]
    rw [e0, List.nil_append, h1]
    split
    · rename_i t heq
      rw [ed, List.cons_append] at heq
      have : d0 = '-' := (List.cons.inj heq).1
      subst this; exact absurd hd0 (by decide)
    · rename_i t heq
      rw [ed, List.cons_append] at heq
      have : d0 = '+' := (List.cons.inj heq).1
      subst this; exact absurd hd0 (by decide)
    · rw [hm]; simp [hs]
  · cases b
    · have e0 : x.signText = ['+'] := by unfold signText; rw [hs]
      rw [e0]
      simp only [List.singleton_append]
      rw [List.dropWhile_cons_of_neg (by decide)]
      simp [hm, hs]
    · have e0 : x.signText = ['-'] := by unfold signText; rw [hs]
      rw [e0]
      simp only [List.singleton_append]
      rw [List.dropWhile_cons_of_neg (by decide)]
      simp [hm, hs]

end Numeral

/-- No range error is reported for a number below `2^1024 - 2^970` in magnitude that
is zero, or of a magnitude of at least `2^-1022 - 2^-1076`, or a multiple of
`2^-1074`. -/
theorem stodRangeError_normal (v : ℚ)
    (h : |v| < 2 ^ 1024 - 2 ^ 970 ∧
      (v = 0 ∨ 1 / 2 ^ 1022 - 1 / 2 ^ 1076 ≤ |v| ∨ ∃ k : ℤ, v = (k : ℚ) / 2 ^ 1074)) :
    stodRangeError v = false := by
  have c1 : ((2 ^ 970 * (2 ^ 54 - 1) : Nat) : ℚ) = 2 ^ 1024 - 2 ^ 970 := by
    rw [Nat.cast_mul, Nat.cast_pow, Nat.cast_sub (Nat.one_le_two_pow), Nat.cast_pow,
      Nat.cast_ofNat, Nat.cast_one, show (1024 : ℕ) = 970 + 54 from rfl, pow_add]
    ring
  have c2 : ((2 ^ 1076 : Nat) : ℚ) = 2 ^ 1076 := by rw [Nat.cast_pow, Nat.cast_ofNat]
  have c3 : ((2 ^ 54 - 1 : Nat) : ℚ) = 2 ^ 54 - 1 := by
    rw [Nat.cast_sub (Nat.one_le_two_pow), Nat.cast_pow, Nat.cast_ofNat, Nat.cast_one]
  have c4 : ((2 ^ 1074 : Nat) : ℚ) = 2 ^ 1074 := by rw [Nat.cast_pow, Nat.cast_ofNat]
  unfold stodRangeError
  rw [c1, c2, c3, c4]
  obtain ⟨h2, h1⟩ := h
  rw [if_neg (not_le.mpr h2)]
  split_ifs with e1 e2
  · rfl
  · rcases h1 with h1 | h1 | ⟨k, hk⟩
    · exact absurd h1 e1
    · exfalso
      have p : (0 : ℚ) < 2 ^ 1076 := by positivity
      have : (1 / 2 ^ 1022 - 1 / 2 ^ 1076 : ℚ) * 2 ^ 1076 ≤ |v| * 2 ^ 1076 :=
        mul_le_mul_of_nonneg_right h1 (le_of_lt p)
      have e : (1 / 2 ^ 1022 - 1 / 2 ^ 1076 : ℚ) * 2 ^ 1076 = 2 ^ 54 - 1 := by
        rw [show (1076 : ℕ) = 1022 + 54 by rfl, pow_add]
        field_simp
      rw [e] at this
      linarith
    · have e : v * 2 ^ 1074 = ((k : ℤ) : ℚ) := by
        rw [hk]
        field_simp
      rw [e]
      simp [Rat.isInt]
  · rfl

namespace Numeral

/-- `stod` converts the whole of a numeral in range to the number it denotes. -/
theorem stod_core (x : Numeral) (hv : x.Valid) (hr : x.InRange) :
    stod x.core = some x.value := by
  unfold stod
  rw [strtod_core x hv]
  simp only
  rw [stodRangeError_normal x.value hr]
  rfl

end Numeral

end MatrixCalc
namespace MatrixCalc

theorem intercalate_nil' (sep : List Char) : sep.intercalate ([] : List (List Char)) = [] := by
  simp [List.intercalate]

theorem intercalate_one (sep a : List Char) : sep.intercalate [a] = a := by
  simp [List.intercalate]

theorem intercalate_two (sep a b : List Char) (l : List (List Char)) :
    sep.intercalate (a :: b :: l) = a ++ (sep ++ sep.intercalate (b :: l)) := by
  simp [List.intercalate, List.intersperse]

namespace Matrix

theorem parseValues_nil (fuel : Nat) (acc : List ℚ) : parseValues fuel [] acc = .ok acc := by
  cases fuel <;> simp [parseValues, getline]

theorem parseValues_step (fuel : Nat) (x : Numeral) (hv : x.Valid) (hr : x.InRange)
    (rest : List Char) (acc : List ℚ) (s : List Char)
    (hs : getline ',' s = some (x.text, rest)) :
    parseValues (fuel + 1) s acc = parseValues fuel rest (acc ++ [x.value]) := by
  rw [parseValues]
  simp only [hs, Numeral.trim_text x hv, Numeral.stod_core x hv hr]
  rw [if_neg (by simpa using Numeral.core_ne_nil x hv)]

theorem parseValues_row (row : List Numeral) (hv : ∀ x ∈ row, x.Valid)
    (hr : ∀ x ∈ row, x.InRange) :
    ∀ (fuel : Nat) (acc : List ℚ), (rowText row).length < fuel →
      parseValues fuel (rowText row) acc = .ok (acc ++ row.map Numeral.value) := by
  induction row with
  | nil =>
    intro fuel acc _
    simp [rowText, intercalate_nil', parseValues_nil]
  | cons x t ih =>
    intro fuel acc hf
    have hx := hv x (List.mem_cons_self _ _)
    have hxr := hr x (List.mem_cons_self _ _)
    have clean : ∀ ch ∈ x.text, ch ≠ ',' := fun ch h => (Numeral.text_clean x hx ch h).1
    cases t with
    | nil =>
      obtain ⟨f, rfl⟩ : ∃ f, fuel = f + 1 := ⟨fuel - 1, by omega⟩
      have e : rowText [x] = x.text := by simp [rowText, intercalate_one]
      rw [e, parseValues_step f x hx hxr [] acc x.text
        (getline_last ',' x.text (Numeral.text_ne_nil x hx) clean), parseValues_nil]
      simp
    | cons y l =>
      have e : rowText (x :: y :: l) = x.text ++ ',' :: rowText (y :: l) := by
        simp [rowText, intercalate_two]
      rw [e] at hf ⊢
      obtain ⟨f, rfl⟩ : ∃ f, fuel = f + 1 := ⟨fuel - 1, by omega⟩
      rw [parseValues_step f x hx hxr (rowText (y :: l)) acc _
        (getline_sep ',' x.text (rowText (y :: l)) clean),
        ih (fun z hz => hv z (List.mem_cons_of_mem _ hz))
          (fun z hz => hr z (List.mem_cons_of_mem _ hz)) f (acc ++ [x.value])
          (by simp only [List.length_append, List.length_cons] at hf; omega)]
      simp

end Matrix

theorem rowText_facts (row : List Numeral) (hv : ∀ x ∈ row, x.Valid) :
    (row ≠ [] → rowText row ≠ []) ∧ ∀ ch ∈ rowText row, ch ≠ ';' := by
  induction row with
  | nil => exact ⟨fun h => absurd rfl h, fun ch h => by simp [rowText, intercalate_nil'] at h⟩
  | cons x t ih =>
    have hx := hv x (List.mem_cons_self _ _)
    cases t with
    | nil =>
      have e : rowText [x] = x.text := by simp [rowText, intercalate_one]
      rw [e]
      exact ⟨fun _ => Numeral.text_ne_nil x hx, fun ch h => (Numeral.text_clean x hx ch h).2⟩
    | cons y l =>
      have e : rowText (x :: y :: l) = x.text ++ ',' :: rowText (y :: l) := by
        simp [rowText, intercalate_two]
      rw [e]
      refine ⟨fun _ => by simp, ?_⟩
      intro ch h
      rcases List.mem_append.mp h with h | h
      · exact (Numeral.text_clean x hx ch h).2
      · rcases List.mem_cons.mp h with rfl | h
        · decide
        · exact (ih (fun z hz => hv z (List.mem_cons_of_mem _ hz))).2 ch h

namespace Matrix

theorem parseRows_nil (fuel expected : Nat) (result : List (List ℚ)) :
    parseRows fuel [] expected result = .ok result := by
  cases fuel <;> simp [parseRows, getline]

theorem parseRows_step (fuel : Nat) (c : Nat) (hc : 1 ≤ c) (row : List Numeral)
    (hlen : row.length = c) (hv : ∀ x ∈ row, x.Valid) (hr : ∀ x ∈ row, x.InRange)
    (rest : List Char)
    (expected : Nat) (he : expected = 0 ∨ expected = c) (result : List (List ℚ))
    (s : List Char) (hs : getline ';' s = some (rowText row, rest)) :
    parseRows (fuel + 1) s expected result =
      parseRows fuel rest c (result ++ [row.map Numeral.value]) := by
  rw [parseRows]
  simp only [hs, parseValues_row row hv hr _ [] (Nat.lt_succ_self _), List.nil_append]
  have ne : ¬ (row.map Numeral.value).isEmpty = true := by
    simp only [List.isEmpty_eq_true, List.map_eq_nil_iff]
    intro h; rw [h] at hlen; simp at hlen; omega
  rw [if_neg ne]
  rcases he with rfl | rfl
  · rw [if_pos rfl, List.length_map, hlen]
  · rw [if_neg (by omega), if_neg (by simp [hlen])]

theorem parseRows_rows (c : Nat) (hc : 1 ≤ c) (rows : List (List Numeral))
    (hrows : ∀ row ∈ rows, row.length = c ∧ ∀ x ∈ row, x.Valid)
    (hrange : ∀ row ∈ rows, ∀ x ∈ row, x.InRange) :
    ∀ (fuel expected : Nat) (result : List (List ℚ)), (expected = 0 ∨ expected = c) →
      ([';'].intercalate (rows.map rowText)).length < fuel →
      parseRows fuel ([';'].intercalate (rows.map rowText)) expected result =
        .ok (result ++ rows.map (fun row => row.map Numeral.value)) := by
  induction rows with
  | nil =>
    intro fuel expected result _ _
    simp [intercalate_nil', parseRows_nil]
  | cons r t ih =>
    intro fuel expected result he hf
    obtain ⟨hl, hv⟩ := hrows r (List.mem_cons_self _ _)
    have hrr := hrange r (List.mem_cons_self _ _)
    have hne : r ≠ [] := by intro h; rw [h] at hl; simp at hl; omega
    obtain ⟨f1, f2⟩ := rowText_facts r hv
    cases t with
    | nil =>
      obtain ⟨f, rfl⟩ : ∃ f, fuel = f + 1 := ⟨fuel - 1, by omega⟩
      have e : [';'].intercalate ([r].map rowText) = rowText r := by
        simp [intercalate_one]
      rw [e, parseRows_step f c hc r hl hv hrr [] expected he result _
        (getline_last ';' (rowText r) (f1 hne) f2), parseRows_nil]
      simp
    | cons y l =>
      have e : [';'].intercalate ((r :: y :: l).map rowText) =
          rowText r ++ ';' :: [';'].intercalate ((y :: l).map rowText) := by
        simp [intercalate_two]
      rw [e] at hf ⊢
      obtain ⟨f, rfl⟩ : ∃ f, fuel = f + 1 := ⟨fuel - 1, by omega⟩
      rw [parseRows_step f c hc r hl hv hrr _ expected he result _
        (getline_sep ';' (rowText r) _ f2),
        ih (fun z hz => hrows z (List.mem_cons_of_mem _ hz))
          (fun z hz => hrange z (List.mem_cons_of_mem _ hz)) f c _ (Or.inr rfl)
          (by simp only [List.length_append, List.length_cons] at hf; omega)]
      simp

/-- A literal built from a non-empty array of valid numerals in range with rows of
equal, non-zero length parses to the array of their values. -/
theorem parseMatrixString_literal (c : Nat) (hc : 1 ≤ c) (rows : List (List Numeral))
    (hne : rows ≠ []) (hrows : ∀ row ∈ rows, row.length = c ∧ ∀ x ∈ row, x.Valid)
    (hrange : ∀ row ∈ rows, ∀ x ∈ row, x.InRange) :
    parseMatrixString (literalText rows) =
      .ok (rows.map (fun row => row.map Numeral.value)) := by
  unfold parseMatrixString literalText
  have e1 : ('[' :: ([';'].intercalate (rows.map rowText) ++ [']'])).takeWhile isspace = [] := by
    rw [List.takeWhile_cons_of_neg (by decide)]
  have e2 : ('[' :: ([';'].intercalate (rows.map rowText) ++ [']'])).reverse.takeWhile isspace
      = [] := by
    simp only [List.reverse_cons, List.reverse_append, List.reverse_nil, List.nil_append,
      List.singleton_append, List.cons_append]
    rw [List.takeWhile_cons_of_neg (by decide)]
  have e3 : ('[' :: ([';'].intercalate (rows.map rowText) ++ [']'])).getD
      (('[' :: ([';'].intercalate (rows.map rowText) ++ [']'])).length - 1) ' ' = ']' := by
    simp [List.getD_eq_getElem?_getD, List.getElem?_append_right]
  have e4 : (('[' :: ([';'].intercalate (rows.map rowText) ++ [']'])).drop 1).take
      (('[' :: ([';'].intercalate (rows.map rowText) ++ [']'])).length - 2) =
      [';'].intercalate (rows.map rowText) := by
    simp only [List.drop_succ_cons, List.drop_zero, List.length_cons, List.length_append,
      List.length_nil]
    rw [show ([';'].intercalate (rows.map rowText)).length + (0 + 1) + 1 - 2 =
      ([';'].intercalate (rows.map rowText)).length by omega, List.take_left']
    rfl
  simp only [e1, e2, e4, List.length_nil, Nat.sub_zero]
  rw [e3, if_neg (by simp),
    parseRows_rows c hc rows hrows hrange _ 0 [] (Or.inl rfl) (Nat.lt_succ_self _)]
  simp [hne]

end Matrix

end MatrixCalc

namespace MatrixCalc

/-! ## What the parser returns and what it rejects -/

namespace Matrix

theorem parseRows_inv :
    ∀ (fuel : Nat) (rows_ss : List Char) (expected : Nat) (result data : List (List ℚ)),
      RowsInv expected result → parseRows fuel rows_ss expected result = .ok data →
      ∃ e, RowsInv e data := by
  intro fuel
  induction fuel with
  | zero =>
    intro rows_ss expected result data hinv h
    simp only [parseRows, Except.ok.injEq] at h
    exact ⟨expected, h ▸ hinv⟩
  | succ f ih =>
    intro rows_ss expected result data hinv h
    rw [parseRows] at h
    rcases hg : getline ';' rows_ss with _ | ⟨row_str, rest⟩
    · simp only [hg, Except.ok.injEq] at h
      exact ⟨expected, h ▸ hinv⟩
    · simp only [hg] at h
      rcases hv : parseValues (row_str.length + 1) row_str [] with e | row_values
      · simp only [hv] at h; cases h
      · simp only [hv] at h
        by_cases he : row_values.isEmpty = true
        · rw [if_pos he] at h; cases h
        · rw [if_neg he] at h
          have hne : row_values ≠ [] := by simpa using he
          have hlen : 1 ≤ row_values.length := by
            rcases row_values with _ | ⟨x, t⟩
            · exact absurd rfl hne
            · simp
          by_cases h0 : expected = 0
          · rw [if_pos h0] at h
            have hr : result = [] := by
              rcases hinv with ⟨r, _⟩ | ⟨p, _, _⟩
              · exact r
              · omega
            refine ih rest _ _ data (Or.inr ⟨hlen, by simp, ?_⟩) h
            intro row hrow
            rw [hr] at hrow
            simp only [List.nil_append, List.mem_singleton] at hrow
            rw [hrow]
          · rw [if_neg h0] at h
            by_cases hl : row_values.length ≠ expected
            · rw [if_pos hl] at h; cases h
            · rw [if_neg hl] at h
              have hl' : row_values.length = expected := not_not.mp hl
              refine ih rest _ _ data (Or.inr ⟨by omega, by simp, ?_⟩) h
              intro row hrow
              rcases List.mem_append.mp hrow with hrow | hrow
              · rcases hinv with ⟨_, z⟩ | ⟨_, _, q⟩
                · exact absurd z h0
                · exact q row hrow
              · simp only [List.mem_singleton] at hrow
                rw [hrow]; exact hl'

/-- Every result of `parseMatrixString` has a first row, and all rows have the
non-zero length of the first. -/
theorem parseMatrixString_shape (input : List Char) (data : List (List ℚ))
    (h : parseMatrixString input = .ok data) :
    ∃ first rest, data = first :: rest ∧ 1 ≤ first.length ∧
      ∀ row ∈ data, row.length = first.length := by
  unfold parseMatrixString at h
  simp only at h
  split_ifs at h with hc
  rcases hp : parseRows (((input.drop 1).take (input.length - 2)).length + 1)
      ((input.drop 1).take (input.length - 2)) 0 [] with e | result
  · rw [hp] at h; cases h
  · rw [hp] at h
    simp only at h
    split_ifs at h with hemp
    cases h
    obtain ⟨e, hinv⟩ := parseRows_inv _ _ 0 [] data (Or.inl ⟨rfl, rfl⟩) hp
    rcases hinv with ⟨r, _⟩ | ⟨p, q, s⟩
    · rw [r] at hemp; simp at hemp
    · obtain ⟨first, rest, rfl⟩ := List.exists_cons_of_ne_nil q
      have hf := s first (List.mem_cons_self _ _)
      refine ⟨first, rest, rfl, by omega, ?_⟩
      intro row hrow
      rw [s row hrow, hf]

end Matrix

theorem getD_append_mid (pre : List Char) (x : Char) (rest : List Char) (d : Char) :
    (pre ++ x :: rest).getD pre.length d = x := by
  induction pre with
  | nil => rfl
  | cons c t ih => simpa using ih

theorem trimmed_nil_or_split (input : List Char) :
    (trimmed input = [] ∧ input.dropWhile isspace = []) ∨
    ∃ pre post a t u z, input = pre ++ (trimmed input ++ post) ∧
      (∀ ch ∈ pre, isspace ch = true) ∧ (∀ ch ∈ post, isspace ch = true) ∧
      trimmed input = a :: t ∧ isspace a = false ∧
      trimmed input = u ++ [z] ∧ isspace z = false := by
  rcases hd : input.dropWhile isspace with _ | ⟨a, t0⟩
  · left
    exact ⟨by simp [trimmed, hd], rfl⟩
  · right
    have ha : isspace a = false := by
      have := List.head?_dropWhile_not isspace input
      rw [hd] at this
      simpa using this
    have hpre : ∀ ch ∈ input.takeWhile isspace, isspace ch = true :=
      fun ch h => (List.mem_takeWhile_imp h)
    have hin : input = input.takeWhile isspace ++ (a :: t0) := by
      rw [← hd, List.takeWhile_append_dropWhile]
    rcases hc : (a :: t0).reverse.dropWhile isspace with _ | ⟨z, u'⟩
    · exfalso
      have := List.dropWhile_eq_nil_iff.mp hc a (by simp)
      rw [ha] at this; cases this
    · have hz : isspace z = false := by
        have := List.head?_dropWhile_not isspace (a :: t0).reverse
        rw [hc] at this
        simpa using this
      have htr : trimmed input = u'.reverse ++ [z] := by
        unfold trimmed
        rw [hd, hc, List.reverse_cons]
      have hpost : ∀ ch ∈ ((a :: t0).reverse.takeWhile isspace).reverse, isspace ch = true :=
        fun ch h => List.mem_takeWhile_imp (List.mem_reverse.mp h)
      have hsplit : a :: t0 = trimmed input ++ ((a :: t0).reverse.takeWhile isspace).reverse := by
        have := List.takeWhile_append_dropWhile isspace (a :: t0).reverse
        have h2 := congrArg List.reverse this
        rw [List.reverse_append, List.reverse_reverse, hc, List.reverse_cons] at h2
        rw [htr]; exact h2.symm
      have hhead : ∃ t, trimmed input = a :: t := by
        rcases ht : trimmed input with _ | ⟨b, t⟩
        · rw [ht] at htr; simp at htr
        · rw [ht] at hsplit
          simp only [List.cons_append, List.cons.injEq] at hsplit
          exact ⟨t, by rw [hsplit.1]⟩
      obtain ⟨t, ht⟩ := hhead
      refine ⟨input.takeWhile isspace, ((a :: t0).reverse.takeWhile isspace).reverse, a, t,
        u'.reverse, z, ?_, hpre, hpost, ht, ha, htr, hz⟩
      rw [← hsplit]; exact hin

/-- The test made by `parseMatrixString` on the two iterators is the test that the
trimmed input is empty, does not start with `[` or does not end with `]`. -/
theorem bracket_test_iff (input : List Char) :
    ((input.takeWhile isspace).length ≥
        input.length - (input.reverse.takeWhile isspace).length ∨
      input.getD (input.takeWhile isspace).length ' ' ≠ '[' ∨
      input.getD (input.length - (input.reverse.takeWhile isspace).length - 1) ' ' ≠ ']') ↔
    (trimmed input = [] ∨ (trimmed input).head? ≠ some '[' ∨
      (trimmed input).getLast? ≠ some ']') := by
  rcases trimmed_nil_or_split input with ⟨h1, h2⟩ | ⟨pre, post, a, t, u, z, h1, h2, h3, h4, h5,
    h6, h7⟩
  · have hall : ∀ ch ∈ input, isspace ch = true := List.dropWhile_eq_nil_iff.mp h2
    have e1 : input.takeWhile isspace = input := List.takeWhile_eq_self_iff.mpr hall
    simp only [h1, true_or, iff_true]
    left
    rw [e1]; omega
  · have e1 : input.takeWhile isspace = pre := by
      rw [h1, h4, List.cons_append]
      exact takeWhile_stop isspace pre a (t ++ post) h2 h5
    have e2 : input.reverse.takeWhile isspace = post.reverse := by
      rw [h1, h6]
      simp only [List.reverse_append, List.reverse_cons, List.reverse_nil, List.nil_append,
        List.append_assoc, List.singleton_append]
      exact takeWhile_stop isspace post.reverse z (u.reverse ++ pre.reverse)
        (fun c hc => h3 c (List.mem_reverse.mp hc)) h7
    have len : input.length = pre.length + ((trimmed input).length + post.length) := by
      conv_lhs => rw [h1]
      simp
    have tl : (trimmed input).length = u.length + 1 := by rw [h6]; simp
    have g1 : input.getD pre.length ' ' = a := by
      rw [h1, h4, List.cons_append]
      exact getD_append_mid pre a (t ++ post) ' '
    have g2 : input.getD (input.length - post.reverse.length - 1) ' ' = z := by
      have : input.length - post.reverse.length - 1 = pre.length + u.length := by
        rw [len, tl, List.length_reverse]; omega
      have e3 : pre ++ (u ++ [z] ++ post) = (pre ++ u) ++ z :: post := by simp
      rw [this, h1, h6, e3, ← List.length_append]
      exact getD_append_mid (pre ++ u) z post ' '
    rw [e1, e2, g1, g2]
    have nl : ¬ pre.length ≥ input.length - post.reverse.length := by
      rw [len, tl, List.length_reverse]; omega
    have hne : trimmed input ≠ [] := by rw [h4]; simp
    have hh : (trimmed input).head? = some a := by rw [h4]; rfl
    have hl : (trimmed input).getLast? = some z := by rw [h6]; simp
    rw [hh, hl]
    simp only [nl, hne, false_or, ne_eq, Option.some.injEq]

end MatrixCalc

namespace MatrixCalc

/-! ## The registry -/

namespace Registry

theorem count_eq_zero_iff (reg : Registry) (k : List Char) :
    reg.count k = 0 ↔ reg.find k = none := by
  unfold count find
  induction reg with
  | nil => simp
  | cons e t ih =>
    by_cases h : e.1 = k
    · simp [List.find?, h]
    · have h' : (e.1 == k) = false := by simpa using h
      simp only [List.any_cons, h', Bool.false_or, List.find?, Option.map]
      exact ih

theorem index_of_count {reg : Registry} {k : List Char} (h : reg.count k ≠ 0) :
    reg.index k = reg := by
  unfold index; rw [if_neg h]

theorem find_insert (k : List Char) (v : Matrix) (reg : Registry) (k' : List Char) :
    (insert k v reg).find k' = if k' = k then some v else reg.find k' := by
  induction reg with
  | nil =>
    by_cases h : k' = k
    · subst h; simp [insert, find, List.find?]
    · have : (k == k') = false := by simpa using fun e => h e.symm
      simp [insert, find, List.find?, this, h]
  | cons e t ih =>
    obtain ⟨ke, ve⟩ := e
    unfold insert
    by_cases h1 : k = ke
    · subst h1
      rw [if_pos rfl]
      by_cases h : k' = k
      · subst h; simp [find, List.find?]
      · have : (k == k') = false := by simpa using fun e => h e.symm
        simp [find, List.find?, this, h]
    · rw [if_neg h1]
      by_cases h2 : keyLt k ke = true
      · rw [if_pos h2]
        by_cases h : k' = k
        · subst h; simp [find, List.find?]
        · have : (k == k') = false := by simpa using fun e => h e.symm
          simp [find, List.find?, this, h]
      · rw [if_neg h2]
        by_cases h3 : ke = k'
        · subst h3
          have : ¬ ke = k := fun e => h1 e.symm
          simp [find, List.find?, this]
        · have h3' : (ke == k') = false := by simpa using h3
          have : (insert k ve t).find k' = (insert k ve t).find k' := rfl
          simp only [find, List.find?, h3'] at ih ⊢
          exact ih

theorem find_index (reg : Registry) (k k' : List Char) (h : k' ≠ k) :
    (reg.index k).find k' = reg.find k' := by
  unfold index
  split_ifs
  · rw [find_insert, if_neg h]
  · rfl

theorem find_assign (reg : Registry) (k : List Char) (v : Matrix) (k' : List Char) :
    (reg.assign k v).find k' = if k' = k then some v else reg.find k' := by
  unfold assign
  rw [find_insert]
  by_cases h : k' = k
  · rw [if_pos h, if_pos h]
  · rw [if_neg h, if_neg h, find_index reg k k' h]

theorem count_assign (reg : Registry) (k : List Char) (v : Matrix) :
    (reg.assign k v).count k ≠ 0 := by
  intro h
  have := (count_eq_zero_iff _ _).mp h
  rw [find_assign, if_pos rfl] at this
  cases this

theorem get_of_find {reg : Registry} {k : List Char} {m : Matrix} (h : reg.find k = some m) :
    reg.get k = m := by
  have hc : reg.count k ≠ 0 := by
    intro c
    rw [(count_eq_zero_iff _ _).mp c] at h; cases h
  unfold get
  rw [index_of_count hc, h]; rfl

theorem erase_of_count {reg : Registry} {k : List Char} (h : reg.count k = 0) :
    reg.erase k = reg := by
  unfold erase
  rw [List.filter_eq_self]
  intro e he
  unfold count at h
  by_contra c
  have c' : (e.1 == k) = true := by simpa using c
  have : reg.any (fun e => e.1 == k) = true := List.any_eq_true.mpr ⟨e, he, c'⟩
  rw [this] at h
  simp at h

theorem keys_insert (k : List Char) (v : Matrix) (reg : Registry) :
    ∀ x ∈ (insert k v reg).keys, x = k ∨ x ∈ reg.keys := by
  induction reg with
  | nil => intro x hx; simpa [insert, keys] using hx
  | cons e t ih =>
    intro x hx
    obtain ⟨ke, ve⟩ := e
    unfold insert at hx
    split_ifs at hx with h1 h2
    · simp only [keys, List.map_cons, List.mem_cons] at hx ⊢
      rcases hx with hx | hx
      · exact Or.inl hx
      · exact Or.inr (Or.inr hx)
    · simp only [keys, List.map_cons, List.mem_cons] at hx ⊢
      rcases hx with hx | hx | hx
      · exact Or.inl hx
      · exact Or.inr (Or.inl hx)
      · exact Or.inr (Or.inr hx)
    · simp only [keys, List.map_cons, List.mem_cons] at hx ⊢
      rcases hx with hx | hx
      · exact Or.inr (Or.inl hx)
      · rcases ih x hx with h | h
        · exact Or.inl h
        · exact Or.inr (Or.inr h)

theorem keys_index (reg : Registry) (k : List Char) :
    ∀ x ∈ (reg.index k).keys, x = k ∨ x ∈ reg.keys := by
  intro x hx
  unfold index at hx
  split_ifs at hx
  · exact keys_insert _ _ _ x hx
  · exact Or.inr hx

theorem keys_assign (reg : Registry) (k : List Char) (v : Matrix) :
    ∀ x ∈ (reg.assign k v).keys, x = k ∨ x ∈ reg.keys := by
  intro x hx
  rcases keys_insert _ _ _ x hx with h | h
  · exact Or.inl h
  · exact keys_index reg k x h

theorem keys_erase (reg : Registry) (k : List Char) :
    ∀ x ∈ (reg.erase k).keys, x ∈ reg.keys := by
  intro x hx
  simp only [erase, keys, List.mem_map, List.mem_filter] at hx ⊢
  obtain ⟨e, ⟨he, _⟩, rfl⟩ := hx
  exact ⟨e, he, rfl⟩

end Registry

end MatrixCalc

namespace MatrixCalc

/-! ## One iteration of the interpreter loop -/

/-- Case analysis on the branch taken by the `try` block. -/
theorem tryBlock_cases (reg : Registry) (command : List Char) (P : BlockResult → Prop)
    (hexit : (readToken command).1 = "exit".toList → P ⟨reg, [.goodbye], .ok false⟩)
    (hhelp : (readToken command).1 ≠ "exit".toList → P ⟨reg, [.help], .ok true⟩)
    (hclear : (readToken command).1 ≠ "exit".toList → P ⟨reg, [.clearScreen], .ok true⟩)
    (hls : (readToken command).1 ≠ "exit".toList → P ⟨reg, listMatrices reg, .ok true⟩)
    (hcreate : (readToken command).1 = "create".toList →
      P (runCreate reg command (readToken (readToken command).2).1))
    (hshow : (readToken command).1 ≠ "exit".toList →
      P (runShow reg (readToken (readToken command).2).1))
    (hdel : (readToken command).1 ≠ "exit".toList →
      P (runDel reg (readToken (readToken command).2).1))
    (hdet : (readToken command).1 ≠ "exit".toList →
      P (runDet reg (readToken (readToken command).2).1))
    (hbin : ((readToken command).1 = "add".toList ∨ (readToken command).1 = "sub".toList ∨
        (readToken command).1 = "mul".toList) →
      P (runBinary reg (readToken command).1 (readToken (readToken command).2).1
        (readToken (readToken (readToken command).2).2).1
        (readToken (readToken (readToken (readToken command).2).2).2).1))
    (hinv : (readToken command).1 = "inv".toList →
      P (runInv reg (readToken (readToken command).2).1
        (readToken (readToken (readToken command).2).2).1))
    (hunknown : (readToken command).1 ≠ "exit".toList →
      P ⟨reg, [.unknownCommand], .ok true⟩) :
    P (tryBlock reg command) := by
  unfold tryBlock
  dsimp only
  by_cases h1 : (readToken command).1 = "exit".toList
  · rw [if_pos h1]; exact hexit h1
  rw [if_neg h1]
  by_cases h2 : (readToken command).1 = "help".toList
  · rw [if_pos h2]; exact hhelp h1
  rw [if_neg h2]
  by_cases h3 : (readToken command).1 = "clear".toList
  · rw [if_pos h3]; exact hclear h1
  rw [if_neg h3]
  by_cases h4 : (readToken command).1 = "ls".toList
  · rw [if_pos h4]; exact hls h1
  rw [if_neg h4]
  by_cases h5 : (readToken command).1 = "create".toList
  · rw [if_pos h5]; exact hcreate h5
  rw [if_neg h5]
  by_cases h6 : (readToken command).1 = "show".toList
  · rw [if_pos h6]; exact hshow h1
  rw [if_neg h6]
  by_cases h7 : (readToken command).1 = "del".toList
  · rw [if_pos h7]; exact hdel h1
  rw [if_neg h7]
  by_cases h8 : (readToken command).1 = "det".toList
  · rw [if_pos h8]; exact hdet h1
  rw [if_neg h8]
  by_cases h9 : (readToken command).1 = "add".toList ∨ (readToken command).1 = "sub".toList ∨
      (readToken command).1 = "mul".toList
  · rw [if_pos h9]; exact hbin h9
  rw [if_neg h9]
  by_cases h10 : (readToken command).1 = "inv".toList
  · rw [if_pos h10]; exact hinv h10
  rw [if_neg h10]
  exact hunknown h1

theorem runCreate_atomic (reg : Registry) (command name : List Char) :
    Atomic reg (runCreate reg command name) := by
  unfold runCreate
  split
  · simp [Atomic]
  · split <;> simp [Atomic]

theorem runShow_atomic (reg : Registry) (name : List Char) :
    Atomic reg (runShow reg name) := by
  unfold runShow
  split_ifs <;> simp [Atomic]

theorem runDel_atomic (reg : Registry) (name : List Char) :
    Atomic reg (runDel reg name) := by
  unfold runDel
  split_ifs with h
  · simp [Atomic]
  · have h0 : reg.count name = 0 := not_not.mp h
    simp [Atomic, Registry.erase_of_count h0]

theorem runDet_atomic (reg : Registry) (a : List Char) : Atomic reg (runDet reg a) := by
  unfold runDet
  split_ifs with h
  · simp [Atomic]
  · split
    · simp [Atomic, Registry.index_of_count h]
    · simp [Atomic]

theorem runBinary_atomic (reg : Registry) (cmd a b c : List Char) :
    Atomic reg (runBinary reg cmd a b c) := by
  unfold runBinary
  by_cases h : reg.count a = 0 ∨ reg.count b = 0
  · rw [if_pos h]; simp [Atomic]
  · rw [if_neg h]
    have ha : reg.count a ≠ 0 := fun x => h (Or.inl x)
    have hb : reg.count b ≠ 0 := fun x => h (Or.inr x)
    dsimp only
    rw [Registry.index_of_count ha, Registry.index_of_count hb]
    generalize (if cmd = "add".toList then (reg.get a).add (reg.get b)
      else if cmd = "sub".toList then (reg.get a).sub (reg.get b)
      else (reg.get a).mul (reg.get b)) = value
    cases value <;> simp [Atomic]

theorem runInv_atomic (reg : Registry) (a b : List Char) : Atomic reg (runInv reg a b) := by
  unfold runInv
  split_ifs with h
  · simp [Atomic]
  · simp only [Registry.index_of_count h]
    split <;> simp [Atomic]

theorem listMatrices_quiet (reg : Registry) :
    (∀ what, Output.error what ∉ listMatrices reg) ∧
      ∀ name, Output.notFound name ∉ listMatrices reg := by
  unfold listMatrices
  split_ifs <;> simp

/-- Every branch but `exit` is atomic. -/
theorem tryBlock_atomic (reg : Registry) (command : List Char)
    (h : (readToken command).1 ≠ "exit".toList) : Atomic reg (tryBlock reg command) := by
  apply tryBlock_cases reg command (Atomic reg)
  · intro c; exact absurd c h
  · intro _; simp [Atomic]
  · intro _; simp [Atomic]
  · intro _
    have := listMatrices_quiet reg
    refine ⟨by simp, this.1, fun name hn => absurd hn (this.2 name), by simp⟩
  · intro _; exact runCreate_atomic _ _ _
  · intro _; exact runShow_atomic _ _
  · intro _; exact runDel_atomic _ _
  · intro _; exact runDet_atomic _ _
  · intro _; exact runBinary_atomic _ _ _ _ _
  · intro _; exact runInv_atomic _ _ _
  · intro _; simp [Atomic]

theorem tryBlock_exit (reg : Registry) (command : List Char)
    (h : (readToken command).1 = "exit".toList) :
    tryBlock reg command = ⟨reg, [.goodbye], .ok false⟩ := by
  unfold tryBlock
  dsimp only
  rw [if_pos h]

/-- One iteration either ends the loop on `exit`, or keeps it running with the map and
output of an atomic `try` block, the message of a caught exception added. -/
theorem step_cases (reg : Registry) (command : List Char) :
    ((readToken command).1 = "exit".toList ∧
      step reg command = ⟨reg, [.prompt, .goodbye], false⟩) ∨
    ((readToken command).1 ≠ "exit".toList ∧ Atomic reg (tryBlock reg command) ∧
      (step reg command).registry = (tryBlock reg command).registry ∧
      (step reg command).running = true ∧
      ((∃ e, (tryBlock reg command).exit = .error e ∧
          (step reg command).output = [.prompt, .error e.what]) ∨
        ((tryBlock reg command).exit = .ok true ∧
          (step reg command).output = .prompt :: (tryBlock reg command).output))) := by
  by_cases h : (readToken command).1 = "exit".toList
  · left
    refine ⟨h, ?_⟩
    unfold step
    rw [tryBlock_exit reg command h]
  · right
    have hat := tryBlock_atomic reg command h
    refine ⟨h, hat, ?_⟩
    unfold step
    rcases hr : tryBlock reg command with ⟨r, o, x⟩
    rw [hr] at hat
    rcases x with e | b
    · have := (hat.1 e rfl).2
      simp only at this
      subst this
      exact ⟨rfl, rfl, Or.inl ⟨e, rfl, rfl⟩⟩
    · have : b = true := by
        cases b
        · exact absurd rfl hat.2.2.2
        · rfl
      subst this
      exact ⟨rfl, rfl, Or.inr ⟨rfl, rfl⟩⟩

/-! ## Reading the words of a command line -/

theorem readToken_space (s : List Char) : readToken (' ' :: s) = readToken s := by
  unfold readToken
  rw [List.dropWhile_cons_of_pos (by decide)]

theorem readToken_word (w rest : List Char) (hw : IsToken w) :
    readToken (w ++ ' ' :: rest) = (w, ' ' :: rest) := by
  obtain ⟨hne, hs⟩ := hw
  obtain ⟨a, t, rfl⟩ := List.exists_cons_of_ne_nil hne
  have ha : isspace a = false := hs a (List.mem_cons_self _ _)
  have hp : ∀ x ∈ a :: t, (fun ch => !isspace ch) x = true := fun x hx => by simp [hs x hx]
  unfold readToken
  simp only [List.cons_append]
  rw [List.dropWhile_cons_of_neg (by simp [ha]), ← List.cons_append]
  rw [takeWhile_stop _ (a :: t) ' ' rest hp (by decide),
    dropWhile_stop _ (a :: t) ' ' rest hp (by decide)]

theorem readToken_last (w : List Char) (hw : IsToken w) : readToken w = (w, []) := by
  obtain ⟨hne, hs⟩ := hw
  obtain ⟨a, t, rfl⟩ := List.exists_cons_of_ne_nil hne
  have ha : isspace a = false := hs a (List.mem_cons_self _ _)
  have hp : ∀ x ∈ a :: t, (fun ch => !isspace ch) x = true := fun x hx => by simp [hs x hx]
  unfold readToken
  rw [List.dropWhile_cons_of_neg (by simp [ha])]
  simp only
  rw [List.takeWhile_eq_self_iff.mpr hp, List.dropWhile_eq_nil_iff.mpr hp]

theorem readToken_spaceFree (s : List Char) : SpaceFree (readToken s).1 := by
  intro ch h
  unfold readToken at h
  have := List.mem_takeWhile_imp h
  simpa using this

/-- The words read from a line of four words. -/
theorem readToken_four (w0 w1 w2 w3 : List Char) (h0 : IsToken w0) (h1 : IsToken w1)
    (h2 : IsToken w2) (h3 : IsToken w3) :
    (readToken (commandLine [w0, w1, w2, w3])).1 = w0 ∧
    (readToken (readToken (commandLine [w0, w1, w2, w3])).2).1 = w1 ∧
    (readToken (readToken (readToken (commandLine [w0, w1, w2, w3])).2).2).1 = w2 ∧
    (readToken (readToken (readToken (readToken (commandLine [w0, w1, w2, w3])).2).2).2).1
      = w3 := by
  have e : commandLine [w0, w1, w2, w3] = w0 ++ ' ' :: (w1 ++ ' ' :: (w2 ++ ' ' :: w3)) := by
    simp [commandLine, List.intercalate, List.intersperse]
  rw [e, readToken_word w0 _ h0]
  simp only [readToken_space, readToken_word w1 _ h1, readToken_word w2 _ h2,
    readToken_last w3 h3, and_self]

/-- The words read from a line of three words. -/
theorem readToken_three (w0 w1 w2 : List Char) (h0 : IsToken w0) (h1 : IsToken w1)
    (h2 : IsToken w2) :
    (readToken (commandLine [w0, w1, w2])).1 = w0 ∧
    (readToken (readToken (commandLine [w0, w1, w2])).2).1 = w1 ∧
    (readToken (readToken (readToken (commandLine [w0, w1, w2])).2).2).1 = w2 := by
  have e : commandLine [w0, w1, w2] = w0 ++ ' ' :: (w1 ++ ' ' :: w2) := by
    simp [commandLine, List.intercalate, List.intersperse]
  rw [e, readToken_word w0 _ h0]
  simp only [readToken_space, readToken_word w1 _ h1, readToken_last w2 h2, and_self]

end MatrixCalc

namespace MatrixCalc

/-! ## Successful commands and the keys they bind -/

theorem count_eq_zero_iff_keys (reg : Registry) (k : List Char) :
    reg.count k = 0 ↔ k ∉ reg.keys := by
  unfold Registry.count Registry.keys
  constructor
  · intro h hk
    obtain ⟨e, he, hek⟩ := List.mem_map.mp hk
    have : reg.any (fun e => e.1 == k) = true :=
      List.any_eq_true.mpr ⟨e, he, by simpa using hek⟩
    rw [this] at h
    simp at h
  · intro h
    by_cases c : reg.any (fun e => e.1 == k) = true
    · exfalso
      obtain ⟨e, he, hek⟩ := List.any_eq_true.mp c
      exact h (List.mem_map.mpr ⟨e, he, by simpa using hek⟩)
    · rw [if_neg c]

theorem assign_settled (reg : Registry) (k : List Char) (m : Matrix) :
    (reg.assign k m).index k = reg.assign k m ∧ (reg.assign k m).get k = m :=
  ⟨Registry.index_of_count (Registry.count_assign reg k m),
    Registry.get_of_find (by rw [Registry.find_assign, if_pos rfl])⟩

theorem find_count {reg : Registry} {k : List Char} {m : Matrix} (h : reg.find k = some m) :
    reg.count k ≠ 0 := by
  intro c
  rw [(Registry.count_eq_zero_iff _ _).mp c] at h
  cases h

/-- A binary command whose operands are bound and whose operation returns `s` binds
the third name to `s`. -/
theorem runBinary_ok (reg : Registry) (cmd A B C : List Char) (a b s : Matrix)
    (hA : reg.find A = some a) (hB : reg.find B = some b)
    (hv : (if cmd = "add".toList then a.add b
      else if cmd = "sub".toList then a.sub b else a.mul b) = .ok s) :
    runBinary reg cmd A B C =
      ⟨reg.assign C s, [.resultStored C, .print [] s], .ok true⟩ := by
  unfold runBinary
  have ha := find_count hA
  have hb := find_count hB
  rw [if_neg (by simp [ha, hb])]
  dsimp only
  rw [Registry.index_of_count ha, Registry.index_of_count hb, Registry.get_of_find hA,
    Registry.get_of_find hB, hv]
  dsimp only
  rw [(assign_settled reg C s).1, (assign_settled reg C s).2]

/-- An `inv` command whose operand is bound and invertible binds the second name to
the inverse. -/
theorem runInv_ok (reg : Registry) (A B : List Char) (a m : Matrix)
    (hA : reg.find A = some a) (hv : a.inverse = .ok m) :
    runInv reg A B = ⟨reg.assign B m, [.inverseStored B, .print [] m], .ok true⟩ := by
  unfold runInv
  have ha := find_count hA
  rw [if_neg (by simp [ha])]
  dsimp only
  rw [Registry.index_of_count ha, Registry.get_of_find hA, hv]
  dsimp only
  rw [(assign_settled reg B m).1, (assign_settled reg B m).2]

theorem tryBlock_binary (reg : Registry) (command : List Char)
    (h : (readToken command).1 = "add".toList ∨ (readToken command).1 = "sub".toList ∨
      (readToken command).1 = "mul".toList) :
    tryBlock reg command =
      runBinary reg (readToken command).1 (readToken (readToken command).2).1
        (readToken (readToken (readToken command).2).2).1
        (readToken (readToken (readToken (readToken command).2).2).2).1 := by
  have n : ∀ kw : List Char, kw = "exit".toList ∨ kw = "help".toList ∨ kw = "clear".toList ∨
      kw = "ls".toList ∨ kw = "create".toList ∨ kw = "show".toList ∨ kw = "del".toList ∨
      kw = "det".toList → (readToken command).1 ≠ kw := by
    intro kw hk e
    rw [e] at h
    rcases hk with rfl | rfl | rfl | rfl | rfl | rfl | rfl | rfl <;>
      exact absurd h (by decide)
  unfold tryBlock
  dsimp only
  rw [if_neg (n _ (by simp)), if_neg (n _ (by simp)), if_neg (n _ (by simp)),
    if_neg (n _ (by simp)), if_neg (n _ (by simp)), if_neg (n _ (by simp)),
    if_neg (n _ (by simp)), if_neg (n _ (by simp)), if_pos h]

theorem tryBlock_inv (reg : Registry) (command : List Char)
    (h : (readToken command).1 = "inv".toList) :
    tryBlock reg command =
      runInv reg (readToken (readToken command).2).1
        (readToken (readToken (readToken command).2).2).1 := by
  unfold tryBlock
  dsimp only
  rw [h]
  rw [if_neg (by decide), if_neg (by decide), if_neg (by decide), if_neg (by decide),
    if_neg (by decide), if_neg (by decide), if_neg (by decide), if_neg (by decide),
    if_neg (by decide), if_pos rfl]

theorem step_of_ok (reg : Registry) (command : List Char) (reg' : Registry)
    (out : List Output) (h : tryBlock reg command = ⟨reg', out, .ok true⟩) :
    step reg command = ⟨reg', .prompt :: out, true⟩ := by
  unfold step; rw [h]

theorem step_of_error (reg : Registry) (command : List Char) (reg' : Registry)
    (out : List Output) (e : Exn) (h : tryBlock reg command = ⟨reg', out, .error e⟩) :
    step reg command = ⟨reg', .prompt :: (out ++ [.error e.what]), true⟩ := by
  unfold step; rw [h]

/-! ## The keys of the registry -/

/-- A line accepted by `extractMatrixString` whose keyword is `create` has a name. -/
theorem create_name_ne_nil (command : List Char) (s : List Char)
    (hc : (readToken command).1 = "create".toList)
    (he : extractMatrixString command = .ok s) :
    (readToken (readToken command).2).1 ≠ [] := by
  intro hn
  have hin : '[' ∈ command := by
    unfold extractMatrixString findFirst at he
    by_contra c
    have : command.contains '[' = false := by simpa using c
    rw [this] at he
    simp at he
  -- the line is white space, the keyword, and the rest of the stream
  have d1 : command = command.takeWhile isspace ++
      ((readToken command).1 ++ (readToken command).2) := by
    unfold readToken
    simp only
    rw [List.takeWhile_append_dropWhile, List.takeWhile_append_dropWhile]
  -- the rest of the stream is white space
  have d2 : ∀ ch ∈ (readToken command).2, isspace ch = true := by
    have : ((readToken command).2).dropWhile isspace = [] := by
      unfold readToken at hn
      simp only at hn
      rcases hd : ((readToken command).2).dropWhile isspace with _ | ⟨x, t⟩
      · rfl
      · exfalso
        have hx : isspace x = false := by
          have := List.head?_dropWhile_not isspace (readToken command).2
          rw [hd] at this
          simpa using this
        have hd' : List.dropWhile isspace
            (List.dropWhile (fun ch => !isspace ch) (List.dropWhile isspace command)) =
            x :: t := hd
        rw [hd', List.takeWhile_cons_of_pos (by simp [hx])] at hn
        cases hn
    exact List.dropWhile_eq_nil_iff.mp this
  rw [d1] at hin
  rcases List.mem_append.mp hin with h | h
  · have := List.mem_takeWhile_imp h
    exact absurd this (by decide)
  · rcases List.mem_append.mp h with h | h
    · rw [hc] at h
      exact absurd h (by decide)
    · exact absurd (d2 _ h) (by decide)

/-- The keys after one iteration satisfy every property of the keys before that the
name bound by the line has. -/
theorem step_keys (P : List Char → Prop) (reg : Registry) (command : List Char)
    (hreg : ∀ k ∈ reg.keys, P k)
    (hcreate : ∀ s, (readToken command).1 = "create".toList →
      extractMatrixString command = .ok s → P (readToken (readToken command).2).1)
    (hbin : ((readToken command).1 = "add".toList ∨ (readToken command).1 = "sub".toList ∨
        (readToken command).1 = "mul".toList) →
      P (readToken (readToken (readToken (readToken command).2).2).2).1)
    (hinv : (readToken command).1 = "inv".toList →
      P (readToken (readToken (readToken command).2).2).1) :
    ∀ k ∈ (step reg command).registry.keys, P k := by
  have hstep : (step reg command).registry = (tryBlock reg command).registry := by
    rcases step_cases reg command with ⟨h, e⟩ | ⟨_, _, e, _⟩
    · rw [e, tryBlock_exit reg command h]
    · exact e
  rw [hstep]
  have keep : ∀ (k0 : List Char) (m : Matrix), P k0 →
      ∀ k ∈ ((reg.assign k0 m).index k0).keys, P k := by
    intro k0 m hk0 k hk
    rw [(assign_settled reg k0 m).1] at hk
    rcases Registry.keys_assign reg k0 m k hk with h | h
    · rw [h]; exact hk0
    · exact hreg k h
  apply tryBlock_cases reg command (fun r => ∀ k ∈ r.registry.keys, P k)
  · intro _; exact hreg
  · intro _; exact hreg
  · intro _; exact hreg
  · intro _; exact hreg
  · intro hc
    unfold runCreate
    rcases he : extractMatrixString command with e | s
    · exact hreg
    · dsimp only
      rcases Matrix.fromString s with e | m
      · exact hreg
      · exact keep _ m (hcreate s hc he)
  · intro _
    unfold runShow
    split_ifs with h
    · rw [Registry.index_of_count h]; exact hreg
    · exact hreg
  · intro _
    unfold runDel
    split_ifs <;> exact fun k hk => hreg k (Registry.keys_erase reg _ k hk)
  · intro _
    unfold runDet
    split_ifs with h
    · exact hreg
    · split <;> (dsimp only; rw [Registry.index_of_count h]; exact hreg)
  · intro hc
    unfold runBinary
    by_cases h : reg.count (readToken (readToken command).2).1 = 0 ∨
        reg.count (readToken (readToken (readToken command).2).2).1 = 0
    · rw [if_pos h]; exact hreg
    · rw [if_neg h]
      dsimp only
      rw [Registry.index_of_count (fun x => h (Or.inl x)),
        Registry.index_of_count (fun x => h (Or.inr x))]
      generalize (if (readToken command).1 = "add".toList then _
        else if (readToken command).1 = "sub".toList then _ else _ : Except Exn Matrix) = value
      rcases value with e | m
      · exact hreg
      · exact keep _ m (hbin hc)
  · intro hc
    unfold runInv
    split_ifs with h
    · exact hreg
    · dsimp only
      rw [Registry.index_of_count h]
      rcases (reg.get (readToken (readToken command).2).1).inverse with e | m
      · exact hreg
      · exact keep _ m (hinv hc)
  · intro _; exact hreg

end MatrixCalc

namespace MatrixCalc

theorem inputLines_last (s : List Char) (h : s.contains '\n' = false) :
    inputLines s = [s] := by
  induction s with
  | nil => rfl
  | cons ch rest ih =>
    have h1 : ch ≠ '\n' := by
      intro e; subst e; simp at h
    have h2 : rest.contains '\n' = false := by
      cases hc : rest.contains '\n'
      · rfl
      · simp at hc; simp [hc] at h
    unfold inputLines
    rw [if_neg h1, ih h2]

theorem inputLines_line (s : List Char) (h : s.contains '\n' = true) :
    inputLines s = s.takeWhile (fun ch => ch != '\n') ::
      inputLines ((s.dropWhile (fun ch => ch != '\n')).drop 1) := by
  induction s with
  | nil => simp at h
  | cons ch rest ih =>
    by_cases h1 : ch = '\n'
    · subst h1
      simp [inputLines]
    · have h2 : rest.contains '\n' = true := by
        simp at h
        rcases h with h | h
        · exact absurd h.symm h1
        · simpa using h
      have hb : (ch != '\n') = true := by simpa using h1
      rw [inputLines, if_neg h1, ih h2]
      simp only [List.takeWhile_cons, List.dropWhile_cons, hb, if_true]

theorem cinGetline_noExit (cin : Cin) (command : List Char) (h : NoExitAhead cin command) :
    ¬ IsExit (cinGetline cin command).2 ∧
      NoExitAhead (cinGetline cin command).1 (cinGetline cin command).2 := by
  rcases h with ⟨hg, hl⟩ | ⟨hg, hc⟩
  · unfold cinGetline
    rw [if_pos hg]
    cases hn : cin.rest.contains '\n'
    · have e := inputLines_last cin.rest hn
      have hx : ¬ IsExit cin.rest := hl _ (by rw [e]; simp)
      simp only [Bool.false_eq_true, if_false]
      exact ⟨hx, Or.inr ⟨rfl, hx⟩⟩
    · have e := inputLines_line cin.rest hn
      simp only [if_true]
      refine ⟨hl _ (by rw [e]; simp), Or.inl ⟨rfl, ?_⟩⟩
      intro line hline
      exact hl line (by rw [e]; exact List.mem_cons_of_mem _ hline)
  · unfold cinGetline
    rw [if_neg (by simp [hg])]
    exact ⟨hc, Or.inr ⟨hg, hc⟩⟩

theorem runLoop_never_left (fuel : Nat) :
    ∀ (cin : Cin) (command : List Char) (reg : Registry) (out : List Output),
      NoExitAhead cin command → (runLoop fuel cin command reg out).left = false := by
  induction fuel with
  | zero => intro cin command reg out _; rfl
  | succ fuel ih =>
    intro cin command reg out h
    obtain ⟨hx, hnext⟩ := cinGetline_noExit cin command h
    have hrun : (step reg (cinGetline cin command).2).running = true := by
      rcases step_cases reg (cinGetline cin command).2 with ⟨he, _⟩ | ⟨_, _, _, e2, _⟩
      · exact absurd he hx
      · exact e2
    unfold runLoop
    rw [if_pos hrun]
    exact ih _ _ _ _ hnext

theorem run_never_left (input : List Char) (h : ∀ line ∈ inputLines input, ¬ IsExit line)
    (fuel : Nat) : (run fuel input).left = false :=
  runLoop_never_left fuel _ _ _ _ (Or.inl ⟨rfl, h⟩)

end MatrixCalc

namespace MatrixCalc

theorem tryBlock_clear (reg : Registry) (command : List Char)
    (h : (readToken command).1 = "clear".toList) :
    tryBlock reg command = ⟨reg, [.clearScreen], .ok true⟩ := by
  unfold tryBlock
  dsimp only
  rw [h, if_neg (by decide), if_neg (by decide), if_pos rfl]

theorem tryBlock_ls (reg : Registry) (command : List Char)
    (h : (readToken command).1 = "ls".toList) :
    tryBlock reg command = ⟨reg, listMatrices reg, .ok true⟩ := by
  unfold tryBlock
  dsimp only
  rw [h, if_neg (by decide), if_neg (by decide), if_neg (by decide), if_pos rfl]

theorem tryBlock_del (reg : Registry) (command : List Char)
    (h : (readToken command).1 = "del".toList) :
    tryBlock reg command = runDel reg (readToken (readToken command).2).1 := by
  unfold tryBlock
  dsimp only
  rw [h, if_neg (by decide), if_neg (by decide), if_neg (by decide), if_neg (by decide),
    if_neg (by decide), if_neg (by decide), if_pos rfl]

theorem listMatrices_none_iff (reg : Registry) : listMatrices reg = [.noMatrices] ↔ reg = [] := by
  cases reg with
  | nil => simp [listMatrices]
  | cons e rest => simp [listMatrices]

namespace Registry

theorem mem_erase (reg : Registry) (k : List Char) (e : List Char × Matrix) :
    e ∈ reg.erase k ↔ e ∈ reg ∧ e.1 ≠ k := by
  unfold erase
  simp [List.mem_filter]

theorem find_erase (reg : Registry) (k k' : List Char) :
    (reg.erase k).find k' = if k' = k then none else reg.find k' := by
  induction reg with
  | nil => simp [erase, find]
  | cons e rest ih =>
    unfold erase find at ih ⊢
    by_cases hk : e.1 = k
    · rw [List.filter_cons_of_neg (by simp [hk])]
      rw [ih]
      by_cases hk' : k' = k
      · simp [hk']
      · have : ¬ e.1 = k' := fun c => hk' (c.symm.trans hk)
        simp [hk', List.find?_cons, this]
    · rw [List.filter_cons_of_pos (by simp [hk])]
      by_cases hk' : k' = k
      · have hb : (e.1 == k') = false := by
          simpa using fun c : e.1 = k' => hk (c.trans hk')
        simp only [List.find?_cons, hb]
        rw [ih]
      · by_cases he : e.1 = k'
        · simp [List.find?_cons, he, hk']
        · have hb : (e.1 == k') = false := by simpa using he
          simp only [List.find?_cons, hb]
          rw [ih]

end Registry

end MatrixCalc

namespace MatrixCalc

theorem eps_le_one : eps ≤ 1 := by
  unfold eps
  rw [div_le_one (by positivity)]
  norm_num

namespace Matrix

/-- On a working copy that holds the identity matrix the elimination of a pivot column
changes nothing. -/
theorem luStep_identity {s : List (List ℚ)} {n i : Nat} (hs : Shape s n n) (hi : i < n)
    (h : ∀ r, r < n → ∀ c, c < n → rd s r c = if r = c then 1 else 0) :
    luStep n s i = s := by
  obtain ⟨h1, h2⟩ := luStep_spec hs hi
  refine Shape.ext h1 hs ?_
  intro r hr c hc
  rw [h2 r c]
  split_ifs with hcond
  · rw [h r hr i hi, if_neg (by omega)]
    simp
  · rfl

theorem luLoop_identity {s : List (List ℚ)} {n : Nat} (hs : Shape s n n)
    (h : ∀ r, r < n → ∀ c, c < n → rd s r c = if r = c then 1 else 0) :
    ∀ (l : List Nat), (∀ i ∈ l, i < n) → ∀ det, luLoop n l s det = det := by
  intro l
  induction l with
  | nil => intro _ det; rfl
  | cons i rest ih =>
    intro hl det
    have hi : i < n := hl i (List.mem_cons_self _ _)
    have hp : rd s i i = 1 := by rw [h i hi i hi, if_pos rfl]
    have hne : ¬ |rd s i i| < eps := by
      rw [hp, abs_one]
      exact not_lt.mpr eps_le_one
    unfold luLoop
    rw [if_neg hne, luStep_identity hs hi h, hp, mul_one]
    exact ih (fun j hj => hl j (List.mem_cons_of_mem _ hj)) det

/-- With a row of zeros at or after the next pivot index, the loop of `determinant`
returns `0`. -/
theorem luLoop_zero_row (n r : Nat) (hr : r < n) :
    ∀ (cnt i : Nat) (lu : List (List ℚ)) (det : ℚ), Shape lu n n → i ≤ r → r < i + cnt →
      i + cnt ≤ n → (∀ c, c < n → rd lu r c = 0) →
      luLoop n (List.range' i cnt) lu det = 0 := by
  intro cnt
  induction cnt with
  | zero => intro i lu det _ h1 h2; omega
  | succ cnt ih =>
    intro i lu det hs h1 h2 h3 hz
    rw [List.range'_succ]
    unfold luLoop
    by_cases hp : |rd lu i i| < eps
    · rw [if_pos hp]
    · rw [if_neg hp]
      have hir : i ≠ r := by
        intro e
        subst e
        apply hp
        rw [hz i hr, abs_zero]
        exact eps_pos
      have hi : i < n := by omega
      obtain ⟨q1, q2⟩ := luStep_spec hs hi
      refine ih (i + 1) _ _ q1 (by omega) (by omega) (by omega) ?_
      intro c hc
      rw [q2 r c]
      split_ifs
      · rw [hz c hc, hz i hi]; simp
      · exact hz c hc

end Matrix

end MatrixCalc

namespace MatrixCalc

theorem swapRows_self {a : List (List ℚ)} {r c : Nat} (h : Shape a r c) {p : Nat}
    (hp : p < r) : swapRows a p p = a := by
  refine Shape.ext (h.swap hp hp) h ?_
  intro i _ j _
  rw [rd_swapRows h hp hp]
  split_ifs with e
  · rw [e]
  · rfl

theorem pivotRow_diag {n : Nat} {d : Nat → ℚ} {s : List (List ℚ)} (hs : DiagAug n d s)
    {i : Nat} (hi : i < n) : pivotRow s n i = i := by
  obtain ⟨h1, h2, _, h4⟩ := pivotRow_spec s n i hi
  by_contra hne
  have hlt : i < pivotRow s n i := by omega
  have h := h4 i (le_refl i) hlt
  rw [hs.2 _ h2 i (by omega), if_pos hi, if_neg (by omega), abs_zero] at h
  exact absurd h (not_lt.mpr (abs_nonneg _))

theorem rowSubbed_zero {a a' : List (List ℚ)} {r c k i lo hi : Nat} (ha : Shape a r c)
    (ha' : Shape a' r c) (h : RowSubbed a a' k i 0 lo hi) : a' = a := by
  refine Shape.ext ha' ha ?_
  intro x _ y _
  rw [h x y]
  split_ifs with e
  · rw [e.1]; simp
  · rfl

theorem forwardStep_diag {n : Nat} {d : Nat → ℚ} {s : List (List ℚ)} (hs : DiagAug n d s)
    {i : Nat} (hi : i < n) : forwardStep n s i = s := by
  unfold forwardStep
  dsimp only
  rw [pivotRow_diag hs hi, swapRows_self hs.1 hi]
  have key := foldl_range'_inv
    (fun aug k => rowSubUp n i k (rd aug k i / rd aug i i) aug)
    (fun _ t => t = s) (i + 1) (n - (i + 1)) s rfl
    (by
      intro k t h1 h2 ht
      subst ht
      have hk : k < n := by omega
      have hf : rd t k i / rd t i i = 0 := by
        rw [hs.2 k hk i (by omega), if_pos hi, if_neg (by omega)]
        simp
      dsimp only
      rw [hf]
      obtain ⟨q1, q2⟩ := rowSubUp_spec hs.1 hk hi (by omega) 0
      exact rowSubbed_zero hs.1 q1 q2)
  exact key

theorem backStep_diag {n : Nat} {d : Nat → ℚ} {s : List (List ℚ)} (hs : DiagAug n d s)
    {i : Nat} (hi : i < n) : backStep n s i = s := by
  unfold backStep
  have key := foldl_range_rev_inv
    (fun aug k => rowSubDown n i k (rd aug k i / rd aug i i) aug)
    (fun _ t => t = s) i s rfl
    (by
      intro k t h1 ht
      subst ht
      have hk : k < n := by omega
      have hf : rd t k i / rd t i i = 0 := by
        rw [hs.2 k hk i (by omega), if_pos hi, if_neg (by omega)]
        simp
      dsimp only
      rw [hf]
      obtain ⟨q1, q2⟩ := rowSubDown_spec hs.1 hk hi (by omega) 0
      exact rowSubbed_zero hs.1 q1 q2)
  exact key

theorem gaussianElimination_diag {n : Nat} {d : Nat → ℚ} {s : List (List ℚ)}
    (hs : DiagAug n d s) : gaussianElimination s = s := by
  unfold gaussianElimination
  dsimp only
  rw [hs.1.1]
  have e1 : (List.range n).foldl (forwardStep n) s = s :=
    foldl_range_inv (forwardStep n) (fun _ t => t = s) n s rfl
      (by intro i t hi ht; subst ht; exact forwardStep_diag hs hi)
  rw [e1]
  exact foldl_range_rev_inv (backStep n) (fun _ t => t = s) n s rfl
      (by intro i t hi ht; subst ht; exact backStep_diag hs hi)

namespace Matrix

theorem diagonal_agree (n : Nat) (d : Nat → ℚ) :
    Agree (diagonal n d) n n (fun i j => if i = j then d i else 0) := by
  refine ⟨rfl, rfl, ⟨by simp [diagonal], ?_⟩, ?_⟩
  · intro row hrow
    simp only [diagonal, List.mem_map] at hrow
    obtain ⟨i, _, rfl⟩ := hrow
    simp
  · intro i hi j hj
    simp [diagonal, rd, List.getD_eq_getElem?_getD, hi, hj]

theorem augment_diagonal (n : Nat) (d : Nat → ℚ) : DiagAug n d (diagonal n d).augment := by
  obtain ⟨h1, h2⟩ := augment_spec (diagonal n d)
  obtain ⟨_, _, _, h4⟩ := diagonal_agree n d
  refine ⟨h1, ?_⟩
  intro x hx y hy
  have e := h2 x hx y hy
  rw [e]
  show (if y < n then rd (diagonal n d).data x y else if y = x + n then 1 else 0) = _
  split_ifs with c1 c2 c3
  · rw [h4 x hx y c1]; exact if_pos c2
  · rw [h4 x hx y c1]; exact if_neg c2
  · rfl
  · rfl

end Matrix

end MatrixCalc

namespace MatrixCalc

theorem tryBlock_help (reg : Registry) (command : List Char)
    (h : (readToken command).1 = "help".toList) :
    tryBlock reg command = ⟨reg, [.help], .ok true⟩ := by
  unfold tryBlock
  dsimp only
  rw [h, if_neg (by decide), if_pos rfl]

theorem tryBlock_show (reg : Registry) (command : List Char)
    (h : (readToken command).1 = "show".toList) :
    tryBlock reg command = runShow reg (readToken (readToken command).2).1 := by
  unfold tryBlock
  dsimp only
  rw [h, if_neg (by decide), if_neg (by decide), if_neg (by decide), if_neg (by decide),
    if_neg (by decide), if_pos rfl]

theorem tryBlock_det (reg : Registry) (command : List Char)
    (h : (readToken command).1 = "det".toList) :
    tryBlock reg command = runDet reg (readToken (readToken command).2).1 := by
  unfold tryBlock
  dsimp only
  rw [h, if_neg (by decide), if_neg (by decide), if_neg (by decide), if_neg (by decide),
    if_neg (by decide), if_neg (by decide), if_neg (by decide), if_pos rfl]

theorem tryBlock_create (reg : Registry) (command : List Char)
    (h : (readToken command).1 = "create".toList) :
    tryBlock reg command = runCreate reg command (readToken (readToken command).2).1 := by
  unfold tryBlock
  dsimp only
  rw [h, if_neg (by decide), if_neg (by decide), if_neg (by decide), if_neg (by decide),
    if_pos rfl]

theorem tryBlock_unknown (reg : Registry) (command : List Char)
    (h : (readToken command).1 ∉ keywords) :
    tryBlock reg command = ⟨reg, [.unknownCommand], .ok true⟩ := by
  have hk : ∀ kw, kw ∈ keywords → (readToken command).1 ≠ kw := fun kw hkw e => h (e ▸ hkw)
  unfold tryBlock
  dsimp only
  rw [if_neg (hk _ (by unfold keywords; decide)), if_neg (hk _ (by unfold keywords; decide)),
    if_neg (hk _ (by unfold keywords; decide)), if_neg (hk _ (by unfold keywords; decide)),
    if_neg (hk _ (by unfold keywords; decide)), if_neg (hk _ (by unfold keywords; decide)),
    if_neg (hk _ (by unfold keywords; decide)), if_neg (hk _ (by unfold keywords; decide)),
    if_neg, if_neg (hk _ (by unfold keywords; decide))]
  rintro (e | e | e)
  · exact hk _ (by unfold keywords; decide) e
  · exact hk _ (by unfold keywords; decide) e
  · exact hk _ (by unfold keywords; decide) e

theorem runShow_registry (reg : Registry) (name : List Char) :
    (runShow reg name).registry = reg ∧ (runShow reg name).exit = .ok true := by
  unfold runShow
  by_cases h : reg.count name ≠ 0
  · rw [if_pos h]
    exact ⟨Registry.index_of_count h, rfl⟩
  · rw [if_neg h]
    exact ⟨rfl, rfl⟩

theorem runDet_registry (reg : Registry) (name : List Char) :
    (runDet reg name).registry = reg ∧ (runDet reg name).exit ≠ .ok false := by
  unfold runDet
  by_cases h : reg.count name = 0
  · rw [if_pos h]
    exact ⟨rfl, by simp⟩
  · rw [if_neg h]
    split
    · exact ⟨Registry.index_of_count h, by simp⟩
    · exact ⟨Registry.index_of_count h, by simp⟩

theorem step_registry_of_block (reg : Registry) (command : List Char)
    (h : (tryBlock reg command).exit ≠ .ok false) :
    (step reg command).registry = (tryBlock reg command).registry ∧
      (step reg command).running = true := by
  unfold step
  rcases hb : tryBlock reg command with ⟨reg', out, ex⟩
  rw [hb] at h
  cases ex with
  | error e => exact ⟨rfl, rfl⟩
  | ok running =>
    cases running with
    | true => exact ⟨rfl, rfl⟩
    | false => exact absurd rfl h

end MatrixCalc

namespace MatrixCalc

theorem findFirst_split (ch : Char) (pre rest : List Char) (h : ch ∉ pre) :
    findFirst ch (pre ++ ch :: rest) = some pre.length := by
  unfold findFirst
  rw [if_pos (by simp)]
  congr 1
  induction pre with
  | nil => simp
  | cons x xs ih =>
    have hx : x ≠ ch := fun e => h (by simp [e])
    have hxs : ch ∉ xs := fun c => h (List.mem_cons_of_mem _ c)
    have hb : (x != ch) = true := by simpa using hx
    simp only [List.cons_append, List.takeWhile_cons, hb, if_true, List.length_cons]
    rw [ih hxs]

theorem findLast_end (ch : Char) (xs : List Char) :
    findLast ch (xs ++ [ch]) = some xs.length := by
  unfold findLast
  rw [if_pos (by simp)]
  simp

theorem findFirst_get (ch : Char) (l : List Char) (p : Nat) (h : findFirst ch l = some p) :
    l[p]? = some ch := by
  unfold findFirst at h
  by_cases hc : l.contains ch = true
  · rw [if_pos hc] at h
    have hp : p = (l.takeWhile (fun x => x != ch)).length := by
      injection h with h; exact h.symm
    subst hp
    have hm : ch ∈ l := by simpa using hc
    clear h hc
    induction l with
    | nil => simp at hm
    | cons x xs ih =>
      by_cases hx : x = ch
      · subst hx; simp
      · have hb : (x != ch) = true := by simpa using hx
        have hm' : ch ∈ xs := by
          rcases List.mem_cons.mp hm with e | e
          · exact absurd e.symm hx
          · exact e
        simp only [List.takeWhile_cons, hb, if_true, List.length_cons,
          List.getElem?_cons_succ]
        exact ih hm'
  · rw [if_neg hc] at h
    cases h

theorem findLast_get (ch : Char) (l : List Char) (q : Nat) (h : findLast ch l = some q) :
    l[q]? = some ch := by
  unfold findLast at h
  by_cases hc : l.contains ch = true
  · rw [if_pos hc] at h
    have hq : q = l.length - 1 - (l.reverse.takeWhile (fun x => x != ch)).length := by
      injection h with h; exact h.symm
    have hm : ch ∈ l.reverse := by simpa using hc
    have h1 := findFirst_get ch l.reverse (l.reverse.takeWhile (fun x => x != ch)).length
      (by unfold findFirst; rw [if_pos (by simpa using hm)])
    have hlt : (l.reverse.takeWhile (fun x => x != ch)).length < l.length := by
      by_contra hge
      rw [List.getElem?_eq_none (by rw [List.length_reverse]; omega)] at h1
      cases h1
    rw [List.getElem?_reverse hlt] at h1
    rw [hq]
    exact h1
  · rw [if_neg hc] at h
    cases h

theorem extractMatrixString_split (pre body : List Char) (h : '[' ∉ pre) :
    extractMatrixString (pre ++ ('[' :: body ++ [']'])) = .ok ('[' :: body ++ [']']) := by
  have e1 : findFirst '[' (pre ++ ('[' :: body ++ [']'])) = some pre.length := by
    have := findFirst_split '[' pre (body ++ [']']) h
    simpa using this
  have e2 : findLast ']' (pre ++ ('[' :: body ++ [']'])) =
      some (pre.length + 1 + body.length) := by
    have := findLast_end ']' (pre ++ '[' :: body)
    simp only [List.append_assoc, List.cons_append, List.length_append, List.length_cons] at this
    simp only [List.cons_append]
    rw [this]
    congr 1
    omega
  unfold extractMatrixString
  rw [e1, e2]
  dsimp only
  rw [if_neg (by omega)]
  congr 1
  rw [List.drop_left']
  · rw [List.take_of_length_le]
    simp
    omega
  · rfl

theorem extractMatrixString_ok (command s : List Char)
    (h : extractMatrixString command = .ok s) :
    ∃ p q, p < q ∧ command[p]? = some '[' ∧ command[q]? = some ']' ∧
      findFirst '[' command = some p ∧ findLast ']' command = some q ∧
      s = (command.drop p).take (q - p + 1) := by
  unfold extractMatrixString at h
  split at h
  · rename_i start stop h1 h2
    by_cases hc : start ≥ stop
    · rw [if_pos hc] at h; cases h
    · rw [if_neg hc] at h
      injection h with h
      exact ⟨start, stop, by omega, findFirst_get _ _ _ h1, findLast_get _ _ _ h2, h1, h2,
        h.symm⟩
  · cases h

theorem runCreate_ok (reg : Registry) (command name s : List Char) (data : List (List ℚ))
    (h1 : extractMatrixString command = .ok s)
    (h2 : Matrix.parseMatrixString s = .ok data) :
    runCreate reg command name =
      ⟨reg.assign name (Matrix.ofData data),
        [.created name, .print [] (Matrix.ofData data)], .ok true⟩ := by
  have h3 : Matrix.fromString s = .ok (Matrix.ofData data) := by
    unfold Matrix.fromString; rw [h2]
  unfold runCreate
  rw [h1]
  dsimp only
  rw [h3]
  dsimp only
  rw [(assign_settled reg name (Matrix.ofData data)).1,
    (assign_settled reg name (Matrix.ofData data)).2]

theorem runCreate_error (reg : Registry) (command name : List Char) (e : Exn)
    (h1 : extractMatrixString command = .error e) :
    runCreate reg command name = ⟨reg, [], .error e⟩ := by
  unfold runCreate
  rw [h1]


theorem extractMatrixString_cases (command : List Char) :
    (∃ s, extractMatrixString command = .ok s) ∨
      extractMatrixString command = .error (.invalid_argument
        "Invalid command: Matrix part not found or incorrectly formatted") := by
  unfold extractMatrixString
  split
  · split_ifs
    · exact Or.inr rfl
    · exact Or.inl ⟨_, rfl⟩
  · exact Or.inr rfl

theorem readToken_create_line (name rest : List Char) (hname : IsToken name) :
    (readToken (commandLine ["create".toList, name, rest])).1 = "create".toList ∧
      (readToken (readToken (commandLine ["create".toList, name, rest])).2).1 = name := by
  have e : commandLine ["create".toList, name, rest] =
      "create".toList ++ ' ' :: (name ++ ' ' :: rest) := by
    simp [commandLine, List.intercalate, List.intersperse]
  have hc : IsToken "create".toList := ⟨by decide, by unfold SpaceFree; decide⟩
  rw [e, readToken_word _ _ hc]
  simp only [readToken_space, readToken_word name _ hname, and_self]

end MatrixCalc

namespace MatrixCalc

theorem perm_set_head {α : Type} (x d : α) :
    ∀ (xs : List α) (q : Nat), q < xs.length →
      List.Perm (xs.getD q d :: xs.set q x) (x :: xs) := by
  intro xs
  induction xs with
  | nil => intro q hq; simp at hq
  | cons y ys ih =>
    intro q hq
    cases q with
    | zero =>
      simp only [List.getD_cons_zero, List.set_cons_zero]
      exact List.Perm.swap x y ys
    | succ k =>
      simp only [List.getD_cons_succ, List.set_cons_succ]
      have hk : k < ys.length := by simpa using hq
      exact ((List.Perm.swap y (ys.getD k d) (ys.set k x)).trans
        ((ih k hk).cons y)).trans (List.Perm.swap x y ys)

theorem perm_set_set {α : Type} (d : α) :
    ∀ (l : List α) (p q : Nat), p < l.length → q < l.length →
      List.Perm ((l.set p (l.getD q d)).set q (l.getD p d)) l := by
  intro l
  induction l with
  | nil => intro p q hp; simp at hp
  | cons x xs ih =>
    intro p q hp hq
    cases p with
    | zero =>
      cases q with
      | zero => simp
      | succ k =>
        simp only [List.getD_cons_succ, List.set_cons_zero, List.set_cons_succ,
          List.getD_cons_zero]
        exact perm_set_head x d xs k (by simpa using hq)
    | succ j =>
      cases q with
      | zero =>
        simp only [List.getD_cons_succ, List.set_cons_zero, List.set_cons_succ,
          List.getD_cons_zero]
        exact perm_set_head x d xs j (by simpa using hp)
      | succ k =>
        simp only [List.getD_cons_succ, List.set_cons_succ]
        exact (ih j k (by simpa using hp) (by simpa using hq)).cons x

theorem swapRows_perm (a : List (List ℚ)) (p q : Nat) (hp : p < a.length)
    (hq : q < a.length) : List.Perm (swapRows a p q) a :=
  perm_set_set [] a p q hp hq

theorem swapRows_getD (a : List (List ℚ)) (p q : Nat) (hp : p < a.length)
    (hq : q < a.length) (x : Nat) :
    (swapRows a p q).getD x [] =
      a.getD (if x = q then p else if x = p then q else x) [] := by
  unfold swapRows
  rw [getD_set_rows _ _ _ _ (by rw [List.length_set]; exact hq)]
  by_cases e1 : x = q
  · rw [if_pos e1, if_pos e1]
  · rw [if_neg e1, if_neg e1, getD_set_rows _ _ _ _ hp]
    split_ifs <;> rfl

end MatrixCalc

namespace MatrixCalc

theorem tabulate_rows {data : List (List ℚ)} {r c : Nat} (h : Shape data r c) :
    (List.range r).map (fun i => (List.range c).map (fun j => rd data i j)) = data := by
  refine Shape.ext ⟨by simp, ?_⟩ h ?_
  · intro row hrow
    simp only [List.mem_map] at hrow
    obtain ⟨i, _, rfl⟩ := hrow
    simp
  · intro i hi j hj
    simp [rd, List.getD_eq_getElem?_getD, hi, hj]

namespace Matrix

theorem printEntry_written (m : Matrix) (i : Nat) (out : Cout) (j : Nat) :
    ∃ more, (printEntry m i out j).written = out.written ++ more ∧
      more.filterMap Piece.value = [rd m.data i j] ∧ (printEntry m i out j).width = 0 := by
  unfold printEntry
  by_cases hj : j ≠ 0
  · rw [if_pos hj]
    exact ⟨[.number true 2 10 (rd m.data i j), .text 0 " ".toList],
      by simp [Cout.putText, Cout.putNumber, Cout.setFixed, Cout.setprecision, Cout.setw],
      rfl, rfl⟩
  · rw [if_neg hj]
    exact ⟨[.number out.fixed out.precision out.width (rd m.data i j), .text 0 " ".toList],
      by simp [Cout.putText, Cout.putNumber], rfl, rfl⟩

theorem printEntries_written (m : Matrix) (i : Nat) :
    ∀ (n : Nat) (out : Cout), ∃ more,
      ((List.range n).foldl (printEntry m i) out).written = out.written ++ more ∧
      more.filterMap Piece.value = (List.range n).map (fun j => rd m.data i j) := by
  intro n
  induction n with
  | zero => intro out; exact ⟨[], by simp, rfl⟩
  | succ n ih =>
    intro out
    obtain ⟨more, h1, h2⟩ := ih out
    obtain ⟨more', h3, h4, _⟩ :=
      printEntry_written m i ((List.range n).foldl (printEntry m i) out) n
    refine ⟨more ++ more', ?_, ?_⟩
    · rw [List.range_succ, List.foldl_append, List.foldl_cons, List.foldl_nil, h3, h1,
        List.append_assoc]
    · rw [List.filterMap_append, h2, h4, List.range_succ, List.map_append]
      rfl

theorem printRow_written (m : Matrix) (out : Cout) (i : Nat) :
    ∃ more, (printRow m out i).written =
        out.written ++ Piece.text out.width "\x1b[1;33m|\x1b[0m ".toList :: more ∧
      more.filterMap Piece.value = (List.range m.cols).map (fun j => rd m.data i j) ∧
      (printRow m out i).width = 0 := by
  unfold printRow
  obtain ⟨more, h1, h2⟩ :=
    printEntries_written m i m.cols (out.putText "\x1b[1;33m|\x1b[0m ".toList)
  refine ⟨more ++ [.text ((List.range m.cols).foldl (printEntry m i)
    (out.putText "\x1b[1;33m|\x1b[0m ".toList)).width "\x1b[1;33m|\x1b[0m\n".toList], ?_, ?_,
    rfl⟩
  · show ((List.range m.cols).foldl (printEntry m i)
      (out.putText "\x1b[1;33m|\x1b[0m ".toList)).written ++ _ = _
    rw [h1]
    simp [Cout.putText]
  · rw [List.filterMap_append, h2]
    simp [Piece.value]

theorem printRows_written (m : Matrix) :
    ∀ (n : Nat) (out : Cout), ∃ more,
      ((List.range n).foldl (printRow m) out).written = out.written ++ more ∧
      more.filterMap Piece.value =
        ((List.range n).map (fun i => (List.range m.cols).map (fun j => rd m.data i j))).flatten ∧
      (0 < n → ∃ rest, more = Piece.text out.width "\x1b[1;33m|\x1b[0m ".toList :: rest) := by
  intro n
  induction n with
  | zero => intro out; exact ⟨[], by simp, rfl, fun h => absurd h (by decide)⟩
  | succ n ih =>
    intro out
    obtain ⟨more, h1, h2, h3⟩ := ih out
    obtain ⟨more', h4, h5, _⟩ := printRow_written m ((List.range n).foldl (printRow m) out) n
    refine ⟨more ++ Piece.text ((List.range n).foldl (printRow m) out).width
      "\x1b[1;33m|\x1b[0m ".toList :: more', ?_, ?_, ?_⟩
    · rw [List.range_succ, List.foldl_append, List.foldl_cons, List.foldl_nil, h4, h1,
        List.append_assoc]
    · rw [List.filterMap_append, h2, List.filterMap_cons, h5, List.range_succ,
        List.map_append, List.flatten_append]
      simp [Piece.value]
    · intro _
      cases n with
      | zero =>
        have : more = [] := by
          have := h1
          simp at this
          exact this
        subst this
        exact ⟨more', rfl⟩
      | succ k =>
        obtain ⟨rest, hr⟩ := h3 (Nat.succ_pos k)
        exact ⟨rest ++ Piece.text ((List.range (k + 1)).foldl (printRow m) out).width
          "\x1b[1;33m|\x1b[0m ".toList :: more', by rw [hr]; rfl⟩

/-- What `print` writes on a stream whose width is `0`: the pieces begin with a text
whose first character is the escape character, when there is a name or a row, and the
numbers among them are the entries row by row. -/
theorem print_written (m : Matrix) (name : List Char) (fixed : Bool) (precision : Nat)
    (h : name ≠ [] ∨ 0 < m.rows) :
    (∃ s rest, (m.print name ⟨fixed, precision, 0, []⟩).written =
        Piece.text 0 ('\x1b' :: s) :: rest) ∧
      (m.print name ⟨fixed, precision, 0, []⟩).written.filterMap Piece.value =
        ((List.range m.rows).map
          (fun i => (List.range m.cols).map (fun j => rd m.data i j))).flatten := by
  unfold print
  by_cases hn : name = []
  · subst hn
    have hr : 0 < m.rows := by
      rcases h with h | h
      · exact absurd rfl h
      · exact h
    obtain ⟨more, h1, h2, h3⟩ := printRows_written m m.rows ⟨fixed, precision, 0, []⟩
    obtain ⟨rest, hrest⟩ := h3 hr
    simp only [List.isEmpty_nil, if_true]
    rw [h1]
    simp only [List.nil_append]
    exact ⟨⟨_, rest, hrest⟩, h2⟩
  · have he : name.isEmpty = false := by
      cases name with
      | nil => exact absurd rfl hn
      | cons _ _ => rfl
    rw [he]
    simp only [Bool.false_eq_true, if_false]
    obtain ⟨more, h1, h2, _⟩ := printRows_written m m.rows
      ((((Cout.mk fixed precision 0 []).putText "\x1b[1;34m".toList).putText name).putText
        " = \x1b[0m\n".toList)
    rw [h1]
    refine ⟨⟨_, _, rfl⟩, ?_⟩
    rw [List.filterMap_append, h2]
    simp [Cout.putText, Piece.value]

theorem parseMatrixString_escape (s : List Char) :
    parseMatrixString ('\x1b' :: s) =
      .error (.invalid_argument "Invalid matrix format: must be enclosed in []") := by
  unfold parseMatrixString
  have e : (('\x1b' :: s).takeWhile isspace).length = 0 := by
    rw [List.takeWhile_cons, if_neg (by decide)]
    rfl
  dsimp only
  rw [e, if_pos]
  right; left
  rw [List.getD_cons_zero]
  decide

end Matrix

end MatrixCalc

namespace MatrixCalc

theorem foldl_fst {σ τ α : Type} (f : σ → α → σ) (g : σ × τ → α → σ × τ)
    (h : ∀ st x, (g st x).1 = f st.1 x) :
    ∀ (l : List α) (st : σ × τ), (l.foldl g st).1 = l.foldl f st.1 := by
  intro l
  induction l with
  | nil => intro st; rfl
  | cons x xs ih =>
    intro st
    rw [List.foldl_cons, List.foldl_cons, ih, h]

theorem forwardStepDiv_fst (n : Nat) (st : List (List ℚ) × List ℚ) (i : Nat) :
    (forwardStepDiv n st i).1 = forwardStep n st.1 i := by
  unfold forwardStepDiv forwardStep
  exact foldl_fst (fun aug k => rowSubUp n i k (rd aug k i / rd aug i i) aug) _
    (fun _ _ => rfl) _ _

theorem backStepDiv_fst (n : Nat) (st : List (List ℚ) × List ℚ) (i : Nat) :
    (backStepDiv n st i).1 = backStep n st.1 i := by
  unfold backStepDiv backStep
  exact foldl_fst (fun aug k => rowSubDown n i k (rd aug k i / rd aug i i) aug) _
    (fun _ _ => rfl) _ _

/-- The first component of the recording elimination is the elimination itself. -/
theorem gaussianEliminationDiv_fst (a : List (List ℚ)) :
    (gaussianEliminationDiv a).1 = gaussianElimination a := by
  unfold gaussianEliminationDiv gaussianElimination
  rw [foldl_fst (backStep a.length) (backStepDiv a.length) (backStepDiv_fst a.length),
    foldl_fst (forwardStep a.length) (forwardStepDiv a.length) (forwardStepDiv_fst a.length)]

/-- A forward step keeps the shape and the rows above `i`, and its divisors are the
entry `aug[i][i]` it leaves. -/
theorem forwardStepDiv_spec {n i : Nat} {s : List (List ℚ)} (log : List ℚ)
    (hs : Shape s n (2 * n)) (hi : i < n) :
    Shape (forwardStepDiv n (s, log) i).1 n (2 * n) ∧
      (∀ r, r < i → ∀ c, rd (forwardStepDiv n (s, log) i).1 r c = rd s r c) ∧
      ∀ x ∈ (forwardStepDiv n (s, log) i).2,
        x ∈ log ∨ x = rd (forwardStepDiv n (s, log) i).1 i i := by
  obtain ⟨p1, p2, _, _⟩ := pivotRow_spec s n i hi
  have hs0 : Shape (swapRows s (pivotRow s n i) i) n (2 * n) := hs.swap p2 hi
  have key := foldl_range'_inv
    (fun (st : List (List ℚ) × List ℚ) k =>
      (rowSubUp n i k (rd st.1 k i / rd st.1 i i) st.1, st.2 ++ [rd st.1 i i]))
    (fun _ st => Shape st.1 n (2 * n) ∧
      (∀ r, r ≤ i → ∀ c, rd st.1 r c = rd (swapRows s (pivotRow s n i) i) r c) ∧
      ∀ x ∈ st.2, x ∈ log ∨ x = rd (swapRows s (pivotRow s n i) i) i i)
    (i + 1) (n - (i + 1)) (swapRows s (pivotRow s n i) i, log)
    ⟨hs0, fun _ _ _ => rfl, fun x hx => Or.inl hx⟩
    (by
      rintro k st h1 h2 ⟨q1, q2, q3⟩
      have hk : k < n := by omega
      obtain ⟨r1, r2⟩ := rowSubUp_spec q1 hk hi (by omega) (rd st.1 k i / rd st.1 i i)
      refine ⟨r1, ?_, ?_⟩
      · intro r hr c
        show rd (rowSubUp n i k (rd st.1 k i / rd st.1 i i) st.1) r c = _
        rw [r2 r c, if_neg (by omega)]
        exact q2 r hr c
      · intro x hx
        rcases List.mem_append.mp hx with hx | hx
        · exact q3 x hx
        · rw [List.mem_singleton] at hx
          rw [hx, q2 i (le_refl i) i]
          exact Or.inr rfl)
  obtain ⟨k1, k2, k3⟩ := key
  refine ⟨k1, ?_, ?_⟩
  · intro r hr c
    have := k2 r (by omega) c
    unfold forwardStepDiv
    rw [this, rd_swapRows hs p2 hi, if_neg (by omega), if_neg (by omega)]
  · intro x hx
    rcases k3 x hx with h | h
    · exact Or.inl h
    · right
      rw [h]
      exact (k2 i (le_refl i) i).symm

/-- A back-substitution step keeps the shape and the diagonal, and its divisors are the
entry `aug[i][i]`. -/
theorem backStepDiv_spec {n i : Nat} {s : List (List ℚ)} (log : List ℚ)
    (hs : Shape s n (2 * n)) (hi : i < n) :
    Shape (backStepDiv n (s, log) i).1 n (2 * n) ∧
      (∀ c, rd (backStepDiv n (s, log) i).1 c c = rd s c c) ∧
      ∀ x ∈ (backStepDiv n (s, log) i).2, x ∈ log ∨ x = rd s i i := by
  exact foldl_range_rev_inv
    (fun (st : List (List ℚ) × List ℚ) k =>
      (rowSubDown n i k (rd st.1 k i / rd st.1 i i) st.1, st.2 ++ [rd st.1 i i]))
    (fun _ st => Shape st.1 n (2 * n) ∧ (∀ c, rd st.1 c c = rd s c c) ∧
      ∀ x ∈ st.2, x ∈ log ∨ x = rd s i i)
    i (s, log) ⟨hs, fun _ => rfl, fun x hx => Or.inl hx⟩
    (by
      rintro k st hk ⟨q1, q2, q3⟩
      obtain ⟨r1, r2⟩ := rowSubDown_spec q1 (by omega : k < n) hi (by omega)
        (rd st.1 k i / rd st.1 i i)
      refine ⟨r1, ?_, ?_⟩
      · intro c
        show rd (rowSubDown n i k (rd st.1 k i / rd st.1 i i) st.1) c c = _
        rw [r2 c c, if_neg (by omega)]
        exact q2 c
      · intro x hx
        rcases List.mem_append.mp hx with hx | hx
        · exact q3 x hx
        · rw [List.mem_singleton] at hx
          rw [hx, q2 i]
          exact Or.inr rfl)

/-- Every divisor of `gaussianElimination` is a diagonal entry of the matrix it
returns. -/
theorem gaussianEliminationDiv_spec {n : Nat} {a : List (List ℚ)} (hs : Shape a n (2 * n)) :
    ∀ x ∈ (gaussianEliminationDiv a).2, ∃ t, t < n ∧ x = rd (gaussianElimination a) t t := by
  have hf := foldl_range_inv (forwardStepDiv n)
    (fun i st => Shape st.1 n (2 * n) ∧ ∀ x ∈ st.2, ∃ t, t < i ∧ x = rd st.1 t t)
    n (a, []) ⟨hs, fun x hx => absurd hx (List.not_mem_nil x)⟩
    (by
      rintro i ⟨s, log⟩ hi ⟨q1, q2⟩
      obtain ⟨r1, r2, r3⟩ := forwardStepDiv_spec log q1 hi
      refine ⟨r1, ?_⟩
      intro x hx
      rcases r3 x hx with h | h
      · obtain ⟨t, ht, e⟩ := q2 x h
        exact ⟨t, by omega, by rw [r2 t ht t]; exact e⟩
      · exact ⟨i, by omega, h⟩)
  have hb := foldl_range_rev_inv (backStepDiv n)
    (fun _ st => Shape st.1 n (2 * n) ∧
      (∀ c, rd st.1 c c = rd ((List.range n).foldl (forwardStepDiv n) (a, [])).1 c c) ∧
      ∀ x ∈ st.2, ∃ t, t < n ∧ x = rd ((List.range n).foldl (forwardStepDiv n) (a, [])).1 t t)
    n ((List.range n).foldl (forwardStepDiv n) (a, [])) ⟨hf.1, fun _ => rfl, hf.2⟩
    (by
      rintro i ⟨s, log⟩ hi ⟨q1, q2, q3⟩
      obtain ⟨r1, r2, r3⟩ := backStepDiv_spec log q1 hi
      refine ⟨r1, fun c => by rw [r2 c]; exact q2 c, ?_⟩
      intro x hx
      rcases r3 x hx with h | h
      · exact q3 x h
      · exact ⟨i, hi, by rw [h]; exact q2 i⟩)
  obtain ⟨_, b2, b3⟩ := hb
  intro x hx
  have hx' : x ∈ ((List.range n).reverse.foldl (backStepDiv n)
      ((List.range n).foldl (forwardStepDiv n) (a, []))).2 := by
    unfold gaussianEliminationDiv at hx
    rw [hs.1] at hx
    exact hx
  obtain ⟨t, ht, e⟩ := b3 x hx'
  refine ⟨t, ht, ?_⟩
  rw [e, ← b2 t, ← gaussianEliminationDiv_fst]
  unfold gaussianEliminationDiv
  rw [hs.1]

namespace Matrix

theorem normalizeDivisors_large (rows : Nat) (aug : List (List ℚ)) :
    ∀ (l : List Nat), ∀ x ∈ normalizeDivisors rows aug l, eps ≤ |x| := by
  intro l
  induction l with
  | nil => intro x hx; simp [normalizeDivisors] at hx
  | cons i rest ih =>
    intro x hx
    unfold normalizeDivisors at hx
    by_cases h : |rd aug i i| < eps
    · rw [if_pos h] at hx
      simp at hx
    · rw [if_neg h] at hx
      rcases List.mem_append.mp hx with hx | hx
      · rw [(List.mem_replicate.mp hx).2]
        exact not_lt.mp h
      · exact ih x hx

end Matrix

end MatrixCalc

namespace MatrixCalc

/-- Subtracting a multiple of row `i` from row `k` keeps the determinant of the left
block, provided row `i` is zero in the columns that the subtraction leaves out. -/
theorem det_rowSubbed {n : Nat} {t t' : List (List ℚ)} {k i lo : Nat} {f : ℚ}
    (h : RowSubbed t t' k i f lo (2 * n)) (hi : i < n) (hki : k ≠ i)
    (hz : ∀ c, c < lo → rd t i c = 0) : (toSq n t').det = (toSq n t).det := by
  apply Matrix.det_eq_of_forall_row_eq_smul_add_const
    (fun r : Fin n => if r.val = k then -f else 0) ⟨i, hi⟩
  · simp only
    rw [if_neg (fun e => hki e.symm)]
  · intro r c
    have hc := c.isLt
    simp only [toSq]
    rw [h r.val c.val]
    by_cases e1 : r.val = k
    · by_cases e2 : lo ≤ c.val
      · rw [if_pos ⟨e1, e2, by omega⟩, if_pos e1, e1]
        ring
      · rw [if_neg (fun x => e2 x.2.1), if_pos e1, hz c.val (by omega)]
        ring
    · rw [if_neg (fun x => e1 x.1), if_neg e1]
      ring

theorem toSq_swapRows {n : Nat} {s : List (List ℚ)} (hs : Shape s n (2 * n)) {p i : Nat}
    (hp : p < n) (hi : i < n) :
    toSq n (swapRows s p i) = (toSq n s).submatrix (Equiv.swap ⟨p, hp⟩ ⟨i, hi⟩) id := by
  funext r c
  simp only [toSq, Matrix.submatrix_apply, id_eq]
  rw [rd_swapRows hs hp hi, Equiv.swap_apply_def]
  by_cases e1 : r = ⟨p, hp⟩
  · rw [if_pos e1]
    have e1' : r.val = p := congrArg Fin.val e1
    by_cases e2 : r.val = i
    · rw [if_pos e2]
      show rd s p c.val = rd s i c.val
      rw [← e1', e2]
    · rw [if_neg e2, if_pos e1']
  · rw [if_neg e1]
    have e1' : r.val ≠ p := fun x => e1 (Fin.ext x)
    by_cases e2 : r = ⟨i, hi⟩
    · rw [if_pos e2, if_pos (congrArg Fin.val e2)]
    · have e2' : r.val ≠ i := fun x => e2 (Fin.ext x)
      rw [if_neg e2, if_neg e2', if_neg e1']

theorem det_swapRows_ne_zero {n : Nat} {s : List (List ℚ)} (hs : Shape s n (2 * n))
    {p i : Nat} (hp : p < n) (hi : i < n) (h : (toSq n s).det ≠ 0) :
    (toSq n (swapRows s p i)).det ≠ 0 := by
  rw [toSq_swapRows hs hp hi, Matrix.det_permute]
  rcases Int.units_eq_one_or (Equiv.Perm.sign (Equiv.swap (⟨p, hp⟩ : Fin n) ⟨i, hi⟩)) with
    e | e
  · rw [e]; simpa using h
  · rw [e]; simpa using h

/-- A forward step keeps the determinant of the left block different from zero. -/
theorem forwardStep_det {n i : Nat} {s : List (List ℚ)} (hi : i < n)
    (hs : Shape s n (2 * n)) (hz : LowZ n i s) (h : (toSq n s).det ≠ 0) :
    (toSq n (forwardStep n s i)).det ≠ 0 := by
  obtain ⟨_, m2, _, _⟩ := pivotRow_spec s n i hi
  have hs1 : Shape (swapRows s (pivotRow s n i) i) n (2 * n) := hs.swap m2 hi
  have hd1 := det_swapRows_ne_zero hs m2 hi h
  have hrow : ∀ c, c < i → rd (swapRows s (pivotRow s n i) i) i c = 0 := by
    intro c hc
    rw [rd_swapRows hs m2 hi, if_pos rfl]
    exact hz _ c hc (by omega) m2
  have key := foldl_range'_inv
    (fun aug k => rowSubUp n i k (rd aug k i / rd aug i i) aug)
    (fun _ t => Shape t n (2 * n) ∧ (∀ c, c < i → rd t i c = 0) ∧ (toSq n t).det ≠ 0)
    (i + 1) (n - (i + 1)) (swapRows s (pivotRow s n i) i) ⟨hs1, hrow, hd1⟩
    (by
      rintro k t h1 h2 ⟨q1, q2, q3⟩
      have hk : k < n := by omega
      have hki : k ≠ i := by omega
      obtain ⟨r1, r2⟩ := rowSubUp_spec q1 hk hi hki (rd t k i / rd t i i)
      refine ⟨r1, ?_, ?_⟩
      · intro c hc
        show rd (rowSubUp n i k (rd t k i / rd t i i) t) i c = 0
        rw [r2 i c, if_neg (fun x => hki x.1.symm)]
        exact q2 c hc
      · show (toSq n (rowSubUp n i k (rd t k i / rd t i i) t)).det ≠ 0
        rw [det_rowSubbed r2 hi hki q2]
        exact q3)
  exact key.2.2

/-- The forward elimination of `[A | I]` leaves an upper triangular left block whose
determinant is different from zero when that of `A` is. -/
theorem forward_det {a : Nat → Nat → ℚ} {n : Nat} {s : List (List ℚ)}
    (hs : Shape s n (2 * n)) (hl : Lin a n s) (h : (toSq n s).det ≠ 0) :
    (toSq n ((List.range n).foldl (forwardStep n) s)).det ≠ 0 := by
  have key := foldl_range_inv (forwardStep n)
    (fun i t => Shape t n (2 * n) ∧ Lin a n t ∧ LowZ n i t ∧ (toSq n t).det ≠ 0)
    n s ⟨hs, hl, fun r c hc => by omega, h⟩
    (by
      rintro i t hi ⟨q1, q2, q3, q4⟩
      obtain ⟨r1, r2, r3⟩ := forwardStep_inv hi q1 q2 q3
      exact ⟨r1, r2, r3, forwardStep_det hi q1 q3 q4⟩)
  exact key.2.2.2

theorem diag_ne_zero_of_det {n : Nat} {s : List (List ℚ)} (hz : LowZ n n s)
    (h : (toSq n s).det ≠ 0) : ∀ i, i < n → rd s i i ≠ 0 := by
  rw [Matrix.det_of_upperTriangular] at h
  · intro i hi
    exact Finset.prod_ne_zero_iff.mp h ⟨i, hi⟩ (Finset.mem_univ _)
  · intro r c hrc
    have h' : c.val < r.val := hrc
    exact hz r.val c.val c.isLt h' r.isLt

/-- On `[A | I]` with `det A ≠ 0`, no diagonal entry of the reduced matrix is zero. -/
theorem gaussianElimination_diag_ne_zero (m : Matrix)
    (h : (toSq m.rows m.data).det ≠ 0) :
    ∀ i, i < m.rows → rd (gaussianElimination m.augment) i i ≠ 0 := by
  obtain ⟨hs, hrd⟩ := Matrix.augment_spec m
  have hl := Matrix.augment_lin m
  have e : toSq m.rows m.augment = toSq m.rows m.data := by
    funext r c
    simp only [toSq]
    rw [hrd r.val r.isLt c.val (by have := c.isLt; omega), if_pos c.isLt]
  obtain ⟨f1, f2, f3⟩ := forward_inv hs hl
  have hd := forward_det hs hl (by rw [e]; exact h)
  have hdiag := diag_ne_zero_of_det f3 hd
  obtain ⟨_, _, _, _, b5⟩ := backward_inv f1 f2 f3
  intro i hi
  have : gaussianElimination m.augment =
      (List.range m.rows).reverse.foldl (backStep m.rows)
        ((List.range m.rows).foldl (forwardStep m.rows) m.augment) := by
    unfold gaussianElimination
    rw [hs.1]
  rw [this, b5 i hi]
  exact hdiag i hi

end MatrixCalc

namespace MatrixCalc

end MatrixCalc

namespace MatrixCalc

namespace Matrix

theorem WF_ofData_2x2 (a b c d : ℚ) : (ofData [[a, b], [c, d]]).WF := by
  simp [WF, Shape, ofData]

/-- C6: `operator*` throws its dimension error exactly when the left column count
differs from the right row count; otherwise it returns a well-formed matrix of shape
`(A.rows, B.cols)` whose entry `(i, j)` is the dot product of row `i` of `A` and
column `j` of `B`. -/
theorem mul_spec (A B : Matrix) (hA : A.WF) (hB : B.WF) :
    (A.mul B = .error (.invalid_argument "Incompatible matrix dimensions for multiplication")
        ↔ A.cols ≠ B.rows) ∧
      (A.cols = B.rows → ∃ P, A.mul B = .ok P ∧ P.WF ∧ P.rows = A.rows ∧ P.cols = B.cols ∧
        ∀ i, i < A.rows → ∀ j, j < B.cols →
          rd P.data i j = ∑ k in Finset.range A.cols, rd A.data i k * rd B.data k j) := by
  have _ := hA
  have _ := hB
  refine ⟨⟨fun h => ?_, fun h => ?_⟩, fun h => ?_⟩
  · intro e
    obtain ⟨p, hp, _⟩ := mul_ok A B e
    rw [hp] at h; cases h
  · unfold mul; rw [if_pos h]
  · obtain ⟨p, hp, ag⟩ := mul_ok A B h
    exact ⟨p, hp, ag.wf, ag.1, ag.2.1, ag.2.2.2⟩

theorem mul_spec_witness :
    (ofData [[1, 2], [3, 4]]).WF ∧ (ofData [[0, 1], [1, 0]]).WF ∧
    (((ofData [[1, 2], [3, 4]]).mul (ofData [[0, 1], [1, 0]]) =
        .error (.invalid_argument "Incompatible matrix dimensions for multiplication")
        ↔ (ofData [[1, 2], [3, 4]]).cols ≠ (ofData [[0, 1], [1, 0]]).rows) ∧
      ((ofData [[1, 2], [3, 4]]).cols = (ofData [[0, 1], [1, 0]]).rows →
        ∃ P, (ofData [[1, 2], [3, 4]]).mul (ofData [[0, 1], [1, 0]]) = .ok P ∧ P.WF ∧
          P.rows = (ofData [[1, 2], [3, 4]]).rows ∧
          P.cols = (ofData [[0, 1], [1, 0]]).cols ∧
          ∀ i, i < (ofData [[1, 2], [3, 4]]).rows → ∀ j, j < (ofData [[0, 1], [1, 0]]).cols →
            rd P.data i j = ∑ k in Finset.range (ofData [[1, 2], [3, 4]]).cols,
              rd (ofData [[1, 2], [3, 4]]).data i k * rd (ofData [[0, 1], [1, 0]]).data k j)) :=
  ⟨WF_ofData_2x2 1 2 3 4, WF_ofData_2x2 0 1 1 0,
    mul_spec (ofData [[1, 2], [3, 4]]) (ofData [[0, 1], [1, 0]]) (WF_ofData_2x2 1 2 3 4)
      (WF_ofData_2x2 0 1 1 0)⟩

/-- C7: `operator+` and `operator-` throw their dimension error exactly when the
shapes of the operands differ; otherwise both return a well-formed matrix of the
operands' shape whose entry `(i, j)` is the sum, respectively the difference, of the
operands' entries `(i, j)`. -/
theorem add_sub_spec (A B : Matrix) (hA : A.WF) (hB : B.WF) :
    (A.add B = .error (.invalid_argument "Matrix dimensions must match for addition")
        ↔ (A.rows ≠ B.rows ∨ A.cols ≠ B.cols)) ∧
      (A.sub B = .error (.invalid_argument "Matrix dimensions must match for subtraction")
        ↔ (A.rows ≠ B.rows ∨ A.cols ≠ B.cols)) ∧
      (A.rows = B.rows ∧ A.cols = B.cols →
        (∃ S, A.add B = .ok S ∧ S.WF ∧ S.rows = A.rows ∧ S.cols = A.cols ∧
          ∀ i, i < A.rows → ∀ j, j < A.cols →
            rd S.data i j = rd A.data i j + rd B.data i j) ∧
        (∃ D, A.sub B = .ok D ∧ D.WF ∧ D.rows = A.rows ∧ D.cols = A.cols ∧
          ∀ i, i < A.rows → ∀ j, j < A.cols →
            rd D.data i j = rd A.data i j - rd B.data i j)) := by
  have _ := hA
  have _ := hB
  refine ⟨⟨fun h => ?_, fun h => ?_⟩, ⟨fun h => ?_, fun h => ?_⟩, fun h => ⟨?_, ?_⟩⟩
  · by_contra e
    obtain ⟨p, hp, _⟩ := add_ok A B (by omega) (by omega)
    rw [hp] at h; cases h
  · unfold add; rw [if_pos h]
  · by_contra e
    obtain ⟨p, hp, _⟩ := sub_ok A B (by omega) (by omega)
    rw [hp] at h; cases h
  · unfold sub; rw [if_pos h]
  · obtain ⟨p, hp, ag⟩ := add_ok A B h.1 h.2
    exact ⟨p, hp, ag.wf, ag.1, ag.2.1, ag.2.2.2⟩
  · obtain ⟨p, hp, ag⟩ := sub_ok A B h.1 h.2
    exact ⟨p, hp, ag.wf, ag.1, ag.2.1, ag.2.2.2⟩

theorem add_sub_spec_witness :
    (ofData [[1, 2], [3, 4]]).WF ∧ (ofData [[0, 1], [1, 0]]).WF ∧
    (∃ S, (ofData [[1, 2], [3, 4]]).add (ofData [[0, 1], [1, 0]]) = .ok S ∧ S.WF ∧
      S.rows = 2 ∧ S.cols = 2 ∧
      ∀ i, i < 2 → ∀ j, j < 2 →
        rd S.data i j = rd [[1, 2], [3, 4]] i j + rd [[0, 1], [1, 0]] i j) ∧
    (∃ D, (ofData [[1, 2], [3, 4]]).sub (ofData [[0, 1], [1, 0]]) = .ok D ∧ D.WF ∧
      D.rows = 2 ∧ D.cols = 2 ∧
      ∀ i, i < 2 → ∀ j, j < 2 →
        rd D.data i j = rd [[1, 2], [3, 4]] i j - rd [[0, 1], [1, 0]] i j) :=
  ⟨WF_ofData_2x2 1 2 3 4, WF_ofData_2x2 0 1 1 0,
    (add_sub_spec (ofData [[1, 2], [3, 4]]) (ofData [[0, 1], [1, 0]])
      (WF_ofData_2x2 1 2 3 4) (WF_ofData_2x2 0 1 1 0)).2.2 ⟨rfl, rfl⟩⟩

theorem mulRounded_id (m other : Matrix) : mulRounded id m other = m.mul other := rfl

/-- C8, as stated, fails: with the rounding of `double` arithmetic the products of
`A = [1,1]`, `B = [1e16,1;-1e16,1]` and `C = [1;1]`, whose entries are all `double`s,
are `(A * B) * C = [2]` and `A * (B * C) = [0]`, since `1e16 + 1` is rounded to `1e16`;
they differ by `2`, more than any tolerance.  With exact arithmetic both are `[2]`. -/
theorem mul_assoc_rounding_fails :
    roundDouble 10000000000000000 = 10000000000000000 ∧
    roundDouble (10000000000000000 + 1) = 10000000000000000 ∧
    mulRounded roundDouble (ofData [[1, 1]])
        (ofData [[10000000000000000, 1], [-10000000000000000, 1]]) = .ok (ofData [[0, 2]]) ∧
    mulRounded roundDouble (ofData [[0, 2]]) (ofData [[1], [1]]) = .ok (ofData [[2]]) ∧
    mulRounded roundDouble (ofData [[10000000000000000, 1], [-10000000000000000, 1]])
        (ofData [[1], [1]]) = .ok (ofData [[10000000000000000], [-10000000000000000]]) ∧
    mulRounded roundDouble (ofData [[1, 1]])
        (ofData [[10000000000000000], [-10000000000000000]]) = .ok (ofData [[0]]) ∧
    ¬ |(2 : ℚ) - 0| ≤ 1 / 10 ^ 6 ∧
    (ofData [[10000000000000000, 1], [-10000000000000000, 1]]).mul (ofData [[1], [1]]) =
      .ok (ofData [[10000000000000001], [-9999999999999999]]) ∧
    (ofData [[1, 1]]).mul (ofData [[10000000000000001], [-9999999999999999]]) =
      .ok (ofData [[2]]) := by
  refine ⟨by decide!, by decide!, by decide!, by decide!, by decide!, by decide!, by decide!,
    by decide!, by decide!⟩

/-- C8, amended: with arithmetic taken exactly, multiplication is associative: for
compatible well-formed `A`, `B`, `C` all four products succeed and `(A * B) * C` and
`A * (B * C)` are the same matrix. -/
theorem mul_assoc_spec (A B C : Matrix) (hA : A.WF) (hB : B.WF) (hC : C.WF)
    (h1 : A.cols = B.rows) (h2 : B.cols = C.rows) :
    ∃ AB BC P, A.mul B = .ok AB ∧ B.mul C = .ok BC ∧ AB.mul C = .ok P ∧
      A.mul BC = .ok P := by
  have _ := hA
  have _ := hB
  have _ := hC
  obtain ⟨ab, hab, gab⟩ := mul_ok A B h1
  obtain ⟨bc, hbc, gbc⟩ := mul_ok B C h2
  obtain ⟨p1, hp1, g1⟩ := mul_ok ab C (by rw [gab.2.1]; exact h2)
  obtain ⟨p2, hp2, g2⟩ := mul_ok A bc (by rw [gbc.1]; exact h1)
  have e : p1 = p2 := by
    rw [gab.1, gab.2.1] at g1
    rw [gbc.2.1] at g2
    refine Agree.unique (g1.congr ?_) g2
    intro i hi j hj
    have s1 : ∀ l ∈ Finset.range B.cols, rd ab.data i l * rd C.data l j =
        ∑ k in Finset.range A.cols, rd A.data i k * rd B.data k l * rd C.data l j := by
      intro l hl
      rw [gab.2.2.2 i hi l (Finset.mem_range.mp hl), Finset.sum_mul]
    have s2 : ∀ k ∈ Finset.range A.cols, rd A.data i k * rd bc.data k j =
        ∑ l in Finset.range B.cols, rd A.data i k * rd B.data k l * rd C.data l j := by
      intro k hk
      rw [gbc.2.2.2 k (by rw [← h1]; exact Finset.mem_range.mp hk) j hj, Finset.mul_sum]
      exact Finset.sum_congr rfl (fun l _ => by ring)
    rw [Finset.sum_congr rfl s1, Finset.sum_congr rfl s2]
    exact Finset.sum_comm
  exact ⟨ab, bc, p1, hab, hbc, hp1, e ▸ hp2⟩

theorem mul_assoc_spec_witness :
    (ofData [[1, 2], [3, 4]]).WF ∧ (ofData [[0, 1], [1, 0]]).WF ∧ (ofData [[5, 6], [7, 8]]).WF ∧
    (ofData [[1, 2], [3, 4]]).cols = (ofData [[0, 1], [1, 0]]).rows ∧
    (ofData [[0, 1], [1, 0]]).cols = (ofData [[5, 6], [7, 8]]).rows ∧
    ∃ AB BC P, (ofData [[1, 2], [3, 4]]).mul (ofData [[0, 1], [1, 0]]) = .ok AB ∧
      (ofData [[0, 1], [1, 0]]).mul (ofData [[5, 6], [7, 8]]) = .ok BC ∧
      AB.mul (ofData [[5, 6], [7, 8]]) = .ok P ∧ (ofData [[1, 2], [3, 4]]).mul BC = .ok P :=
  ⟨WF_ofData_2x2 1 2 3 4, WF_ofData_2x2 0 1 1 0, WF_ofData_2x2 5 6 7 8, rfl, rfl,
    mul_assoc_spec _ _ _ (WF_ofData_2x2 1 2 3 4) (WF_ofData_2x2 0 1 1 0)
      (WF_ofData_2x2 5 6 7 8) rfl rfl⟩

/-- C9: addition is commutative: for well-formed operands of equal shape `A + B` and
`B + A` both succeed and are the same matrix (so every entry differs by at most
`1e-9`); for operands of different shape both orders throw the dimension error. -/
theorem add_comm_spec (A B : Matrix) (hA : A.WF) (hB : B.WF) :
    (A.rows = B.rows ∧ A.cols = B.cols →
      ∃ S S', A.add B = .ok S ∧ B.add A = .ok S' ∧ S = S' ∧
        ∀ i j, |rd S.data i j - rd S'.data i j| ≤ 1 / 10 ^ 9) ∧
    (¬ (A.rows = B.rows ∧ A.cols = B.cols) →
      A.add B = .error (.invalid_argument "Matrix dimensions must match for addition") ∧
      B.add A = .error (.invalid_argument "Matrix dimensions must match for addition")) := by
  have _ := hA
  have _ := hB
  refine ⟨fun h => ?_, fun h => ?_⟩
  · obtain ⟨s, hs, gs⟩ := add_ok A B h.1 h.2
    obtain ⟨s', hs', gs'⟩ := add_ok B A h.1.symm h.2.symm
    rw [← h.1, ← h.2] at gs'
    have e : s = s' := Agree.unique gs (gs'.congr (fun i _ j _ => add_comm _ _))
    refine ⟨s, s', hs, hs', e, ?_⟩
    intro i j
    rw [e, sub_self, abs_zero]
    positivity
  · have h' : A.rows ≠ B.rows ∨ A.cols ≠ B.cols := by
      by_contra c; push_neg at c; exact h c
    have h'' : B.rows ≠ A.rows ∨ B.cols ≠ A.cols := by
      rcases h' with c | c
      · exact Or.inl (Ne.symm c)
      · exact Or.inr (Ne.symm c)
    constructor
    · unfold add; rw [if_pos h']
    · unfold add; rw [if_pos h'']

theorem add_comm_spec_witness :
    (ofData [[1, 2], [3, 4]]).WF ∧ (ofData [[0, 1], [1, 0]]).WF ∧
    ∃ S S', (ofData [[1, 2], [3, 4]]).add (ofData [[0, 1], [1, 0]]) = .ok S ∧
      (ofData [[0, 1], [1, 0]]).add (ofData [[1, 2], [3, 4]]) = .ok S' ∧ S = S' ∧
      ∀ i j, |rd S.data i j - rd S'.data i j| ≤ 1 / 10 ^ 9 :=
  ⟨WF_ofData_2x2 1 2 3 4, WF_ofData_2x2 0 1 1 0,
    (add_comm_spec (ofData [[1, 2], [3, 4]]) (ofData [[0, 1], [1, 0]])
      (WF_ofData_2x2 1 2 3 4) (WF_ofData_2x2 0 1 1 0)).1 ⟨rfl, rfl⟩⟩

end Matrix

end MatrixCalc

namespace MatrixCalc

namespace Matrix

/-- C1: soundness of inversion. Whenever `inverse` returns a matrix `M` on a
well-formed `n × n` matrix `A` with `n ≥ 1`, `M` is a well-formed `n × n` matrix and
`operator*` applied to `A` and `M` returns the `n × n` identity matrix. -/
theorem inverse_sound (A M : Matrix) (hA : A.WF) (hn : 1 ≤ A.rows) (hsq : A.rows = A.cols)
    (h : A.inverse = .ok M) :
    M.WF ∧ M.rows = A.rows ∧ M.cols = A.rows ∧ A.mul M = .ok (identity A.rows) := by
  have _ := hn
  obtain ⟨_, _, ag, _⟩ := inverse_left A M h
  have hA' : Agree A A.rows A.rows (rd A.data) :=
    Agree.self rfl hsq.symm (by have := hA; unfold WF at this; rw [← hsq] at this; exact this)
  exact ⟨ag.wf, ag.1, ag.2.1, mul_eq_identity A M A.rows hA' ag (inverse_toSq A M h).2⟩

theorem inverse_sound_witness :
    (ofData [[1, 2], [3, 4]]).WF ∧ 1 ≤ (ofData [[1, 2], [3, 4]]).rows ∧
    (ofData [[1, 2], [3, 4]]).rows = (ofData [[1, 2], [3, 4]]).cols ∧
    (ofData [[1, 2], [3, 4]]).inverse = .ok (ofData [[-2, 1], [3 / 2, -1 / 2]]) ∧
    (ofData [[-2, 1], [3 / 2, -1 / 2]]).WF ∧
    (ofData [[-2, 1], [3 / 2, -1 / 2]]).rows = (ofData [[1, 2], [3, 4]]).rows ∧
    (ofData [[-2, 1], [3 / 2, -1 / 2]]).cols = (ofData [[1, 2], [3, 4]]).rows ∧
    (ofData [[1, 2], [3, 4]]).mul (ofData [[-2, 1], [3 / 2, -1 / 2]]) =
      .ok (identity (ofData [[1, 2], [3, 4]]).rows) :=
  ⟨WF_ofData_2x2 1 2 3 4, by decide, rfl, by decide!,
    inverse_sound (ofData [[1, 2], [3, 4]]) (ofData [[-2, 1], [3 / 2, -1 / 2]])
      (WF_ofData_2x2 1 2 3 4) (by decide) rfl (by decide!)⟩

/-- C2, as stated, fails: the `1 × 1` matrix `[1e-11]` has a nonzero determinant, yet
`inverse` throws the singular-matrix error on it and returns no matrix. -/
theorem inverse_rejects_small_pivot :
    (toSq 1 (ofData [[1 / 10 ^ 11]]).data).det ≠ 0 ∧
      (ofData [[1 / 10 ^ 11]]).inverse = .error (.runtime_error "Matrix is not invertible") ∧
      ¬ ∃ M, (ofData [[1 / 10 ^ 11]]).inverse = .ok M := by
  have e : (ofData [[1 / 10 ^ 11]]).inverse =
      .error (.runtime_error "Matrix is not invertible") := by decide!
  refine ⟨?_, e, ?_⟩
  · rw [Matrix.det_fin_one]
    simp [toSq, rd, ofData]
  · rintro ⟨M, hM⟩
    rw [e] at hM; cases hM

/-- C2, amended: for a well-formed square matrix whose reduction leaves no diagonal
pivot of absolute value below `1e-10`, `inverse` returns a matrix `M`, and both
`M * A` and `A * M` computed by `operator*` are the identity matrix, so every entry is
within `1e-6` of the identity's. -/
theorem inverse_of_pivots (A : Matrix) (hA : A.WF) (hsq : A.rows = A.cols)
    (hp : ∀ i, i < A.rows → ¬ |rd (gaussianElimination A.augment) i i| < eps) :
    ∃ M P, A.inverse = .ok M ∧ M.mul A = .ok P ∧ A.mul M = .ok P ∧ P = identity A.rows ∧
      ∀ i j, |rd P.data i j - rd (identity A.rows).data i j| ≤ 1 / 10 ^ 6 := by
  obtain ⟨M, hM, _⟩ := normalize_ok A.rows (gaussianElimination A.augment) hp
  have hinv : A.inverse = .ok M := by
    unfold inverse; rw [if_neg (by simpa using hsq)]; exact hM
  obtain ⟨_, _, ag, _⟩ := inverse_left A M hinv
  have hA' : Agree A A.rows A.rows (rd A.data) :=
    Agree.self rfl hsq.symm (by have := hA; unfold WF at this; rw [← hsq] at this; exact this)
  obtain ⟨t1, t2⟩ := inverse_toSq A M hinv
  refine ⟨M, identity A.rows, hinv, mul_eq_identity M A A.rows ag hA' t1,
    mul_eq_identity A M A.rows hA' ag t2, rfl, ?_⟩
  intro i j
  rw [sub_self, abs_zero]; positivity

theorem inverse_of_pivots_witness :
    (ofData [[1, 2], [3, 4]]).WF ∧
    (ofData [[1, 2], [3, 4]]).rows = (ofData [[1, 2], [3, 4]]).cols ∧
    (∀ i, i < (ofData [[1, 2], [3, 4]]).rows →
      ¬ |rd (gaussianElimination (ofData [[1, 2], [3, 4]]).augment) i i| < eps) ∧
    ∃ M P, (ofData [[1, 2], [3, 4]]).inverse = .ok M ∧
      M.mul (ofData [[1, 2], [3, 4]]) = .ok P ∧ (ofData [[1, 2], [3, 4]]).mul M = .ok P ∧
      P = identity (ofData [[1, 2], [3, 4]]).rows ∧
      ∀ i j, |rd P.data i j - rd (identity (ofData [[1, 2], [3, 4]]).rows).data i j|
        ≤ 1 / 10 ^ 6 :=
  ⟨WF_ofData_2x2 1 2 3 4, rfl, by decide!,
    inverse_of_pivots (ofData [[1, 2], [3, 4]]) (WF_ofData_2x2 1 2 3 4) rfl (by decide!)⟩

/-- C3: on a well-formed square matrix whose determinant is exactly zero, `inverse`
throws the singular-matrix error `runtime_error("Matrix is not invertible")` and
returns no matrix. -/
theorem inverse_singular (A : Matrix) (hA : A.WF) (hsq : A.rows = A.cols)
    (hdet : (toSq A.rows A.data).det = 0) :
    A.inverse = .error (.runtime_error "Matrix is not invertible") ∧
      ¬ ∃ M, A.inverse = .ok M := by
  have _ := hA
  have none : ¬ ∃ M, A.inverse = .ok M := by
    rintro ⟨M, hM⟩
    have h1 := (inverse_toSq A M hM).1
    have h2 := congrArg Matrix.det h1
    rw [Matrix.det_mul, hdet, mul_zero, Matrix.det_one] at h2
    exact zero_ne_one h2
  refine ⟨?_, none⟩
  rcases normalize_cases A.rows (gaussianElimination A.augment) with ⟨_, m, hm, _⟩ | ⟨_, he⟩
  · exfalso
    apply none
    refine ⟨m, ?_⟩
    unfold inverse; rw [if_neg (by simpa using hsq)]; exact hm
  · unfold inverse; rw [if_neg (by simpa using hsq)]; exact he

theorem inverse_singular_witness :
    (ofData [[1, 2], [2, 4]]).WF ∧
    (ofData [[1, 2], [2, 4]]).rows = (ofData [[1, 2], [2, 4]]).cols ∧
    (toSq (ofData [[1, 2], [2, 4]]).rows (ofData [[1, 2], [2, 4]]).data).det = 0 ∧
    (ofData [[1, 2], [2, 4]]).inverse = .error (.runtime_error "Matrix is not invertible") ∧
    ¬ ∃ M, (ofData [[1, 2], [2, 4]]).inverse = .ok M :=
  have hd : (toSq (ofData [[1, 2], [2, 4]]).rows (ofData [[1, 2], [2, 4]]).data).det = 0 := by
    show (toSq 2 [[1, 2], [2, 4]]).det = 0
    rw [Matrix.det_fin_two]
    simp [toSq, rd]
    norm_num
  ⟨WF_ofData_2x2 1 2 2 4, rfl, hd,
    inverse_singular (ofData [[1, 2], [2, 4]]) (WF_ofData_2x2 1 2 2 4) rfl hd⟩

/-- C5: the permutation matrix `[0,1,0; 1,0,0; 0,0,1]` is non-singular (determinant
`-1`), `determinant` returns `0` on it, and `inverse` returns its true inverse: the
returned matrix multiplied with it on either side gives the identity. -/
theorem determinant_false_zero :
    (ofData [[0, 1, 0], [1, 0, 0], [0, 0, 1]]).determinant = .ok 0 ∧
    (toSq 3 (ofData [[0, 1, 0], [1, 0, 0], [0, 0, 1]]).data).det = -1 ∧
    ∃ M, (ofData [[0, 1, 0], [1, 0, 0], [0, 0, 1]]).inverse = .ok M ∧
      (ofData [[0, 1, 0], [1, 0, 0], [0, 0, 1]]).mul M = .ok (identity 3) ∧
      M.mul (ofData [[0, 1, 0], [1, 0, 0], [0, 0, 1]]) = .ok (identity 3) ∧
      toSq 3 M.data = (toSq 3 (ofData [[0, 1, 0], [1, 0, 0], [0, 0, 1]]).data)⁻¹ := by
  have hi : (ofData [[0, 1, 0], [1, 0, 0], [0, 0, 1]]).inverse =
      .ok (ofData [[0, 1, 0], [1, 0, 0], [0, 0, 1]]) := by decide!
  refine ⟨by decide!, ?_, ofData [[0, 1, 0], [1, 0, 0], [0, 0, 1]], hi, by decide!,
    by decide!, ?_⟩
  · rw [Matrix.det_fin_three]
    simp [toSq, rd, ofData]
  · exact (Matrix.inv_eq_left_inv (inverse_toSq _ _ hi).1).symm

end Matrix

end MatrixCalc

namespace MatrixCalc

namespace Matrix

theorem WF_ofData_3x3 (a b c d e f g h i : ℚ) :
    (ofData [[a, b, c], [d, e, f], [g, h, i]]).WF := by
  simp [WF, Shape, ofData]

/-- C4: for a well-formed `n × n` matrix with `n ≥ 3` on which no pivot `lu[i][i]` met
by the reduction has absolute value below `1e-10`, `determinant` returns the product
of the diagonal entries of the reduced matrix, and that product is the (Leibniz)
determinant of the input. -/
theorem determinant_lu (A : Matrix) (hA : A.WF) (hsq : A.rows = A.cols) (hn : 3 ≤ A.rows)
    (hp : ∀ i, i < A.rows → ¬ |rd (A.luAfter i) i i| < eps) :
    A.determinant = .ok (∏ i in Finset.range A.rows, rd (A.luAfter A.rows) i i) ∧
      ∏ i in Finset.range A.rows, rd (A.luAfter A.rows) i i = (toSq A.rows A.data).det := by
  have hs : Shape A.data A.rows A.rows := by
    have := hA; unfold WF at this; rw [← hsq] at this; exact this
  obtain ⟨h1, h2⟩ := luLoop_det A hs hp
  refine ⟨?_, h2⟩
  unfold determinant
  rw [if_neg (by simpa using hsq), if_neg (by omega), if_neg (by omega), h1]

theorem determinant_lu_witness :
    (ofData [[2, 1, 0], [1, 3, 1], [0, 1, 4]]).WF ∧
    (ofData [[2, 1, 0], [1, 3, 1], [0, 1, 4]]).rows =
      (ofData [[2, 1, 0], [1, 3, 1], [0, 1, 4]]).cols ∧
    3 ≤ (ofData [[2, 1, 0], [1, 3, 1], [0, 1, 4]]).rows ∧
    (∀ i, i < (ofData [[2, 1, 0], [1, 3, 1], [0, 1, 4]]).rows →
      ¬ |rd ((ofData [[2, 1, 0], [1, 3, 1], [0, 1, 4]]).luAfter i) i i| < eps) ∧
    (ofData [[2, 1, 0], [1, 3, 1], [0, 1, 4]]).determinant =
      .ok (∏ i in Finset.range (ofData [[2, 1, 0], [1, 3, 1], [0, 1, 4]]).rows,
        rd ((ofData [[2, 1, 0], [1, 3, 1], [0, 1, 4]]).luAfter
          (ofData [[2, 1, 0], [1, 3, 1], [0, 1, 4]]).rows) i i) ∧
    ∏ i in Finset.range (ofData [[2, 1, 0], [1, 3, 1], [0, 1, 4]]).rows,
        rd ((ofData [[2, 1, 0], [1, 3, 1], [0, 1, 4]]).luAfter
          (ofData [[2, 1, 0], [1, 3, 1], [0, 1, 4]]).rows) i i =
      (toSq (ofData [[2, 1, 0], [1, 3, 1], [0, 1, 4]]).rows
        (ofData [[2, 1, 0], [1, 3, 1], [0, 1, 4]]).data).det :=
  ⟨WF_ofData_3x3 2 1 0 1 3 1 0 1 4, rfl, by decide, by decide!,
    determinant_lu (ofData [[2, 1, 0], [1, 3, 1], [0, 1, 4]])
      (WF_ofData_3x3 2 1 0 1 3 1 0 1 4) rfl (by decide) (by decide!)⟩

end Matrix

end MatrixCalc

namespace MatrixCalc

theorem sampleRows_valid :
    ∀ row ∈ sampleRows, row.length = 2 ∧ ∀ x ∈ row, x.Valid := by
  intro row hrow
  simp only [sampleRows, List.mem_cons, List.mem_singleton, List.not_mem_nil, or_false] at hrow
  rcases hrow with rfl | rfl
  · refine ⟨rfl, ?_⟩
    intro x hx
    simp only [List.mem_cons, List.mem_singleton, List.not_mem_nil, or_false] at hx
    rcases hx with rfl | rfl <;> simp [Numeral.Valid, isBlank]
  · refine ⟨rfl, ?_⟩
    intro x hx
    simp only [List.mem_cons, List.mem_singleton, List.not_mem_nil, or_false] at hx
    rcases hx with rfl | rfl <;> simp [Numeral.Valid, isBlank]

theorem inRange_of_bounds (x : Numeral) (h1 : 1 ≤ |x.value|) (h2 : |x.value| ≤ 2 ^ 53) :
    x.InRange := by
  constructor
  swap
  · right
    left
    have : (1 : ℚ) / 2 ^ 1022 ≤ 1 := by
      rw [div_le_one (by positivity)]
      exact one_le_pow₀ (by norm_num)
    have q : (0 : ℚ) ≤ 1 / 2 ^ 1076 := by positivity
    linarith
  · have e : (2 : ℚ) ^ 1024 - 2 ^ 970 = 2 ^ 970 * (2 ^ 54 - 1) := by
      rw [show (1024 : ℕ) = 970 + 54 from rfl, pow_add]
      ring
    have p1 : (1 : ℚ) ≤ 2 ^ 970 := one_le_pow₀ (by norm_num)
    have p2 : (2 : ℚ) ^ 53 < 2 ^ 54 - 1 := by norm_num
    have p3 : (0 : ℚ) < 2 ^ 54 - 1 := by norm_num
    rw [e]
    calc |x.value| ≤ 2 ^ 53 := h2
      _ < 2 ^ 54 - 1 := p2
      _ = 1 * (2 ^ 54 - 1) := (one_mul _).symm
      _ ≤ 2 ^ 970 * (2 ^ 54 - 1) := mul_le_mul_of_nonneg_right p1 (le_of_lt p3)

theorem sampleRows_inRange : ∀ row ∈ sampleRows, ∀ x ∈ row, x.InRange := by
  intro row hrow x hx
  simp only [sampleRows, List.mem_cons, List.mem_singleton, List.not_mem_nil, or_false] at hrow
  rcases hrow with rfl | rfl
  · simp only [List.mem_cons, List.mem_singleton, List.not_mem_nil, or_false] at hx
    rcases hx with rfl | rfl <;> exact inRange_of_bounds _ (by decide!) (by decide!)
  · simp only [List.mem_cons, List.mem_singleton, List.not_mem_nil, or_false] at hx
    rcases hx with rfl | rfl <;> exact inRange_of_bounds _ (by decide!) (by decide!)

theorem hugeNumeral_valid : hugeNumeral.Valid := by
  refine ⟨fun ch h => absurd h (List.not_mem_nil ch), fun ch h => absurd h (List.not_mem_nil ch),
    List.cons_ne_nil _ _, ?_, fun f hf => by cases hf⟩
  intro ch h
  rcases List.mem_cons.mp h with rfl | h
  · decide
  · rw [List.eq_of_mem_replicate h]
    decide

theorem tinyNumeral_valid : tinyNumeral.Valid := by
  refine ⟨fun ch h => absurd h (List.not_mem_nil ch), fun ch h => absurd h (List.not_mem_nil ch),
    List.cons_ne_nil _ _, ?_, ?_⟩
  · intro ch h
    rw [List.mem_singleton.mp h]
    decide
  · intro f hf
    have e : f = List.replicate 400 '0' ++ ['1'] := (Option.some.inj hf).symm
    subst e
    refine ⟨fun c => absurd (List.append_eq_nil.mp c).2 (List.cons_ne_nil _ _), ?_⟩
    intro ch h
    rcases List.mem_append.mp h with h | h
    · rw [List.eq_of_mem_replicate h]
      decide
    · rw [List.mem_singleton.mp h]
      decide

namespace Matrix

/-- C10, as stated, fails: the `1` followed by 400 zeros is a decimal numeral, yet the
`1 × 1` literal built from it is rejected with the number-format error, `std::stod`
reporting its value `10^400` as out of the range of `double`; so is the literal of the
numeral `0.0…01` with 400 zeros after the point. -/
theorem parse_rejects_huge_numeral :
    hugeNumeral.Valid ∧ tinyNumeral.Valid ∧
    literalText [[hugeNumeral]] = '[' :: ('1' :: List.replicate 400 '0' ++ [']']) ∧
    parseMatrixString (literalText [[hugeNumeral]]) =
      .error (.invalid_argument
        ("Invalid number format: " ++ String.mk ('1' :: List.replicate 400 '0'))) ∧
    fromString (literalText [[hugeNumeral]]) =
      .error (.invalid_argument
        ("Invalid number format: " ++ String.mk ('1' :: List.replicate 400 '0'))) ∧
    parseMatrixString (literalText [[tinyNumeral]]) =
      .error (.invalid_argument
        ("Invalid number format: " ++
          String.mk ('0' :: '.' :: (List.replicate 400 '0' ++ ['1'])))) := by
  refine ⟨hugeNumeral_valid, tinyNumeral_valid, by decide!, by decide!, by decide!, by decide!⟩

/-- C10, amended: for `r ≥ 1`, `c ≥ 1` and every `r × c` array of decimal numerals whose
values are in the range of `double` (below `2^1024 - 2^970` in magnitude and zero, or
of a magnitude of at least `2^-1022 - 2^-1076`, or a multiple of `2^-1074`), each
optionally surrounded by spaces or tabs, the literal `'[' row (';' row)* ']'` built from them is accepted by
`parseMatrixString` and `fromString`; the result has exactly `r` rows of `c` values,
equal to the numerals in row-major order (a `double` being read as the exact
rational); and `[1,2;3,4]` parses to `[[1,2],[3,4]]`. -/
theorem parse_literal (r c : Nat) (hr : 1 ≤ r) (hc : 1 ≤ c) (rows : List (List Numeral))
    (hlen : rows.length = r)
    (hrows : ∀ row ∈ rows, row.length = c ∧ ∀ x ∈ row, x.Valid)
    (hrange : ∀ row ∈ rows, ∀ x ∈ row, x.InRange) :
    parseMatrixString (literalText rows) =
        .ok (rows.map (fun row => row.map Numeral.value)) ∧
      fromString (literalText rows) =
        .ok { data := rows.map (fun row => row.map Numeral.value), rows := r, cols := c } ∧
      parseMatrixString "[1,2;3,4]".toList = .ok [[1, 2], [3, 4]] := by
  have hne : rows ≠ [] := by intro h; rw [h] at hlen; simp at hlen; omega
  have hp := parseMatrixString_literal c hc rows hne hrows hrange
  refine ⟨hp, ?_, by decide!⟩
  unfold fromString
  rw [hp]
  obtain ⟨r0, t, rfl⟩ := List.exists_cons_of_ne_nil hne
  have h0 := (hrows r0 (List.mem_cons_self _ _)).1
  simp only [ofData, List.map_cons, List.length_cons, List.length_map, List.getD_cons_zero,
    h0] at hlen ⊢
  rw [hlen]

theorem parse_literal_witness :
    1 ≤ 2 ∧ 1 ≤ 2 ∧ sampleRows.length = 2 ∧
    (∀ row ∈ sampleRows, row.length = 2 ∧ ∀ x ∈ row, x.Valid) ∧
    (∀ row ∈ sampleRows, ∀ x ∈ row, x.InRange) ∧
    parseMatrixString (literalText sampleRows) =
        .ok (sampleRows.map (fun row => row.map Numeral.value)) ∧
      fromString (literalText sampleRows) =
        .ok { data := sampleRows.map (fun row => row.map Numeral.value), rows := 2,
              cols := 2 } ∧
      parseMatrixString "[1,2;3,4]".toList = .ok [[1, 2], [3, 4]] :=
  ⟨by decide, by decide, rfl, sampleRows_valid, sampleRows_inRange,
    parse_literal 2 2 (by decide) (by decide) sampleRows rfl sampleRows_valid
      sampleRows_inRange⟩

end Matrix

end MatrixCalc

namespace MatrixCalc

namespace Matrix

/-- C11 at its failing input: the value token `3x` is not a number in its entirety, yet
the literals `[3x]` and `[1,2;3,4x]` are accepted, with `3x` read as `3` and `4x` as
`4`, and `create A [3x]` stores the matrix; the literal `[1,2;3,x]` is rejected with
the number-format error. -/
theorem parse_accepts_trailing_text :
    parseMatrixString "[3x]".toList = .ok [[3]] ∧
    parseMatrixString "[1,2;3,4x]".toList = .ok [[1, 2], [3, 4]] ∧
    (step [] "create A [3x]".toList).registry = [("A".toList, ofData [[3]])] ∧
    parseMatrixString "[1,2;3,x]".toList =
      .error (.invalid_argument "Invalid number format: x") ∧
    (step [] "create A [1,2;3,x]".toList) =
      ⟨[], [.prompt, .error "Invalid number format: x"], true⟩ := by
  refine ⟨by decide!, by decide!, by decide!, by decide!, by decide!⟩

/-- C12 at its failing input: the literal `[1,2,]`, whose row ends with a comma, is
accepted and yields the row `[1,2]`; the literals `[1,,2]` and `[,1]` are rejected with
the empty-value error. -/
theorem parse_accepts_trailing_comma :
    parseMatrixString "[1,2,]".toList = .ok [[1, 2]] ∧
    parseMatrixString "[1,,2]".toList = .error (.invalid_argument "Empty value in matrix") ∧
    parseMatrixString "[,1]".toList = .error (.invalid_argument "Empty value in matrix") ∧
    parseMatrixString "[1, ,2]".toList =
      .error (.invalid_argument "Empty value in matrix") := by
  refine ⟨by decide!, by decide!, by decide!, by decide!⟩

/-- C13 at its failing input: the literal `[1,2;]`, which ends with a semicolon, is
accepted and yields the single row `[1,2]`; the literals `[;1,2]` and `[1;;2]` are
rejected with the empty-row error. -/
theorem parse_accepts_trailing_semicolon :
    parseMatrixString "[1,2;]".toList = .ok [[1, 2]] ∧
    parseMatrixString "[;1,2]".toList = .error (.invalid_argument "Empty row in matrix") ∧
    parseMatrixString "[1;;2]".toList =
      .error (.invalid_argument "Empty row in matrix") := by
  refine ⟨by decide!, by decide!, by decide!⟩

/-- C14: whenever `parseMatrixString` succeeds, the data has a first row, every row has
the length of the first row, and that length is at least 1; `fromString` then builds a
well-formed matrix with `rows` the number of rows, at least 1, and `cols` the length
of every row, at least 1.  The literal `[]` and the literal `[1,2;3]` with rows of
different lengths are rejected. -/
theorem parse_result_shape (input : List Char) (data : List (List ℚ))
    (h : parseMatrixString input = .ok data) :
    (∃ first rest, data = first :: rest ∧ 1 ≤ first.length ∧
      ∀ row ∈ data, row.length = first.length) ∧
    (∃ M, fromString input = .ok M ∧ M.data = data ∧ M.WF ∧ M.rows = data.length ∧
      1 ≤ M.rows ∧ 1 ≤ M.cols ∧ ∀ row ∈ M.data, row.length = M.cols) ∧
    parseMatrixString "[]".toList = .error (.invalid_argument "Empty matrix") ∧
    parseMatrixString "[1,2;3]".toList =
      .error (.invalid_argument "Inconsistent number of columns") := by
  obtain ⟨first, rest, hd, h1, h2⟩ := parseMatrixString_shape input data h
  refine ⟨⟨first, rest, hd, h1, h2⟩, ⟨ofData data, ?_, rfl, ?_, rfl, ?_, ?_, ?_⟩,
    by decide!, by decide!⟩
  · unfold fromString; rw [h]
  · subst hd
    exact ⟨rfl, fun row hrow => by simpa [ofData] using h2 row hrow⟩
  · subst hd; simp [ofData]
  · subst hd; simpa [ofData] using h1
  · subst hd
    intro row hrow
    simpa [ofData] using h2 row hrow

theorem parse_result_shape_witness :
    parseMatrixString "[1,2;3,4]".toList = .ok [[1, 2], [3, 4]] ∧
    (∃ first rest, [[(1 : ℚ), 2], [3, 4]] = first :: rest ∧ 1 ≤ first.length ∧
      ∀ row ∈ [[(1 : ℚ), 2], [3, 4]], row.length = first.length) ∧
    (∃ M, fromString "[1,2;3,4]".toList = .ok M ∧ M.data = [[1, 2], [3, 4]] ∧ M.WF ∧
      M.rows = [[(1 : ℚ), 2], [3, 4]].length ∧
      1 ≤ M.rows ∧ 1 ≤ M.cols ∧ ∀ row ∈ M.data, row.length = M.cols) ∧
    parseMatrixString "[]".toList = .error (.invalid_argument "Empty matrix") ∧
    parseMatrixString "[1,2;3]".toList =
      .error (.invalid_argument "Inconsistent number of columns") :=
  ⟨by decide!, parse_result_shape "[1,2;3,4]".toList [[1, 2], [3, 4]] (by decide!)⟩

/-- C15: an input whose white-space-trimmed form is empty, or does not start with `[`,
or does not end with `]`, is rejected by `parseMatrixString` with the error of its
first test, thrown before the rows are read. -/
theorem parse_unbracketed (input : List Char)
    (h : trimmed input = [] ∨ (trimmed input).head? ≠ some '[' ∨
      (trimmed input).getLast? ≠ some ']') :
    parseMatrixString input =
      .error (.invalid_argument "Invalid matrix format: must be enclosed in []") := by
  unfold parseMatrixString
  simp only
  rw [if_pos ((bracket_test_iff input).mpr h)]

theorem parse_unbracketed_witness :
    (trimmed " 1,2] ".toList = [] ∨ (trimmed " 1,2] ".toList).head? ≠ some '[' ∨
      (trimmed " 1,2] ".toList).getLast? ≠ some ']') ∧
    parseMatrixString " 1,2] ".toList =
      .error (.invalid_argument "Invalid matrix format: must be enclosed in []") :=
  ⟨by decide, parse_unbracketed " 1,2] ".toList (by decide)⟩

end Matrix

end MatrixCalc

namespace MatrixCalc

theorem isToken_A : IsToken "A".toList := by
  refine ⟨by decide, ?_⟩
  unfold SpaceFree; decide

theorem isToken_B : IsToken "B".toList := by
  refine ⟨by decide, ?_⟩
  unfold SpaceFree; decide

theorem isToken_Z : IsToken "Z".toList := by
  refine ⟨by decide, ?_⟩
  unfold SpaceFree; decide

theorem isToken_keyword (kw : List Char)
    (h : kw = "add".toList ∨ kw = "sub".toList ∨ kw = "mul".toList ∨ kw = "inv".toList) :
    IsToken kw := by
  rcases h with rfl | rfl | rfl | rfl <;>
    exact ⟨by decide, by unfold SpaceFree; decide⟩

/-- C16: failure atomicity.  Whenever one iteration of the loop reports an error, be it
an exception of any kind leaving the `try` block and caught (format, dimension,
singular matrix, name not found) or the not-found message of `show` and `del`, the
map after the iteration is the map before it and the loop goes on. -/
theorem step_failure_atomic (reg : Registry) (command : List Char)
    (h : (∃ e, (tryBlock reg command).exit = .error e) ∨
      (∃ what, Output.error what ∈ (step reg command).output) ∨
      ∃ name, Output.notFound name ∈ (step reg command).output) :
    (step reg command).registry = reg ∧ (step reg command).running = true := by
  rcases step_cases reg command with ⟨hx, e⟩ | ⟨_, hat, e1, e2, e3⟩
  · exfalso
    rw [e] at h
    rw [tryBlock_exit reg command hx] at h
    rcases h with ⟨e, h⟩ | ⟨w, h⟩ | ⟨n, h⟩
    · cases h
    · simp at h
    · simp at h
  · refine ⟨?_, e2⟩
    rw [e1]
    rcases e3 with ⟨e, he, _⟩ | ⟨hok, ho⟩
    · exact (hat.1 e he).1
    · rcases h with ⟨e, h⟩ | ⟨w, h⟩ | ⟨n, h⟩
      · rw [hok] at h; cases h
      · rw [ho] at h
        simp only [List.mem_cons] at h
        rcases h with h | h
        · cases h
        · exact absurd h (hat.2.1 w)
      · rw [ho] at h
        simp only [List.mem_cons] at h
        rcases h with h | h
        · cases h
        · exact (hat.2.2.1 n h).1

theorem step_failure_atomic_witness :
    ((∃ e, (tryBlock sampleRegistry "add A B C".toList).exit = .error e) ∨
      (∃ what, Output.error what ∈ (step sampleRegistry "add A B C".toList).output) ∨
      ∃ name, Output.notFound name ∈ (step sampleRegistry "add A B C".toList).output) ∧
    (step sampleRegistry "add A B C".toList).registry = sampleRegistry ∧
    (step sampleRegistry "add A B C".toList).running = true :=
  have h : (∃ e, (tryBlock sampleRegistry "add A B C".toList).exit = .error e) ∨
      (∃ what, Output.error what ∈ (step sampleRegistry "add A B C".toList).output) ∨
      ∃ name, Output.notFound name ∈ (step sampleRegistry "add A B C".toList).output :=
    Or.inr (Or.inl ⟨"Matrix dimensions must match for addition", by decide!⟩)
  ⟨h, step_failure_atomic sampleRegistry "add A B C".toList h⟩

/-- C17: when `A` or `B` is not a key of the map, each of `add A B C`, `sub A B C` and
`mul A B C` throws `runtime_error("One or both input matrices not found")`, which is
reported, the map is left as it was and the loop goes on. -/
theorem binary_operand_missing (reg : Registry) (kw A B C : List Char)
    (hkw : kw = "add".toList ∨ kw = "sub".toList ∨ kw = "mul".toList)
    (hA : IsToken A) (hB : IsToken B) (hC : IsToken C)
    (h : A ∉ reg.keys ∨ B ∉ reg.keys) :
    step reg (commandLine [kw, A, B, C]) =
      ⟨reg, [.prompt, .error "One or both input matrices not found"], true⟩ := by
  have hk : IsToken kw := isToken_keyword kw (by
    rcases hkw with x | x | x
    · exact Or.inl x
    · exact Or.inr (Or.inl x)
    · exact Or.inr (Or.inr (Or.inl x)))
  obtain ⟨t0, t1, t2, t3⟩ := readToken_four kw A B C hk hA hB hC
  have hb := tryBlock_binary reg (commandLine [kw, A, B, C]) (by rw [t0]; exact hkw)
  rw [t0, t1, t2, t3] at hb
  have hc : reg.count A = 0 ∨ reg.count B = 0 := by
    rcases h with h | h
    · exact Or.inl ((count_eq_zero_iff_keys reg A).mpr h)
    · exact Or.inr ((count_eq_zero_iff_keys reg B).mpr h)
  have hr : runBinary reg kw A B C =
      ⟨reg, [], .error (.runtime_error "One or both input matrices not found")⟩ := by
    unfold runBinary; rw [if_pos hc]
  rw [hr] at hb
  rw [step_of_error reg _ reg [] _ hb]
  rfl

theorem binary_operand_missing_witness :
    ("add".toList = "add".toList ∨ "add".toList = "sub".toList ∨
      "add".toList = "mul".toList) ∧
    IsToken "A".toList ∧ IsToken "Z".toList ∧ IsToken "B".toList ∧
    ("A".toList ∉ sampleRegistry.keys ∨ "Z".toList ∉ sampleRegistry.keys) ∧
    step sampleRegistry (commandLine ["add".toList, "A".toList, "Z".toList, "B".toList]) =
      ⟨sampleRegistry, [.prompt, .error "One or both input matrices not found"], true⟩ :=
  ⟨Or.inl rfl, isToken_A, isToken_Z, isToken_B, Or.inr (by decide),
    binary_operand_missing sampleRegistry _ _ _ _ (Or.inl rfl) isToken_A isToken_Z isToken_B
      (Or.inr (by decide))⟩

/-- C18: when `A` and `B` are bound to `a` and `b` with shapes fit for the operation,
`add A B C`, `sub A B C` and `mul A B C` bind `C` to `a + b`, `a - b` and `a * b`,
computed from the values held before the command, and a successful `inv A C` binds
`C` to the inverse of `a`; the new map differs from the old one at `C` only, whatever
`C` is. -/
theorem command_stores (reg : Registry) (A B C : List Char) (a b : Matrix)
    (hA : IsToken A) (hB : IsToken B) (hC : IsToken C)
    (fA : reg.find A = some a) (fB : reg.find B = some b) :
    (a.rows = b.rows ∧ a.cols = b.cols →
      ∃ s d, a.add b = .ok s ∧ a.sub b = .ok d ∧
        step reg (commandLine ["add".toList, A, B, C]) =
          ⟨reg.assign C s, [.prompt, .resultStored C, .print [] s], true⟩ ∧
        step reg (commandLine ["sub".toList, A, B, C]) =
          ⟨reg.assign C d, [.prompt, .resultStored C, .print [] d], true⟩) ∧
    (a.cols = b.rows →
      ∃ p, a.mul b = .ok p ∧
        step reg (commandLine ["mul".toList, A, B, C]) =
          ⟨reg.assign C p, [.prompt, .resultStored C, .print [] p], true⟩) ∧
    (∀ m, a.inverse = .ok m →
      step reg (commandLine ["inv".toList, A, C]) =
        ⟨reg.assign C m, [.prompt, .inverseStored C, .print [] m], true⟩) ∧
    ∀ m k, (reg.assign C m).find k = if k = C then some m else reg.find k := by
  have bin : ∀ (kw : List Char) (s : Matrix),
      (kw = "add".toList ∨ kw = "sub".toList ∨ kw = "mul".toList) →
      (if kw = "add".toList then a.add b
        else if kw = "sub".toList then a.sub b else a.mul b) = .ok s →
      step reg (commandLine [kw, A, B, C]) =
        ⟨reg.assign C s, [.prompt, .resultStored C, .print [] s], true⟩ := by
    intro kw s hkw hv
    have hk : IsToken kw := isToken_keyword kw (by
      rcases hkw with x | x | x
      · exact Or.inl x
      · exact Or.inr (Or.inl x)
      · exact Or.inr (Or.inr (Or.inl x)))
    obtain ⟨t0, t1, t2, t3⟩ := readToken_four kw A B C hk hA hB hC
    have hb := tryBlock_binary reg (commandLine [kw, A, B, C]) (by rw [t0]; exact hkw)
    rw [t0, t1, t2, t3, runBinary_ok reg kw A B C a b s fA fB hv] at hb
    exact step_of_ok reg _ _ _ hb
  refine ⟨?_, ?_, ?_, fun m k => Registry.find_assign reg C m k⟩
  · rintro ⟨hr, hc⟩
    obtain ⟨s, hs, _⟩ := Matrix.add_ok a b hr hc
    obtain ⟨d, hd, _⟩ := Matrix.sub_ok a b hr hc
    refine ⟨s, d, hs, hd, bin _ s (Or.inl rfl) (by rw [if_pos rfl]; exact hs),
      bin _ d (Or.inr (Or.inl rfl)) ?_⟩
    rw [if_neg (by decide), if_pos rfl]; exact hd
  · intro hc
    obtain ⟨p, hp, _⟩ := Matrix.mul_ok a b hc
    refine ⟨p, hp, bin _ p (Or.inr (Or.inr rfl)) ?_⟩
    rw [if_neg (by decide), if_neg (by decide)]; exact hp
  · intro m hm
    have hk : IsToken "inv".toList := isToken_keyword _ (by simp)
    obtain ⟨t0, t1, t2⟩ := readToken_three "inv".toList A C hk hA hC
    have hb := tryBlock_inv reg (commandLine ["inv".toList, A, C]) t0
    rw [t1, t2, runInv_ok reg A C a m fA hm] at hb
    exact step_of_ok reg _ _ _ hb

theorem command_stores_witness :
    IsToken "A".toList ∧
    sampleRegistry.find "A".toList = some (Matrix.ofData [[1, 2], [3, 4]]) ∧
    (∃ s d, (Matrix.ofData [[1, 2], [3, 4]]).add (Matrix.ofData [[1, 2], [3, 4]]) = .ok s ∧
      (Matrix.ofData [[1, 2], [3, 4]]).sub (Matrix.ofData [[1, 2], [3, 4]]) = .ok d ∧
      step sampleRegistry (commandLine ["add".toList, "A".toList, "A".toList, "A".toList]) =
        ⟨sampleRegistry.assign "A".toList s,
          [.prompt, .resultStored "A".toList, .print [] s], true⟩ ∧
      step sampleRegistry (commandLine ["sub".toList, "A".toList, "A".toList, "A".toList]) =
        ⟨sampleRegistry.assign "A".toList d,
          [.prompt, .resultStored "A".toList, .print [] d], true⟩) :=
  ⟨isToken_A, by decide!,
    (command_stores sampleRegistry "A".toList "A".toList "A".toList
      (Matrix.ofData [[1, 2], [3, 4]]) (Matrix.ofData [[1, 2], [3, 4]])
      isToken_A isToken_A isToken_A (by decide!) (by decide!)).1 ⟨rfl, rfl⟩⟩

/-- C19, as stated, fails: after `create A [1]` the line `add A A`, which has no third
operand, binds the sum to the empty name, which is no text token. -/
theorem empty_name_reachable :
    ([] : List Char) ∈
        (runLines [] ["create A [1]".toList, "add A A".toList]).keys ∧
      ¬ IsToken [] := by
  refine ⟨by decide!, ?_⟩
  intro h; exact h.1 rfl

/-- C19, amended: in every map reached from the empty map by a sequence of command
lines in which every `add`, `sub` or `mul` line has its third operand and every `inv`
line its second, every key is a non-empty text token without white space. -/
theorem registry_keys_tokens (commands : List (List Char))
    (h : ∀ command ∈ commands, HasTarget command) :
    ∀ k ∈ (runLines [] commands).keys, IsToken k := by
  have gen : ∀ (cs : List (List Char)) (reg : Registry),
      (∀ command ∈ cs, HasTarget command) → (∀ k ∈ reg.keys, IsToken k) →
      ∀ k ∈ (runLines reg cs).keys, IsToken k := by
    intro cs
    induction cs with
    | nil => intro reg _ hreg; exact hreg
    | cons c t ih =>
      intro reg hcs hreg
      have hc := hcs c (List.mem_cons_self _ _)
      unfold HasTarget at hc
      have hs : ∀ k ∈ (step reg c).registry.keys, IsToken k :=
        step_keys IsToken reg c hreg
          (fun s h1 h2 => ⟨create_name_ne_nil c s h1 h2, readToken_spaceFree _⟩)
          (fun h1 => ⟨hc.1 h1, readToken_spaceFree _⟩)
          (fun h1 => ⟨hc.2 h1, readToken_spaceFree _⟩)
      unfold runLines
      split_ifs
      · exact ih _ (fun x hx => hcs x (List.mem_cons_of_mem _ hx)) hs
      · exact hs
  exact gen commands [] h (fun k hk => by simp [Registry.keys] at hk)

theorem registry_keys_tokens_witness :
    (∀ command ∈ ["create A [1]".toList, "add A A B".toList], HasTarget command) ∧
    ∀ k ∈ (runLines [] ["create A [1]".toList, "add A A B".toList]).keys, IsToken k :=
  have h : ∀ command ∈ ["create A [1]".toList, "add A A B".toList], HasTarget command := by
    intro c hc
    simp only [List.mem_cons, List.mem_singleton, List.not_mem_nil, or_false] at hc
    rcases hc with rfl | rfl <;> (unfold HasTarget; decide)
  ⟨h, registry_keys_tokens _ h⟩

/-- C20: one iteration of the loop ends the loop exactly when the first
white-space-delimited token of the line is `exit`; on every other line the loop goes
on to await the next command. -/
theorem step_ends_iff_exit (reg : Registry) (command : List Char) :
    ((step reg command).running = false ↔
      (command.dropWhile isspace).takeWhile (fun ch => !isspace ch) = "exit".toList) ∧
    ((step reg command).running = true ↔
      (command.dropWhile isspace).takeWhile (fun ch => !isspace ch) ≠ "exit".toList) := by
  have hrt : (readToken command).1 =
      (command.dropWhile isspace).takeWhile (fun ch => !isspace ch) := rfl
  rw [← hrt]
  rcases step_cases reg command with ⟨hx, e⟩ | ⟨hx, _, _, e2, _⟩
  · rw [e]
    exact ⟨⟨fun _ => hx, fun _ => rfl⟩, ⟨fun c => (by cases c), fun c => absurd hx c⟩⟩
  · rw [e2]
    exact ⟨⟨fun c => (by cases c), fun c => absurd c hx⟩, ⟨fun _ => hx, fun _ => rfl⟩⟩

end MatrixCalc

namespace MatrixCalc

/-- C21 at its failing input: on a standard input holding the single line `ls`, with
or without its line feed, or holding nothing at all, the loop of `run` is not left
after any number of iterations.  Once the read fails the loop goes on with the value
`command` was left with, here writing the prompt and the unknown-command message
again and again; an input with an `exit` line does leave the loop. -/
theorem run_spins_at_end_of_input :
    (∀ fuel, (run fuel "ls\n".toList).left = false) ∧
    (∀ fuel, (run fuel "ls".toList).left = false) ∧
    (∀ fuel, (run fuel []).left = false) ∧
    run 4 "ls\n".toList =
      ⟨[], [.help, .prompt, .noMatrices, .prompt, .unknownCommand, .prompt, .unknownCommand,
        .prompt, .unknownCommand], false⟩ ∧
    run 3 "ls".toList =
      ⟨[], [.help, .prompt, .noMatrices, .prompt, .noMatrices, .prompt, .noMatrices],
        false⟩ ∧
    run 4 "ls\nexit\n".toList =
      ⟨[], [.help, .prompt, .noMatrices, .prompt, .goodbye], true⟩ := by
  refine ⟨fun fuel => run_never_left _ ?_ fuel, fun fuel => run_never_left _ ?_ fuel,
    fun fuel => run_never_left _ ?_ fuel, by decide, by decide, by decide⟩
  · unfold IsExit; decide
  · unfold IsExit; decide
  · unfold IsExit; decide

end MatrixCalc

namespace MatrixCalc

/-- C22: `clear` is display-only.  On every map and every line whose first token is
`clear`, one iteration of the loop writes the prompt and the clear-screen sequence,
leaves the map exactly as it was, so that every name keeps its matrix, and the loop
goes on. -/
theorem clear_display_only (reg : Registry) (command : List Char)
    (h : (readToken command).1 = "clear".toList) :
    step reg command = ⟨reg, [.prompt, .clearScreen], true⟩ ∧
      (step reg command).registry = reg ∧ (step reg command).running = true ∧
      ∀ name, (step reg command).registry.find name = reg.find name := by
  have e := step_of_ok reg command reg [.clearScreen] (tryBlock_clear reg command h)
  rw [e]
  exact ⟨rfl, rfl, rfl, fun _ => rfl⟩

theorem clear_display_only_witness :
    (readToken " clear now".toList).1 = "clear".toList ∧
    step sampleRegistry " clear now".toList =
      ⟨sampleRegistry, [.prompt, .clearScreen], true⟩ :=
  ⟨by decide, (clear_display_only sampleRegistry " clear now".toList (by decide)).1⟩

/-- C23, as stated, fails: after `clear` the map holding `A` and `B` still holds both,
and a following `ls` lists them instead of reporting that no matrices are stored. -/
theorem clear_keeps_entries :
    (step sampleRegistry "clear".toList).registry = sampleRegistry ∧
    (step sampleRegistry "clear".toList).registry ≠ [] ∧
    (step (step sampleRegistry "clear".toList).registry "ls".toList).output =
      [.prompt, .listing [("A".toList, 2, 2), ("B".toList, 1, 3)]] ∧
    (step (step sampleRegistry "clear".toList).registry "ls".toList).output ≠
      [.prompt, .noMatrices] := by
  refine ⟨by decide!, by decide!, by decide!, by decide!⟩

/-- C23, amended: `clear` destroys no entry and always succeeds.  On every map, after
`clear` a following `ls` does what it would have done before the `clear`, reporting
that no matrices are stored exactly when none were stored before; `clear` writes no
error and the loop goes on. -/
theorem clear_then_ls (reg : Registry) (command listing : List Char)
    (hc : (readToken command).1 = "clear".toList)
    (hl : (readToken listing).1 = "ls".toList) :
    step (step reg command).registry listing = step reg listing ∧
      ((step (step reg command).registry listing).output = [.prompt, .noMatrices] ↔
        reg = []) ∧
      (∀ what, Output.error what ∉ (step reg command).output) ∧
      (step reg command).running = true := by
  have e := step_of_ok reg command reg [.clearScreen] (tryBlock_clear reg command hc)
  have e2 := step_of_ok reg listing reg (listMatrices reg) (tryBlock_ls reg listing hl)
  rw [e]
  dsimp only
  rw [e2]
  refine ⟨rfl, ?_, ?_, rfl⟩
  · rw [← listMatrices_none_iff reg]
    simp
  · intro what
    simp

theorem clear_then_ls_witness :
    (readToken "clear".toList).1 = "clear".toList ∧
    (readToken "ls".toList).1 = "ls".toList ∧
    step (step sampleRegistry "clear".toList).registry "ls".toList =
      step sampleRegistry "ls".toList :=
  ⟨by decide, by decide,
    (clear_then_ls sampleRegistry "clear".toList "ls".toList (by decide) (by decide)).1⟩

/-- C24: on every map and every line `del name`: if `name` is bound, the entry of
`name` is removed, every other entry stays as it was, and the deletion is reported; if
`name` is not bound, the not-found message is written and the map stays as it was.  In
both cases the loop goes on. -/
theorem del_spec (reg : Registry) (command name : List Char)
    (h : (readToken command).1 = "del".toList)
    (hname : (readToken (readToken command).2).1 = name) :
    (step reg command).running = true ∧
    (reg.count name ≠ 0 →
      (step reg command).output = [.prompt, .deleted name] ∧
      (step reg command).registry.find name = none ∧
      (∀ k, k ≠ name → (step reg command).registry.find k = reg.find k) ∧
      (∀ e, e ∈ (step reg command).registry ↔ e ∈ reg ∧ e.1 ≠ name) ∧
      (step reg command).registry = reg.filter (fun e => !(e.1 == name))) ∧
    (reg.count name = 0 →
      (step reg command).output = [.prompt, .notFound name] ∧
      (step reg command).registry = reg) := by
  have e := tryBlock_del reg command h
  rw [hname] at e
  by_cases hc : reg.count name = 0
  · have e1 : tryBlock reg command = ⟨reg, [.notFound name], .ok true⟩ := by
      rw [e]; unfold runDel
      rw [if_neg (by simp [hc]), Registry.erase_of_count hc]
    rw [step_of_ok reg command _ _ e1]
    exact ⟨rfl, fun c => absurd hc c, fun _ => ⟨rfl, rfl⟩⟩
  · have e1 : tryBlock reg command = ⟨reg.erase name, [.deleted name], .ok true⟩ := by
      rw [e]; unfold runDel
      rw [if_pos hc]
    rw [step_of_ok reg command _ _ e1]
    refine ⟨rfl, fun _ => ⟨rfl, ?_, ?_, ?_, rfl⟩, fun c => absurd c hc⟩
    · dsimp only
      rw [Registry.find_erase, if_pos rfl]
    · intro k hk
      dsimp only
      rw [Registry.find_erase, if_neg hk]
    · intro e
      exact Registry.mem_erase reg name e

theorem del_spec_witness :
    (readToken "del A".toList).1 = "del".toList ∧
    (readToken (readToken "del A".toList).2).1 = "A".toList ∧
    (step sampleRegistry "del A".toList).running = true ∧
    (step sampleRegistry "del A".toList).registry =
      [("B".toList, Matrix.ofData [[1, 2, 3]])] :=
  ⟨by decide, by decide,
    (del_spec sampleRegistry "del A".toList "A".toList (by decide) (by decide)).1,
    ((del_spec sampleRegistry "del A".toList "A".toList (by decide) (by decide)).2.1
      (by decide)).2.2.2.2⟩

end MatrixCalc

namespace MatrixCalc

namespace Matrix

/-- C25: `inverse` throws its dimension error exactly when the matrix is not square,
and so does `determinant`, which throws nothing else; the shape is tested before
anything else.  The `2 × 3` matrix of the literal `[1,2,3;4,5,6]` fails `inv` with the
dimension error, not with the singular-matrix error, and the map stays as it was. -/
theorem square_check (m : Matrix) :
    ((∃ what, m.inverse = .error (.invalid_argument what)) ↔ m.rows ≠ m.cols) ∧
    (m.inverse = .error (.invalid_argument "Only square matrices can be inverted") ↔
      m.rows ≠ m.cols) ∧
    ((∃ e, m.determinant = .error e) ↔ m.rows ≠ m.cols) ∧
    (m.determinant =
        .error (.invalid_argument "Determinant can only be calculated for square matrices") ↔
      m.rows ≠ m.cols) ∧
    fromString "[1,2,3;4,5,6]".toList = .ok (ofData [[1, 2, 3], [4, 5, 6]]) ∧
    (ofData [[1, 2, 3], [4, 5, 6]]).inverse =
      .error (.invalid_argument "Only square matrices can be inverted") ∧
    step [("A".toList, ofData [[1, 2, 3], [4, 5, 6]])] "inv A B".toList =
      ⟨[("A".toList, ofData [[1, 2, 3], [4, 5, 6]])],
        [.prompt, .error "Only square matrices can be inverted"], true⟩ := by
  have hinv : m.rows = m.cols → ∀ what, m.inverse ≠ .error (.invalid_argument what) := by
    intro hsq what
    unfold inverse
    rw [if_neg (by simpa using hsq)]
    rcases normalize_cases m.rows (gaussianElimination m.augment) with
      ⟨_, r, hr, _⟩ | ⟨_, hr⟩
    · rw [hr]; simp
    · rw [hr]; simp
  have hdet : m.rows = m.cols → ∀ e, m.determinant ≠ .error e := by
    intro hsq e
    unfold determinant
    rw [if_neg (by simpa using hsq)]
    split_ifs <;> simp
  have hinv' : m.rows ≠ m.cols →
      m.inverse = .error (.invalid_argument "Only square matrices can be inverted") := by
    intro hne; unfold inverse; rw [if_pos hne]
  have hdet' : m.rows ≠ m.cols → m.determinant =
      .error (.invalid_argument "Determinant can only be calculated for square matrices") := by
    intro hne; unfold determinant; rw [if_pos hne]
  refine ⟨⟨?_, fun hne => ⟨_, hinv' hne⟩⟩, ⟨?_, hinv'⟩, ⟨?_, fun hne => ⟨_, hdet' hne⟩⟩,
    ⟨?_, hdet'⟩, by decide!, by decide!, by decide!⟩
  · rintro ⟨what, hw⟩ hsq
    exact hinv hsq what hw
  · intro hw hsq
    exact hinv hsq _ hw
  · rintro ⟨e, he⟩ hsq
    exact hdet hsq e he
  · intro he hsq
    exact hdet hsq _ he

/-- C26: `determinant` returns `a` on the `1 × 1` matrix `[a]` and `a*d - b*c` on the
`2 × 2` matrix `[a,b;c,d]`, whatever the size of the entries; the matrix parsed from
`[1,2;3,4]` has determinant `1*4 - 2*3 = -2`, and `det A` reports it. -/
theorem determinant_small (a b c d : ℚ) :
    (ofData [[a]]).determinant = .ok a ∧
    (ofData [[a, b], [c, d]]).determinant = .ok (a * d - b * c) ∧
    fromString "[1,2;3,4]".toList = .ok (ofData [[1, 2], [3, 4]]) ∧
    (ofData [[1, 2], [3, 4]]).determinant = .ok (1 * 4 - 2 * 3) ∧
    (ofData [[1, 2], [3, 4]]).determinant = .ok (-2) ∧
    (step sampleRegistry "det A".toList).output = [.prompt, .determinant "A".toList (-2)] := by
  refine ⟨?_, ?_, by decide!, by decide!, by decide!, by decide!⟩
  · simp [determinant, ofData, rd]
  · simp [determinant, ofData, rd]

end Matrix

end MatrixCalc

namespace MatrixCalc

namespace Matrix

/-- C27: for every `n ≥ 1` the method `determinant` returns exactly `1` on the `n × n`
identity matrix, in the branch for `n = 1`, in the branch for `n = 2` and in the
reduction for `n ≥ 3`. -/
theorem determinant_identity (n : Nat) (hn : 1 ≤ n) : (identity n).determinant = .ok 1 := by
  obtain ⟨h1, h2, h3, h4'⟩ := identity_agree n
  have h4 : ∀ i, i < n → ∀ j, j < n → rd (identity n).data i j = if i = j then 1 else 0 :=
    h4'
  unfold determinant
  rw [if_neg (by rw [h1, h2]; simp)]
  by_cases e1 : n = 1
  · subst e1
    rw [if_pos h1, h4 0 (by omega) 0 (by omega), if_pos rfl]
  · by_cases e2 : n = 2
    · subst e2
      rw [if_neg (by rw [h1]; omega), if_pos h1, h4 0 (by omega) 0 (by omega),
        h4 1 (by omega) 1 (by omega), h4 0 (by omega) 1 (by omega),
        h4 1 (by omega) 0 (by omega)]
      norm_num
    · rw [if_neg (by rw [h1]; exact e1), if_neg (by rw [h1]; exact e2), h1]
      rw [luLoop_identity h3 h4 (List.range n) (fun i hi => List.mem_range.mp hi) 1]

theorem determinant_identity_witness :
    1 ≤ 4 ∧ (identity 4).determinant = .ok 1 ∧
    identity 4 = ofData [[1, 0, 0, 0], [0, 1, 0, 0], [0, 0, 1, 0], [0, 0, 0, 1]] :=
  ⟨by decide, determinant_identity 4 (by decide), by decide!⟩

/-- C28: on every well-formed `n × n` matrix with a row `r < n` (so `n ≥ 1`) whose
entries are all zero the method `determinant` returns `0`, in the branch for `n = 1`,
in the branch for `n = 2` and in the reduction without pivoting for `n ≥ 3`, wherever
the row is. -/
theorem determinant_zero_row (m : Matrix) (hm : m.WF) (hsq : m.rows = m.cols)
    (r : Nat) (hr : r < m.rows)
    (hz : ∀ c, c < m.cols → rd m.data r c = 0) : m.determinant = .ok 0 := by
  have hs : Shape m.data m.rows m.rows := by
    have := hm; unfold WF at this; rw [← hsq] at this; exact this
  rw [← hsq] at hz
  unfold determinant
  rw [if_neg (by simpa using hsq)]
  by_cases e1 : m.rows = 1
  · rw [if_pos e1]
    have : r = 0 := by omega
    subst this
    rw [hz 0 (by omega)]
  · rw [if_neg e1]
    by_cases e2 : m.rows = 2
    · rw [if_pos e2]
      have : r = 0 ∨ r = 1 := by omega
      rcases this with rfl | rfl
      · rw [hz 0 (by omega), hz 1 (by omega)]; simp
      · rw [hz 0 (by omega), hz 1 (by omega)]; simp
    · rw [if_neg e2, List.range_eq_range']
      rw [luLoop_zero_row m.rows r hr m.rows 0 m.data 1 hs (by omega) (by omega) (by omega) hz]

theorem determinant_zero_row_witness :
    (ofData [[1, 2, 3], [4, 5, 6], [0, 0, 0]]).WF ∧
    (ofData [[1, 2, 3], [4, 5, 6], [0, 0, 0]]).determinant = .ok 0 :=
  ⟨WF_ofData_3x3 _ _ _ _ _ _ _ _ _,
    determinant_zero_row (ofData [[1, 2, 3], [4, 5, 6], [0, 0, 0]])
      (WF_ofData_3x3 _ _ _ _ _ _ _ _ _) rfl 2 (by decide)
      (by intro c hc
          have hc' : c < 3 := hc
          interval_cases c <;> decide!)⟩

end Matrix

end MatrixCalc

namespace MatrixCalc

namespace Matrix

/-- C29: for every `n ≥ 1` and every `n × n` diagonal matrix whose diagonal entries
`d i` all satisfy `|d i| ≥ 1e-10`, the method `inverse` succeeds and returns the
diagonal matrix with the entries `1 / d i` and zeros elsewhere. -/
theorem inverse_diagonal (n : Nat) (d : Nat → ℚ) (hn : 1 ≤ n)
    (hd : ∀ i, i < n → eps ≤ |d i|) :
    (diagonal n d).inverse = .ok (diagonal n (fun i => 1 / d i)) := by
  have hs := augment_diagonal n d
  unfold inverse
  rw [if_neg (by simp [diagonal])]
  rw [gaussianElimination_diag hs]
  have hrows : (diagonal n d).rows = n := rfl
  rw [hrows]
  obtain ⟨m, hm, hagree⟩ := normalize_ok n (diagonal n d).augment (by
    intro i hi
    rw [hs.2 i hi i (by omega), if_pos hi, if_pos rfl]
    exact not_lt.mpr (hd i hi))
  rw [hm]
  congr 1
  refine Agree.unique (hagree.congr ?_) (diagonal_agree n (fun i => 1 / d i))
  intro i hi j hj
  dsimp only
  rw [hs.2 i hi (j + n) (by omega), if_neg (by omega), hs.2 i hi i (by omega), if_pos hi,
    if_pos rfl]
  by_cases e : i = j
  · rw [if_pos (by omega), if_pos e]
  · rw [if_neg (by omega), if_neg e]; simp

theorem inverse_diagonal_witness :
    1 ≤ 2 ∧ (∀ i, i < 2 → eps ≤ |(fun i : Nat => if i = 0 then (2 : ℚ) else 3) i|) ∧
    (diagonal 2 (fun i => if i = 0 then 2 else 3)).inverse =
      .ok (diagonal 2 (fun i => 1 / (if i = 0 then 2 else 3))) ∧
    fromString "[2,0;0,3]".toList = .ok (diagonal 2 (fun i => if i = 0 then 2 else 3)) ∧
    diagonal 2 (fun i => 1 / (if i = 0 then 2 else 3)) = ofData [[1 / 2, 0], [0, 1 / 3]] :=
  have h : ∀ i, i < 2 → eps ≤ |(fun i : Nat => if i = 0 then (2 : ℚ) else 3) i| := by
    intro i hi
    interval_cases i <;> (unfold eps; norm_num)
  ⟨by decide, h, inverse_diagonal 2 (fun i => if i = 0 then 2 else 3) (by decide) h,
    by decide!, by decide!⟩

end Matrix

end MatrixCalc

namespace MatrixCalc

namespace Matrix

/-- C30: on a well-formed `R × C` matrix and for all integers `r`, `c`, the access
`M(r, c)` throws the index error exactly when `r < 0`, `r ≥ R`, `c < 0` or `c ≥ C`, for
reading and for writing alike.  Otherwise reading yields the stored entry
`data[r][c]`, and writing `v` through it yields a well-formed matrix of the same shape
that holds `v` at `(r, c)` and at every other pair of indices behaves as before. -/
theorem elem_spec (m : Matrix) (hm : m.WF) (r c : Int) (v : ℚ) :
    ((∃ e, m.elem r c = .error e) ↔
      (r < 0 ∨ r ≥ (m.rows : Int) ∨ c < 0 ∨ c ≥ (m.cols : Int))) ∧
    (m.elem r c = .error (.out_of_range "Matrix index out of range") ↔
      (r < 0 ∨ r ≥ (m.rows : Int) ∨ c < 0 ∨ c ≥ (m.cols : Int))) ∧
    (m.elemAssign r c v = .error (.out_of_range "Matrix index out of range") ↔
      (r < 0 ∨ r ≥ (m.rows : Int) ∨ c < 0 ∨ c ≥ (m.cols : Int))) ∧
    (¬ (r < 0 ∨ r ≥ (m.rows : Int) ∨ c < 0 ∨ c ≥ (m.cols : Int)) →
      (∃ row x, m.data[r.toNat]? = some row ∧ row[c.toNat]? = some x ∧
        m.elem r c = .ok x) ∧
      ∃ m', m.elemAssign r c v = .ok m' ∧ m'.rows = m.rows ∧ m'.cols = m.cols ∧ m'.WF ∧
        m'.elem r c = .ok v ∧
        ∀ r' c' : Int, (r' ≠ r ∨ c' ≠ c) → m'.elem r' c' = m.elem r' c') := by
  by_cases hout : r < 0 ∨ r ≥ (m.rows : Int) ∨ c < 0 ∨ c ≥ (m.cols : Int)
  · have e1 : m.elem r c = .error (.out_of_range "Matrix index out of range") := by
      unfold elem; rw [if_pos hout]
    have e2 : m.elemAssign r c v = .error (.out_of_range "Matrix index out of range") := by
      unfold elemAssign; rw [if_pos hout]
    exact ⟨⟨fun _ => hout, fun _ => ⟨_, e1⟩⟩, ⟨fun _ => hout, fun _ => e1⟩,
      ⟨fun _ => hout, fun _ => e2⟩, fun h => absurd hout h⟩
  · have e1 : m.elem r c = .ok (rd m.data r.toNat c.toNat) := by
      unfold elem; rw [if_neg hout]
    have e2 : m.elemAssign r c v = .ok { m with data := wr m.data r.toNat c.toNat v } := by
      unfold elemAssign; rw [if_neg hout]
    have hr : r.toNat < m.rows := by omega
    have hc : c.toNat < m.cols := by omega
    have hlen : r.toNat < m.data.length := by rw [hm.1]; exact hr
    have hrow : (m.data[r.toNat]).length = m.cols := hm.2 _ (List.getElem_mem _)
    have hc' : c.toNat < (m.data[r.toNat]).length := by rw [hrow]; exact hc
    have hrd : rd m.data r.toNat c.toNat = (m.data[r.toNat])[c.toNat] := by
      unfold rd
      rw [List.getD_eq_getElem _ _ hlen, List.getD_eq_getElem _ _ hc']
    refine ⟨⟨?_, fun h => absurd h hout⟩, ⟨?_, fun h => absurd h hout⟩,
      ⟨?_, fun h => absurd h hout⟩, fun _ => ⟨?_, ?_⟩⟩
    · rintro ⟨e, he⟩
      rw [e1] at he
      cases he
    · intro he
      rw [e1] at he
      cases he
    · intro he
      rw [e2] at he
      cases he
    · refine ⟨m.data[r.toNat], (m.data[r.toNat])[c.toNat], ?_, ?_, ?_⟩
      · exact List.getElem?_eq_getElem hlen
      · exact List.getElem?_eq_getElem hc'
      · rw [e1, hrd]
    · refine ⟨_, e2, rfl, rfl, ?_, ?_, ?_⟩
      · exact Shape.wr hm _ _ _
      · unfold elem
        rw [if_neg hout]
        dsimp only
        rw [rd_wr hm hr hc, if_pos ⟨rfl, rfl⟩]
      · intro r' c' hne
        unfold elem
        dsimp only
        by_cases hout' : r' < 0 ∨ r' ≥ (m.rows : Int) ∨ c' < 0 ∨ c' ≥ (m.cols : Int)
        · rw [if_pos hout', if_pos hout']
        · rw [if_neg hout', if_neg hout', rd_wr hm hr hc, if_neg (by omega)]

theorem elem_spec_witness :
    (ofData [[1, 2, 3], [4, 5, 6]]).WF ∧
    (ofData [[1, 2, 3], [4, 5, 6]]).elem 1 2 = .ok 6 ∧
    (ofData [[1, 2, 3], [4, 5, 6]]).elemAssign 1 2 9 = .ok (ofData [[1, 2, 3], [4, 5, 9]]) ∧
    (ofData [[1, 2, 3], [4, 5, 6]]).elem 2 0 =
      .error (.out_of_range "Matrix index out of range") ∧
    ((ofData [[1, 2, 3], [4, 5, 6]]).elem (-1) 0 =
        .error (.out_of_range "Matrix index out of range") ↔
      ((-1 : Int) < 0 ∨ (-1 : Int) ≥ ((ofData [[1, 2, 3], [4, 5, 6]]).rows : Int) ∨
        (0 : Int) < 0 ∨ (0 : Int) ≥ ((ofData [[1, 2, 3], [4, 5, 6]]).cols : Int))) :=
  have hwf : (ofData [[1, 2, 3], [4, 5, 6]]).WF := by
    refine ⟨rfl, ?_⟩
    intro row hrow
    simp only [ofData, List.mem_cons, List.mem_singleton, List.not_mem_nil, or_false] at hrow
    rcases hrow with rfl | rfl <;> rfl
  ⟨hwf, by decide!, by decide!, by decide!,
    (elem_spec (ofData [[1, 2, 3], [4, 5, 6]]) hwf (-1) 0 0).2.1⟩

end Matrix

end MatrixCalc

namespace MatrixCalc

namespace Matrix

/-- C31, as stated, fails: the literal `[1]` is parsed to the matrix `[1]`, and the
text that `print` writes for that matrix is parsed to it again under no rendering of
numbers whatsoever. -/
theorem display_round_trip_fails :
    parseMatrixString "[1]".toList = .ok [[1]] ∧
    ¬ ∃ num : Bool → Nat → Nat → ℚ → List Char,
      parseMatrixString
        (renderPieces num ((ofData [[1]]).print [] Cout.initial).written) = .ok [[1]] := by
  refine ⟨by decide!, ?_⟩
  rintro ⟨num, h⟩
  obtain ⟨⟨s, rest, hw⟩, _⟩ := print_written (ofData [[1]]) [] false 6 (Or.inr (by decide))
  have hw' : ((ofData [[1]]).print [] Cout.initial).written =
      Piece.text 0 ('\x1b' :: s) :: rest := hw
  rw [hw'] at h
  simp only [renderPieces, Nat.zero_sub, List.replicate_zero, List.nil_append,
    List.cons_append] at h
  rw [parseMatrixString_escape] at h
  cases h

/-- C31, amended: for every text that `parseMatrixString` accepts, the matrix parsed is
displayed entry by entry, the numbers written by `print` being the parsed numbers row
by row; what is written is a table, not a literal: it begins with an escape sequence,
and parsing it again fails with the bracket error, however the library renders the
numbers and whatever the notation and precision of the stream. -/
theorem display_not_literal (input : List Char) (data : List (List ℚ))
    (h : parseMatrixString input = .ok data) (num : Bool → Nat → Nat → ℚ → List Char)
    (name : List Char) (fixed : Bool) (precision : Nat) :
    ((ofData data).print name ⟨fixed, precision, 0, []⟩).written.filterMap Piece.value =
      data.flatten ∧
    parseMatrixString
        (renderPieces num ((ofData data).print name ⟨fixed, precision, 0, []⟩).written) =
      .error (.invalid_argument "Invalid matrix format: must be enclosed in []") := by
  obtain ⟨first, rest, hd, h1, h2⟩ := parseMatrixString_shape input data h
  have hrows : 0 < (ofData data).rows := by subst hd; simp [ofData]
  have hshape : Shape data (ofData data).rows (ofData data).cols := by
    subst hd
    exact ⟨rfl, fun row hrow => by simpa [ofData] using h2 row hrow⟩
  obtain ⟨⟨s, more, hw⟩, hv⟩ := print_written (ofData data) name fixed precision (Or.inr hrows)
  refine ⟨?_, ?_⟩
  · rw [hv]
    have : (ofData data).data = data := rfl
    rw [this, tabulate_rows hshape]
  · rw [hw]
    simp only [renderPieces, Nat.zero_sub, List.replicate_zero, List.nil_append,
      List.cons_append]
    exact parseMatrixString_escape _

theorem display_not_literal_witness :
    parseMatrixString "[1,2;3,4]".toList = .ok [[1, 2], [3, 4]] ∧
    ((ofData [[1, 2], [3, 4]]).print [] ⟨false, 6, 0, []⟩).written.filterMap Piece.value =
      [1, 2, 3, 4] ∧
    parseMatrixString
        (renderPieces (fun _ _ _ _ => ['0'])
          ((ofData [[1, 2], [3, 4]]).print [] ⟨false, 6, 0, []⟩).written) =
      .error (.invalid_argument "Invalid matrix format: must be enclosed in []") :=
  ⟨by decide!,
    (display_not_literal "[1,2;3,4]".toList [[1, 2], [3, 4]] (by decide!)
      (fun _ _ _ _ => ['0']) [] false 6).1,
    (display_not_literal "[1,2;3,4]".toList [[1, 2], [3, 4]] (by decide!)
      (fun _ _ _ _ => ['0']) [] false 6).2⟩

end Matrix

end MatrixCalc

namespace MatrixCalc

/-- C32: on every map and every line whose keyword is `show`, `det`, `ls` or `help`, or
is not a keyword of the program at all (as on an empty line), the map after the
iteration is the map before it, so that a name that is not bound stays unbound, and the
loop goes on; a line without a keyword of the program gets the unknown-command
message. -/
theorem lookup_keeps_registry (reg : Registry) (command : List Char)
    (h : (readToken command).1 = "show".toList ∨ (readToken command).1 = "det".toList ∨
      (readToken command).1 = "ls".toList ∨ (readToken command).1 = "help".toList ∨
      (readToken command).1 ∉ keywords) :
    (step reg command).registry = reg ∧ (step reg command).running = true ∧
      (∀ name, reg.count name = 0 → (step reg command).registry.count name = 0) ∧
      ((readToken command).1 ∉ keywords →
        (step reg command).output = [.prompt, .unknownCommand]) := by
  have key : (step reg command).registry = reg ∧ (step reg command).running = true := by
    rcases h with h | h | h | h | h
    · have e := tryBlock_show reg command h
      obtain ⟨q1, q2⟩ := runShow_registry reg (readToken (readToken command).2).1
      obtain ⟨r1, r2⟩ := step_registry_of_block reg command (by rw [e, q2]; simp)
      rw [r1, e, q1]
      exact ⟨rfl, r2⟩
    · have e := tryBlock_det reg command h
      obtain ⟨q1, q2⟩ := runDet_registry reg (readToken (readToken command).2).1
      obtain ⟨r1, r2⟩ := step_registry_of_block reg command (by rw [e]; exact q2)
      rw [r1, e, q1]
      exact ⟨rfl, r2⟩
    · rw [step_of_ok reg command reg _ (tryBlock_ls reg command h)]
      exact ⟨rfl, rfl⟩
    · rw [step_of_ok reg command reg _ (tryBlock_help reg command h)]
      exact ⟨rfl, rfl⟩
    · rw [step_of_ok reg command reg _ (tryBlock_unknown reg command h)]
      exact ⟨rfl, rfl⟩
  refine ⟨key.1, key.2, ?_, ?_⟩
  · intro name hname
    rw [key.1]
    exact hname
  · intro hk
    rw [step_of_ok reg command reg _ (tryBlock_unknown reg command hk)]

theorem lookup_keeps_registry_witness :
    ((readToken "show Z".toList).1 = "show".toList ∨
      (readToken "show Z".toList).1 = "det".toList ∨
      (readToken "show Z".toList).1 = "ls".toList ∨
      (readToken "show Z".toList).1 = "help".toList ∨
      (readToken "show Z".toList).1 ∉ keywords) ∧
    (step sampleRegistry "show Z".toList).registry = sampleRegistry ∧
    (step sampleRegistry "show Z".toList).output = [.prompt, .notFound "Z".toList] ∧
    (step sampleRegistry "det Z".toList).output = [.prompt, .error "Matrix not found"] ∧
    (step sampleRegistry [] ).output = [.prompt, .unknownCommand] :=
  ⟨Or.inl (by decide),
    (lookup_keeps_registry sampleRegistry "show Z".toList (Or.inl (by decide))).1,
    by decide!, by decide!, by decide!⟩

end MatrixCalc

namespace MatrixCalc

/-- C33: on the line `create <name> <literal>`, where `<name>` is a token without `[`
and `<literal>` a bracketed text that `parseMatrixString` accepts, the text handed to
the parser is `<literal>` and the map afterwards is the old map with `<name>` bound to
the parsed matrix and every other name as before.  On every line the text handed to the
parser runs from the first `[` to the last `]`, and a `create` line without a `[`
before a `]` is reported as an error and leaves the map as it was. -/
theorem create_spec (reg : Registry) (name body : List Char) (data : List (List ℚ))
    (hname : IsToken name) (hbr : '[' ∉ name)
    (hparse : Matrix.parseMatrixString ('[' :: body ++ [']']) = .ok data) :
    extractMatrixString (commandLine ["create".toList, name, '[' :: body ++ [']']]) =
      .ok ('[' :: body ++ [']']) ∧
    step reg (commandLine ["create".toList, name, '[' :: body ++ [']']]) =
      ⟨reg.assign name (Matrix.ofData data),
        [.prompt, .created name, .print [] (Matrix.ofData data)], true⟩ ∧
    (reg.assign name (Matrix.ofData data)).find name = some (Matrix.ofData data) ∧
    (∀ k, k ≠ name → (reg.assign name (Matrix.ofData data)).find k = reg.find k) ∧
    (∀ command s, extractMatrixString command = .ok s →
      ∃ p q, findFirst '[' command = some p ∧ findLast ']' command = some q ∧
        s = (command.drop p).take (q - p + 1)) ∧
    (∀ command : List Char, (readToken command).1 = "create".toList →
      (¬ ∃ p q : Nat, p < q ∧ command[p]? = some '[' ∧ command[q]? = some ']') →
      step reg command = ⟨reg, [.prompt,
        .error "Invalid command: Matrix part not found or incorrectly formatted"], true⟩) := by
  have hline : commandLine ["create".toList, name, '[' :: body ++ [']']] =
      ("create".toList ++ ' ' :: (name ++ [' '])) ++ ('[' :: body ++ [']']) := by
    simp [commandLine, List.intercalate, List.intersperse]
  have hpre : '[' ∉ "create".toList ++ ' ' :: (name ++ [' ']) := by
    intro c
    rw [List.mem_append, List.mem_cons, List.mem_append] at c
    rcases c with c | c | c | c
    · revert c; decide
    · revert c; decide
    · exact hbr c
    · revert c; decide
  have hx : extractMatrixString (commandLine ["create".toList, name, '[' :: body ++ [']']]) =
      .ok ('[' :: body ++ [']']) := by
    rw [hline]
    exact extractMatrixString_split _ body hpre
  obtain ⟨t1, t2⟩ := readToken_create_line name ('[' :: body ++ [']']) hname
  refine ⟨hx, ?_, ?_, ?_, ?_, ?_⟩
  · apply step_of_ok
    rw [tryBlock_create _ _ t1, t2]
    exact runCreate_ok reg _ name _ data hx hparse
  · rw [Registry.find_assign, if_pos rfl]
  · intro k hk
    rw [Registry.find_assign, if_neg hk]
  · intro line s hs
    obtain ⟨p, q, _, _, _, h1, h2, h3⟩ := extractMatrixString_ok line s hs
    exact ⟨p, q, h1, h2, h3⟩
  · intro line hc hno
    have he : extractMatrixString line = .error (.invalid_argument
        "Invalid command: Matrix part not found or incorrectly formatted") := by
      rcases extractMatrixString_cases line with ⟨s, hs⟩ | he
      · obtain ⟨p, q, h1, h2, h3, _⟩ := extractMatrixString_ok line s hs
        exact absurd ⟨p, q, h1, h2, h3⟩ hno
      · exact he
    have hb := runCreate_error reg line (readToken (readToken line).2).1 _ he
    rw [← tryBlock_create _ _ hc] at hb
    rw [step_of_error reg line reg [] _ hb]
    rfl

theorem create_spec_witness :
    IsToken "A".toList ∧ '[' ∉ "A".toList ∧
    Matrix.parseMatrixString ('[' :: "1, 2; 3, 4".toList ++ [']']) = .ok [[1, 2], [3, 4]] ∧
    commandLine ["create".toList, "A".toList, '[' :: "1, 2; 3, 4".toList ++ [']']] =
      "create A [1, 2; 3, 4]".toList ∧
    step sampleRegistry
        (commandLine ["create".toList, "A".toList, '[' :: "1, 2; 3, 4".toList ++ [']']]) =
      ⟨sampleRegistry.assign "A".toList (Matrix.ofData [[1, 2], [3, 4]]),
        [.prompt, .created "A".toList, .print [] (Matrix.ofData [[1, 2], [3, 4]])], true⟩ ∧
    step sampleRegistry "create A ]1[".toList = ⟨sampleRegistry, [.prompt,
      .error "Invalid command: Matrix part not found or incorrectly formatted"], true⟩ :=
  ⟨isToken_A, by decide, by decide!, by decide,
    (create_spec sampleRegistry "A".toList "1, 2; 3, 4".toList [[1, 2], [3, 4]] isToken_A
      (by decide) (by decide!)).2.1, by decide!⟩

end MatrixCalc

namespace MatrixCalc

/-- C34: partial pivoting.  For every `n × 2n` augmented matrix and every pivot column
`i < n`, the row index `p` found by the pivot search of `gaussianElimination` lies in
`[i, n)`, its entry in column `i` has the largest absolute value among the rows
`i..n-1`, and it is the lowest such index.  After the swap of the rows `p` and `i` the
entry `aug[i][i]` is at least as large in absolute value as `aug[k][i]` for every `k`
in `(i, n)`, and the swap changes only the order of the rows: row `i` is the former
row `p`, row `p` the former row `i`, every other row stays in place. -/
theorem pivot_choice (aug : List (List ℚ)) (n i : Nat) (hs : Shape aug n (2 * n))
    (hi : i < n) :
    i ≤ pivotRow aug n i ∧ pivotRow aug n i < n ∧
    (∀ t, i ≤ t → t < n → |rd aug t i| ≤ |rd aug (pivotRow aug n i) i|) ∧
    (∀ t, i ≤ t → t < pivotRow aug n i → |rd aug t i| < |rd aug (pivotRow aug n i) i|) ∧
    (∀ k, i < k → k < n →
      |rd (swapRows aug (pivotRow aug n i) i) k i| ≤
        |rd (swapRows aug (pivotRow aug n i) i) i i|) ∧
    (swapRows aug (pivotRow aug n i) i).getD i [] = aug.getD (pivotRow aug n i) [] ∧
    (swapRows aug (pivotRow aug n i) i).getD (pivotRow aug n i) [] = aug.getD i [] ∧
    (∀ x, x ≠ i → x ≠ pivotRow aug n i →
      (swapRows aug (pivotRow aug n i) i).getD x [] = aug.getD x []) ∧
    List.Perm (swapRows aug (pivotRow aug n i) i) aug := by
  obtain ⟨h1, h2, h3, h4⟩ := pivotRow_spec aug n i hi
  have hp : pivotRow aug n i < aug.length := by rw [hs.1]; exact h2
  have hi' : i < aug.length := by rw [hs.1]; exact hi
  refine ⟨h1, h2, h3, h4, ?_, ?_, ?_, ?_, swapRows_perm aug _ i hp hi'⟩
  · intro k hk1 hk2
    rw [rd_swapRows hs h2 hi, rd_swapRows hs h2 hi, if_pos rfl, if_neg (by omega)]
    split_ifs with e
    · exact h3 i (le_refl i) hi
    · exact h3 k (by omega) hk2
  · rw [swapRows_getD aug _ i hp hi', if_pos rfl]
  · rw [swapRows_getD aug _ i hp hi']
    by_cases e : pivotRow aug n i = i
    · rw [if_pos e, e]
    · rw [if_neg e, if_pos rfl]
  · intro x hx1 hx2
    rw [swapRows_getD aug _ i hp hi', if_neg hx1, if_neg hx2]

theorem pivot_choice_witness :
    Shape [[1, 5, 1, 0], [-3, 1, 0, 1]] 2 (2 * 2) ∧ 0 < 2 ∧
    pivotRow [[1, 5, 1, 0], [-3, 1, 0, 1]] 2 0 = 1 ∧
    swapRows [[1, 5, 1, 0], [-3, 1, 0, 1]] 1 0 = [[-3, 1, 0, 1], [1, 5, 1, 0]] ∧
    pivotRow [[1, 5, 1, 0], [-3, 1, 0, 1]] 2 0 < 2 ∧
    List.Perm
      (swapRows [[1, 5, 1, 0], [-3, 1, 0, 1]] (pivotRow [[1, 5, 1, 0], [-3, 1, 0, 1]] 2 0) 0)
      [[1, 5, 1, 0], [-3, 1, 0, 1]] :=
  have hs : Shape [[1, 5, 1, 0], [-3, 1, 0, 1]] 2 (2 * 2) := ⟨rfl, by decide⟩
  ⟨hs, by decide, by decide!, by decide!,
    (pivot_choice [[1, 5, 1, 0], [-3, 1, 0, 1]] 2 0 hs (by decide)).2.1,
    (pivot_choice [[1, 5, 1, 0], [-3, 1, 0, 1]] 2 0 hs (by decide)).2.2.2.2.2.2.2.2⟩

end MatrixCalc

namespace MatrixCalc

namespace Matrix

end Matrix

end MatrixCalc

namespace MatrixCalc

namespace Matrix

/-- C36, as stated, fails: on the singular matrix `[1,2;2,4]` the call of `inverse`
divides by zero, in the back substitution, where the pivot `aug[1][1]` left by the
forward elimination is `0`; the call then fails with the singular-matrix error. -/
theorem inverse_divides_by_zero :
    (0 : ℚ) ∈ inverseDivisors (ofData [[1, 2], [2, 4]]) ∧
    inverseDivisors (ofData [[1, 2], [2, 4]]) = [2, 0, 2, 2] ∧
    (ofData [[1, 2], [2, 4]]).inverse = .error (.runtime_error "Matrix is not invertible") := by
  refine ⟨by decide!, by decide!, by decide!⟩

/-- C36, amended: on every matrix whose determinant is not zero, no division of
`inverse` has a zero divisor.  On every matrix, every division of the normalisation
step has a divisor of absolute value at least `1e-10`, and every divisor of a division
in `gaussianElimination` is a diagonal entry of the reduced matrix, which `inverse`
tests afterwards: a call in which some divisor is zero fails with the singular-matrix
error, and in a call that returns a matrix every divisor has absolute value at least
`1e-10`. -/
theorem inverse_divisors_checked (m : Matrix) :
    (∀ x ∈ normalizeDivisors m.rows (gaussianElimination m.augment) (List.range m.rows),
      eps ≤ |x|) ∧
    (∀ x ∈ (gaussianEliminationDiv m.augment).2,
      ∃ i, i < m.rows ∧ x = rd (gaussianElimination m.augment) i i) ∧
    ((0 : ℚ) ∈ inverseDivisors m →
      m.inverse = .error (.runtime_error "Matrix is not invertible")) ∧
    (∀ M, m.inverse = .ok M → ∀ x ∈ inverseDivisors m, eps ≤ |x| ∧ x ≠ 0) ∧
    ((toSq m.rows m.data).det ≠ 0 → ∀ x ∈ inverseDivisors m, x ≠ 0) := by
  have hg := gaussianEliminationDiv_spec (augment_spec m).1
  have hn := normalizeDivisors_large m.rows (gaussianElimination m.augment) (List.range m.rows)
  have hmem : ∀ x ∈ inverseDivisors m, m.rows = m.cols ∧
      ((∃ i, i < m.rows ∧ x = rd (gaussianElimination m.augment) i i) ∨ eps ≤ |x|) := by
    intro x hx
    unfold inverseDivisors at hx
    by_cases hsq : m.rows ≠ m.cols
    · rw [if_pos hsq] at hx
      exact absurd hx (List.not_mem_nil x)
    · rw [if_neg hsq, gaussianEliminationDiv_fst] at hx
      refine ⟨not_not.mp hsq, ?_⟩
      rcases List.mem_append.mp hx with hx | hx
      · exact Or.inl (hg x hx)
      · exact Or.inr (hn x hx)
  have hpos : ∀ x : ℚ, eps ≤ |x| → x ≠ 0 := by
    intro x hx e
    rw [e, abs_zero] at hx
    exact absurd eps_pos (not_lt.mpr hx)
  refine ⟨hn, hg, ?_, ?_, ?_⟩
  · intro h0
    obtain ⟨hsq, h⟩ := hmem 0 h0
    rcases h with ⟨i, hi, e⟩ | h
    · unfold inverse
      rw [if_neg (by simpa using hsq)]
      exact normalize_error m.rows _ i hi (by rw [← e, abs_zero]; exact eps_pos)
    · exact absurd rfl (hpos 0 h)
  · intro M hM x hx
    obtain ⟨_, hdiag, _⟩ := inverse_left m M hM
    obtain ⟨_, h⟩ := hmem x hx
    rcases h with ⟨i, hi, e⟩ | h
    · have := not_lt.mp (hdiag i hi)
      rw [← e] at this
      exact ⟨this, hpos x this⟩
    · exact ⟨h, hpos x h⟩
  · intro hdet x hx
    obtain ⟨_, h⟩ := hmem x hx
    rcases h with ⟨i, hi, e⟩ | h
    · rw [e]
      exact gaussianElimination_diag_ne_zero m hdet i hi
    · exact hpos x h

theorem inverse_divisors_checked_witness :
    (toSq (ofData [[1, 2], [3, 4]]).rows (ofData [[1, 2], [3, 4]]).data).det ≠ 0 ∧
    (∀ x ∈ inverseDivisors (ofData [[1, 2], [3, 4]]), x ≠ 0) ∧
    inverseDivisors (ofData [[1, 2], [3, 4]]) = [3, 2 / 3, 3, 3, 2 / 3, 2 / 3] :=
  have hdet : (toSq (ofData [[1, 2], [3, 4]]).rows (ofData [[1, 2], [3, 4]]).data).det ≠ 0 := by
    show (toSq 2 [[1, 2], [3, 4]]).det ≠ 0
    rw [Matrix.det_fin_two]
    simp [toSq, rd]
    norm_num
  ⟨hdet, (inverse_divisors_checked (ofData [[1, 2], [3, 4]])).2.2.2.2 hdet, by decide!⟩

end Matrix

end MatrixCalc

namespace MatrixCalc

namespace Matrix

/-- C37 at its failing input: printed on a fresh `std::cout`, the matrix `[1,2;3,4]`
has the first-column entry `1` of its first row written in the default format, but the
first-column entry `3` of its second row written in fixed notation with precision `2`,
since `std::fixed` and `std::setprecision(2)` stay in effect once the second column of
the first row has set them; only the width `10` applies to the other columns alone.
The stream keeps that state: a matrix printed afterwards has its very first entry
written in fixed notation as well. -/
theorem print_first_column :
    ((ofData [[1, 2], [3, 4]]).print [] Cout.initial).written =
      [.text 0 "\x1b[1;33m|\x1b[0m ".toList,
        .number false 6 0 1, .text 0 " ".toList, .number true 2 10 2, .text 0 " ".toList,
        .text 0 "\x1b[1;33m|\x1b[0m\n".toList,
        .text 0 "\x1b[1;33m|\x1b[0m ".toList,
        .number true 2 0 3, .text 0 " ".toList, .number true 2 10 4, .text 0 " ".toList,
        .text 0 "\x1b[1;33m|\x1b[0m\n".toList] ∧
    ((ofData [[1, 2], [3, 4]]).print [] Cout.initial).fixed = true ∧
    ((ofData [[1, 2], [3, 4]]).print [] Cout.initial).precision = 2 ∧
    ((ofData [[5]]).print [] Cout.initial).written =
      [.text 0 "\x1b[1;33m|\x1b[0m ".toList, .number false 6 0 5, .text 0 " ".toList,
        .text 0 "\x1b[1;33m|\x1b[0m\n".toList] ∧
    ((ofData [[5]]).print [] ((ofData [[1, 2], [3, 4]]).print [] ⟨false, 6, 0, []⟩)).written.drop
        12 =
      [.text 0 "\x1b[1;33m|\x1b[0m ".toList, .number true 2 0 5, .text 0 " ".toList,
        .text 0 "\x1b[1;33m|\x1b[0m\n".toList] := by
  refine ⟨by decide!, by decide!, by decide!, by decide!, by decide!⟩

end Matrix

end MatrixCalc

